import Mathlib

/-!
# The expression evaluator of the NEMU simple debugger

A shallow embedding of `nemu/src/monitor/sdb/expr.c`: the tokenizer
`make_token`, the helpers `check_parentheses`, `find_main_op` and
`get_priority`, the recursive evaluator `eval` and the entry point `expr`;
of the command `cmd_p` of `nemu/src/monitor/sdb/sdb.c`, which calls `expr`; and
of the register lookup `isa_reg_str2val` of `nemu/src/isa/riscv32/reg.c`.

Conventions of the embedding.

* C `int` variables (token types, indices, counters) are `Int`; the values
  they take here stay far below the 32-bit range, so no wraparound is modelled
  for them.  `uint32_t` values are `Nat` reduced modulo `2 ^ 32`.
* A C string is the list of its characters before the terminating NUL.
* The file-scope variables `tokens` and `nr_token` form the `State` that is
  passed to and returned from the functions that touch them.  The array
  `tokens` is a total map from indices to tokens.
* The functions are embedded at two levels.  On the tokens, the text of a
  token is the list of characters that `strncpy` copies, of any length.  On the
  bytes, the array `tokens` is its 1152 bytes, and a digit run of 32 or more
  characters runs over the field `str` into the bytes that follow, as the
  source lets it.  The theorems `make_token_bytes_refines` and
  `expr_bytes_refines` show that the two levels return the same on every input
  whose digit runs have at most 31 characters.
* `bool *success` is a `Bool` passed in and returned.
* Recursion that the source bounds only implicitly takes a fuel argument and
  returns `none` when the fuel runs out; the theorems `make_token_total`,
  `evalL_total`, `eval_total` and `expr_total` show that the fuel used is
  enough.
* The calls of `printf` and `Log` are left out.

The file has the definitions first: the embedding of the source, the same
scans restated over lists of tokens, the token sequence `lex` of an input, the
grammar `G` with a recursive-descent and a precedence-climbing parser, the
calls of `eval`, the array as bytes, the array reads of `eval`, and the
register lookup.  The theorems follow.
-/

namespace Sdb

/-! ## Token types and tokens -/

/-- The enum constant `TK_NOTYPE = 256`. -/
abbrev TK_NOTYPE : Int := 256
/-- The enum constant `TK_EQ`. -/
abbrev TK_EQ : Int := 257
/-- The enum constant `TK_ADD`. -/
abbrev TK_ADD : Int := 258
/-- The enum constant `TK_SUB`. -/
abbrev TK_SUB : Int := 259
/-- The enum constant `TK_MUL`. -/
abbrev TK_MUL : Int := 260
/-- The enum constant `TK_DIV`. -/
abbrev TK_DIV : Int := 261
/-- The enum constant `TK_LPAREN`. -/
abbrev TK_LPAREN : Int := 262
/-- The enum constant `TK_RPAREN`. -/
abbrev TK_RPAREN : Int := 263
/-- The enum constant `TK_NUM`. -/
abbrev TK_NUM : Int := 264

/-- The constant `INT_MAX` of `limits.h` for a 32-bit `int`. -/
abbrev INT_MAX : Int := 2147483647

/-- The struct `Token`: `type` and the text `str`.  The text is the list of
characters that `make_token` copies with `strncpy`; the source does not
compare the copied length with the 32 bytes of the field, and neither does
this structure.  Where the text has 32 or more characters the layout in memory
matters: see `Memory` and `make_token_bytes`. -/
structure Token where
  type : Int
  str : List Char
deriving DecidableEq, Inhabited

/-- The file-scope variables `tokens` and `nr_token`. -/
structure State where
  tokens : Int → Token
  nr_token : Int

/-! ## The rule table and POSIX matching -/

/-- A single-character pattern: a literal character or a bracket range. -/
inductive Atom where
  | chr (c : Char)
  | range (lo hi : Char)
deriving DecidableEq

/-- The two shapes of regular expression in the rule table: one atom, or
one atom followed by `+`. -/
inductive Regex where
  | one (a : Atom)
  | plus (a : Atom)
deriving DecidableEq

/-- Whether an atom matches a character. -/
def Atom.accepts : Atom → Char → Bool
  | .chr c, x => x == c
  | .range lo hi, x => decide (lo.toNat ≤ x.toNat) && decide (x.toNat ≤ hi.toNat)

/-- The atom of a regular expression. -/
def Regex.atom : Regex → Atom
  | .one a => a
  | .plus a => a

/-- The library call `regexec(&re, s, 1, &pmatch, 0)`: the leftmost match,
and the longest one starting there, as `(rm_so, rm_eo)`; `none` stands for
`REG_NOMATCH`. -/
def regexec (re : Regex) : List Char → Option (Nat × Nat)
  | [] => none
  | c :: s =>
    if re.atom.accepts c then
      match re with
      | .one _ => some (0, 1)
      | .plus a => some (0, 1 + (s.takeWhile a.accepts).length)
    else
      match regexec re s with
      | none => none
      | some (so, eo) => some (so + 1, eo + 1)

/-- The struct `rule`. -/
structure Rule where
  regex : Regex
  token_type : Int
deriving DecidableEq

/-- The table `rules`, in declaration order.  `init_regex`, which `init_sdb`
calls at start, compiles `rules[i].regex` into `re[i]`; the compiled expression
is modelled by the rule itself. -/
def rules : List Rule :=
  [ ⟨.plus (.chr ' '), TK_NOTYPE⟩,
    ⟨.one (.chr '+'), TK_ADD⟩,
    ⟨.one (.chr '-'), TK_SUB⟩,
    ⟨.one (.chr '*'), TK_MUL⟩,
    ⟨.one (.chr '/'), TK_DIV⟩,
    ⟨.one (.chr '('), TK_LPAREN⟩,
    ⟨.one (.chr ')'), TK_RPAREN⟩,
    ⟨.plus (.range '0' '9'), TK_NUM⟩ ]

/-- The inner `for` loop of `make_token`: the first rule, in table order,
with `regexec(...) == 0 && pmatch.rm_so == 0`, together with `substr_len`;
`none` when the loop ends with `i == NR_REGEX`. -/
def try_rules (s : List Char) : List Rule → Option (Rule × Nat)
  | [] => none
  | r :: rs =>
    match regexec r.regex s with
    | some (0, eo) => some (r, eo)
    | _ => try_rules s rs

/-! ## make_token -/

/-- The `while` loop of `make_token`.  The result is the returned `bool`,
the value of `position` at the return and the file-scope state. -/
def make_token_loop (e : List Char) : Nat → Nat → State → Option (Bool × Nat × State)
  | 0, _, _ => none
  | fuel + 1, position, st =>
    if e.length ≤ position then some (true, position, st)
    else
      match try_rules (e.drop position) rules with
      | none => some (false, position, st)
      | some (r, substr_len) =>
        let position' := position + substr_len
        if r.token_type = TK_NOTYPE then make_token_loop e fuel position' st
        else if r.token_type = TK_NUM ∨ r.token_type = TK_ADD ∨ r.token_type = TK_SUB ∨
            r.token_type = TK_MUL ∨ r.token_type = TK_DIV ∨ r.token_type = TK_LPAREN ∨
            r.token_type = TK_RPAREN then
          if st.nr_token ≥ 32 then some (false, position', st)
          else
            let tok : Token :=
              { type := r.token_type,
                str := if r.token_type = TK_NUM then (e.drop position).take substr_len
                       else (st.tokens st.nr_token).str }
            make_token_loop e fuel position'
              { tokens := Function.update st.tokens st.nr_token tok,
                nr_token := st.nr_token + 1 }
        else some (false, position', st)

/-- The function `make_token`: `nr_token = 0`, then the scanning loop.  Every
pass of the loop that does not return consumes at least one character, so
`e.length + 1` passes are enough (see `make_token_total`). -/
def make_token (st : State) (e : List Char) : Option (Bool × Nat × State) :=
  make_token_loop e (e.length + 1) 0 { st with nr_token := 0 }

/-! ## get_priority, find_main_op, check_parentheses -/

/-- The function `get_priority`. -/
def get_priority (token_type : Int) : Int :=
  if token_type = TK_ADD then 1
  else if token_type = TK_SUB then 1
  else if token_type = TK_MUL then 2
  else if token_type = TK_DIV then 2
  else -1

/-- The `for (i = q; i >= p; i--)` loop of `find_main_op` followed by the
final test.  The first argument counts the indices still to visit, `i` is the
current one. -/
def find_main_op_loop (tokens : Int → Token) : Nat → Int → Int → Int → Int → Int
  | 0, _, main_op, _, bracket_level =>
    if main_op = -1 ∨ bracket_level ≠ 0 then -1 else main_op
  | n + 1, i, main_op, min_priority, bracket_level =>
    let type := (tokens i).type
    let bracket_level' :=
      if type = TK_RPAREN then bracket_level + 1
      else if type = TK_LPAREN then bracket_level - 1
      else bracket_level
    if type ≠ TK_RPAREN ∧ type = TK_LPAREN ∧ bracket_level' < 0 then -1
    else if bracket_level' ≠ 0 then
      find_main_op_loop tokens n (i - 1) main_op min_priority bracket_level'
    else
      let priority := get_priority type
      if priority = -1 then
        find_main_op_loop tokens n (i - 1) main_op min_priority bracket_level'
      else if priority < min_priority then
        find_main_op_loop tokens n (i - 1) i priority bracket_level'
      else
        find_main_op_loop tokens n (i - 1) main_op min_priority bracket_level'

/-- The function `find_main_op`; the loop visits `q, q-1, ..., p`. -/
def find_main_op (tokens : Int → Token) (p q : Int) : Int :=
  find_main_op_loop tokens (q - p + 1).toNat q (-1) INT_MAX 0

/-- The `for (i = p; i <= q; i++)` loop of `check_parentheses` followed by
`return count == 0`.  The first argument counts the indices still to visit. -/
def check_parentheses_loop (tokens : Int → Token) (q : Int) : Nat → Int → Int → Bool
  | 0, _, count => decide (count = 0)
  | n + 1, i, count =>
    if (tokens i).type = TK_LPAREN then
      check_parentheses_loop tokens q n (i + 1) (count + 1)
    else if (tokens i).type = TK_RPAREN then
      if count - 1 < 0 then false
      else if count - 1 = 0 ∧ i ≠ q then false
      else check_parentheses_loop tokens q n (i + 1) (count - 1)
    else check_parentheses_loop tokens q n (i + 1) count

/-- The function `check_parentheses`; the loop visits `p, p+1, ..., q`. -/
def check_parentheses (tokens : Int → Token) (p q : Int) : Bool :=
  if (tokens p).type ≠ TK_LPAREN ∨ (tokens q).type ≠ TK_RPAREN then false
  else check_parentheses_loop tokens q (q - p + 1).toNat p 0

/-! ## strtoul and eval -/

/-- The constant `ULONG_MAX` of an LP64 host. -/
abbrev ULONG_MAX : Nat := 2 ^ 64 - 1

/-- The C library predicate `isspace` in the C locale. -/
def isspace (c : Char) : Bool :=
  c == ' ' || c == '\t' || c == '\n' || c == '\x0b' || c == '\x0c' || c == '\r'

/-- The C library predicate `isdigit`. -/
def isdigit (c : Char) : Bool :=
  decide ('0'.toNat ≤ c.toNat) && decide (c.toNat ≤ '9'.toNat)

/-- The value of a run of decimal digits, most significant first. -/
def digits_value (ds : List Char) : Nat :=
  ds.foldl (fun acc c => acc * 10 + (c.toNat - '0'.toNat)) 0

/-- The library call `strtoul(s, NULL, 10)`: leading white space is skipped,
one sign is accepted, the longest run of digits is converted, a value above
`ULONG_MAX` gives `ULONG_MAX`, and a minus sign negates the value in
`unsigned long`. -/
def strtoul (s : List Char) : Nat :=
  let s1 := s.dropWhile isspace
  let neg := decide (s1.head? = some '-')
  let s2 := if s1.head? = some '-' ∨ s1.head? = some '+' then s1.tail else s1
  let v := digits_value (s2.takeWhile isdigit)
  if v > ULONG_MAX then ULONG_MAX
  else if neg then (ULONG_MAX + 1 - v) % (ULONG_MAX + 1)
  else v

/-- The function `eval`.  The result is the returned `uint32_t` and the final
value of `*success`; `none` means that the fuel ran out. -/
def eval (tokens : Int → Token) : Nat → Int → Int → Bool → Option (Nat × Bool)
  | 0, _, _, _ => none
  | fuel + 1, p, q, success =>
    if p > q then some (0, false)
    else if p = q then
      if (tokens p).type ≠ TK_NUM then some (0, false)
      else some (strtoul (tokens p).str % 2 ^ 32, success)
    else if check_parentheses tokens p q then eval tokens fuel (p + 1) (q - 1) success
    else
      let op_pos := find_main_op tokens p q
      if op_pos = -1 then some (0, false)
      else
        match eval tokens fuel p (op_pos - 1) success with
        | none => none
        | some (val1, success1) =>
          match eval tokens fuel (op_pos + 1) q success1 with
          | none => none
          | some (val2, success2) =>
            let type := (tokens op_pos).type
            if type = TK_ADD then some ((val1 + val2) % 2 ^ 32, success2)
            else if type = TK_SUB then some ((val1 + 2 ^ 32 - val2) % 2 ^ 32, success2)
            else if type = TK_MUL then some ((val1 * val2) % 2 ^ 32, success2)
            else if type = TK_DIV then
              if val2 = 0 then some (0, false) else some (val1 / val2, success2)
            else some (0, false)

/-- The function `expr`.  The result is the returned `word_t`, the final
value of `*success` and the file-scope state.  A span of `n` tokens is
evaluated within `n + 1` nested calls of `eval` (see `eval_fuel`). -/
def expr (st : State) (e : List Char) (success : Bool) : Option (Nat × Bool × State) :=
  match make_token st e with
  | none => none
  | some (false, _, st') => some (0, false, st')
  | some (true, _, st') =>
    match eval st'.tokens (st'.nr_token.toNat + 1) 0 (st'.nr_token - 1) success with
    | none => none
    | some (val, success') => some (val, success', st')

/-- The state of the file-scope variables at program start: all zero. -/
def State.init : State :=
  { tokens := fun _ => ⟨0, []⟩, nr_token := 0 }

/-! ## Token lists

The functions above read the array through indices.  The definitions below
restate the two scanning loops over the list of tokens of a span. -/

/-- The tokens at the indices `p, p+1, ..., p+n-1`. -/
def slice (tokens : Int → Token) (p : Int) : Nat → List Token
  | 0 => []
  | n + 1 => tokens p :: slice tokens (p + 1) n

/-- Number of `(` minus number of `)` in a list of tokens. -/
def depth : List Token → Int
  | [] => 0
  | t :: ts =>
    (if t.type = TK_LPAREN then 1 else if t.type = TK_RPAREN then -1 else 0) + depth ts

/-- The loop of `check_parentheses` over the list of tokens still to visit. -/
def cpl : Int → List Token → Bool
  | count, [] => decide (count = 0)
  | count, t :: ts =>
    if t.type = TK_LPAREN then cpl (count + 1) ts
    else if t.type = TK_RPAREN then
      if count - 1 < 0 then false
      else if count - 1 = 0 ∧ ts ≠ [] then false
      else cpl (count - 1) ts
    else cpl count ts

/-- The function `check_parentheses` on the list of tokens of a span of at
least one token. -/
def cpL : List Token → Bool
  | [] => false
  | t :: ts =>
    if t.type ≠ TK_LPAREN ∨ ((t :: ts).getLast?.map Token.type) ≠ some TK_RPAREN then false
    else cpl 0 (t :: ts)

/-- No suffix of the list has more `(` than `)`: the scan of `find_main_op`,
which runs from the right, never sees a negative bracket level. -/
def rbal : List Token → Bool
  | [] => true
  | t :: ts => rbal ts && decide (depth (t :: ts) ≤ 0)

/-- The variable `min_priority` for a candidate held by the scan. -/
def minEnc : Option (Nat × Int) → Int
  | some x => x.2
  | none => INT_MAX

/-- The variable `main_op` for a candidate held by the scan, at base index `j`. -/
def mainEnc (j : Int) : Option (Nat × Int) → Int
  | some x => j + x.1
  | none => -1

/-- A candidate seen from one token further left. -/
def shift : Option (Nat × Int) → Option (Nat × Int)
  | some x => some (x.1 + 1, x.2)
  | none => none

/-- The candidate that the scan of `find_main_op` holds after it has visited
the whole list from the right: its offset in the list and its priority. -/
def best : List Token → Option (Nat × Int)
  | [] => none
  | t :: ts =>
    if depth (t :: ts) = 0 ∧ get_priority t.type ≠ -1 ∧
        get_priority t.type < minEnc (best ts) then
      some (0, get_priority t.type)
    else shift (best ts)

/-- The result of `find_main_op` for a span starting at `p`. -/
def fmoRes (p : Int) : Option Nat → Int
  | some k => p + k
  | none => -1

/-- The function `find_main_op` on the list of tokens of a span: the offset of
the main operator, `none` for the result `-1`. -/
def fmoL (ts : List Token) : Option Nat :=
  if rbal ts ∧ depth ts = 0 then (best ts).map Prod.fst else none

/-- The `switch` of `eval` on the type of the main operator, given the value
and the success of either operand. -/
def combineL (type : Int) (l r : Nat × Bool) : Nat × Bool :=
  if type = TK_ADD then ((l.1 + r.1) % 2 ^ 32, l.2 && r.2)
  else if type = TK_SUB then ((l.1 + 2 ^ 32 - r.1) % 2 ^ 32, l.2 && r.2)
  else if type = TK_MUL then ((l.1 * r.1) % 2 ^ 32, l.2 && r.2)
  else if type = TK_DIV then
    if r.1 = 0 then (0, false) else (l.1 / r.1, l.2 && r.2)
  else (0, false)

/-- The function `eval` on the list of tokens of a span.  The result is the
returned value and whether the evaluation itself met no failure. -/
def evalL : Nat → List Token → Option (Nat × Bool)
  | 0, _ => none
  | _ + 1, [] => some (0, false)
  | _ + 1, [t] =>
    if t.type ≠ TK_NUM then some (0, false) else some (strtoul t.str % 2 ^ 32, true)
  | fuel + 1, t :: u :: ts =>
    if cpL (t :: u :: ts) then evalL fuel (u :: ts).dropLast
    else
      match fmoL (t :: u :: ts) with
      | none => some (0, false)
      | some k =>
        match evalL fuel ((t :: u :: ts).take k) with
        | none => none
        | some l =>
          match evalL fuel ((t :: u :: ts).drop (k + 1)) with
          | none => none
          | some r => some (combineL ((t :: u :: ts).getD k default).type l r)

/-! ## The token sequence of an input: what `make_token` is to record -/

/-- The characters of the single-character rules. -/
def isop (c : Char) : Bool :=
  c == '+' || c == '-' || c == '*' || c == '/' || c == '(' || c == ')'

/-- The token type of the rule of a single character. -/
def op_type (c : Char) : Int :=
  if c = '+' then TK_ADD
  else if c = '-' then TK_SUB
  else if c = '*' then TK_MUL
  else if c = '/' then TK_DIV
  else if c = '(' then TK_LPAREN
  else if c = ')' then TK_RPAREN
  else TK_NOTYPE

/-- The characters that some rule matches: space, digits, `+ - * / ( )`. -/
def legal (c : Char) : Bool :=
  c == ' ' || isop c || isdigit c

/-- The token sequence of an input: one `TK_NUM` token per maximal run of
digits, with the run as text, one token per character `+ - * / ( )`, nothing
for spaces; the sequence ends at the first character that no rule matches.
Tokens other than numbers carry the empty text. -/
def lex : List Char → List Token
  | [] => []
  | c :: cs =>
    if c = ' ' then lex cs
    else if isop c then ⟨op_type c, []⟩ :: lex cs
    else if isdigit c then
      ⟨TK_NUM, c :: cs.takeWhile isdigit⟩ :: lex (cs.dropWhile isdigit)
    else []
termination_by e => e.length
decreasing_by
  all_goals simp_wf
  all_goals first
    | omega
    | exact Nat.lt_succ_of_le (List.Sublist.length_le (List.dropWhile_sublist _))

/-- A token as `eval` sees it: the text of a token is read only when its type
is `TK_NUM`. -/
def Token.norm (t : Token) : Token :=
  if t.type = TK_NUM then t else ⟨t.type, []⟩

/-- What one pass of the loop of `make_token` matches at the remaining input
`c :: cs`: the token type of the first matching rule and `substr_len`. -/
def first_match (c : Char) (cs : List Char) : Option (Int × Nat) :=
  if c = ' ' then some (TK_NOTYPE, 1 + (cs.takeWhile (fun x => x == ' ')).length)
  else if isop c then some (op_type c, 1)
  else if isdigit c then some (TK_NUM, 1 + (cs.takeWhile isdigit).length)
  else none

/-- The decimal text of a number. -/
def decimal (n : Nat) : List Char := (toString n).toList

/-- The value and the final `*success` of a call of `expr`. -/
def outcome (r : Option (Nat × Bool × State)) : Option (Nat × Bool) :=
  r.map (fun x => (x.1, x.2.1))

/-- The array `tokens` holding the given tokens from index 0 on. -/
def buffer (ts : List Token) : Int → Token :=
  fun i => ts.getD i.toNat default

/-- The bracket-depth scan from the left, started at depth `d`: every `)`
closes a `(` that is open, and no `(` stays open at the end. -/
def balanced_from : Int → List Token → Bool
  | d, [] => decide (d = 0)
  | d, t :: ts =>
    if t.type = TK_LPAREN then balanced_from (d + 1) ts
    else if t.type = TK_RPAREN then decide (0 < d) && balanced_from (d - 1) ts
    else balanced_from d ts

/-- A token sequence has balanced parentheses: every `(` has a matching `)`
and every `)` a matching `(`. -/
def balanced (ts : List Token) : Bool := balanced_from 0 ts

/-! ## The grammar and the recursive-descent parser -/

/-- The text of a number token denotes a value below `2^32`: a non-empty run
of digits whose decimal value is below `2^32`. -/
def denotes32 (s : List Char) : Bool :=
  !s.isEmpty && s.all isdigit && decide (digits_value s < 2 ^ 32)

/-- Derivations of the grammar
`E ::= T (('+'|'-') T)*`, `T ::= F (('*'|'/') F)*`, `F ::= NUMBER | '(' E ')'`
with their values: `G 0` is `E`, `G 1` is `T`, `G 2` is `F`.  The repetitions
are read left-associatively, the arithmetic is that of 32-bit unsigned
integers, and a division by zero has no value. -/
inductive G : Nat → List Token → Nat → Prop
  | num (t : Token) : t.type = TK_NUM → G 2 [t] (digits_value t.str)
  | paren (l r : Token) (ts : List Token) (v : Nat) :
      l.type = TK_LPAREN → r.type = TK_RPAREN → G 0 ts v → G 2 (l :: (ts ++ [r])) v
  | factor (ts : List Token) (v : Nat) : G 2 ts v → G 1 ts v
  | mul (op : Token) (ts us : List Token) (a b : Nat) :
      op.type = TK_MUL → G 1 ts a → G 2 us b → G 1 (ts ++ op :: us) ((a * b) % 2 ^ 32)
  | div (op : Token) (ts us : List Token) (a b : Nat) :
      op.type = TK_DIV → G 1 ts a → G 2 us b → b ≠ 0 → G 1 (ts ++ op :: us) (a / b)
  | term (ts : List Token) (v : Nat) : G 1 ts v → G 0 ts v
  | add (op : Token) (ts us : List Token) (a b : Nat) :
      op.type = TK_ADD → G 0 ts a → G 1 us b → G 0 (ts ++ op :: us) ((a + b) % 2 ^ 32)
  | sub (op : Token) (ts us : List Token) (a b : Nat) :
      op.type = TK_SUB → G 0 ts a → G 1 us b →
      G 0 (ts ++ op :: us) ((a + 2 ^ 32 - b) % 2 ^ 32)

/-- Every operator that stands outside all parentheses of the list has a
priority of at least `m`. -/
def topsGe (m : Int) : List Token → Prop
  | [] => True
  | t :: ts =>
    (depth (t :: ts) = 0 → get_priority t.type ≠ -1 → m ≤ get_priority t.type) ∧ topsGe m ts

/-- Scanning from the left at depth `c`, no `)` of the list brings the depth
below 1. -/
def noClose : Int → List Token → Prop
  | _, [] => True
  | c, t :: ts =>
    if t.type = TK_LPAREN then noClose (c + 1) ts
    else if t.type = TK_RPAREN then 1 ≤ c - 1 ∧ noClose (c - 1) ts
    else noClose c ts

/-- Every number token of the list has a text that denotes a value below
`2^32`. -/
def numbers_ok (ts : List Token) : Prop :=
  ∀ t ∈ ts, t.type = TK_NUM → denotes32 t.str = true

mutual
/-- Recursive descent, `F ::= NUMBER | '(' E ')'`: the value of the factor at
the head of the input and the rest of the input. -/
def descent_factor : Nat → List Token → Option (Nat × List Token)
  | 0, _ => none
  | _ + 1, [] => none
  | n + 1, t :: rest =>
    if t.type = TK_NUM then some (digits_value t.str, rest)
    else if t.type = TK_LPAREN then
      match descent_expr n rest with
      | some (v, r :: rest') => if r.type = TK_RPAREN then some (v, rest') else none
      | _ => none
    else none
/-- Recursive descent, the repetition `(('*'|'/') F)*` after a term of value
`acc`. -/
def descent_term_loop : Nat → Nat → List Token → Option (Nat × List Token)
  | 0, _, _ => none
  | _ + 1, acc, [] => some (acc, [])
  | n + 1, acc, op :: rest =>
    if op.type = TK_MUL then
      match descent_factor n rest with
      | some (v, rest') => descent_term_loop n ((acc * v) % 2 ^ 32) rest'
      | none => none
    else if op.type = TK_DIV then
      match descent_factor n rest with
      | some (v, rest') => if v = 0 then none else descent_term_loop n (acc / v) rest'
      | none => none
    else some (acc, op :: rest)
/-- Recursive descent, `T ::= F (('*'|'/') F)*`. -/
def descent_term : Nat → List Token → Option (Nat × List Token)
  | 0, _ => none
  | n + 1, ts =>
    match descent_factor n ts with
    | some (v, rest) => descent_term_loop n v rest
    | none => none
/-- Recursive descent, the repetition `(('+'|'-') T)*` after an expression of
value `acc`. -/
def descent_expr_loop : Nat → Nat → List Token → Option (Nat × List Token)
  | 0, _, _ => none
  | _ + 1, acc, [] => some (acc, [])
  | n + 1, acc, op :: rest =>
    if op.type = TK_ADD then
      match descent_term n rest with
      | some (v, rest') => descent_expr_loop n ((acc + v) % 2 ^ 32) rest'
      | none => none
    else if op.type = TK_SUB then
      match descent_term n rest with
      | some (v, rest') => descent_expr_loop n ((acc + 2 ^ 32 - v) % 2 ^ 32) rest'
      | none => none
    else some (acc, op :: rest)
/-- Recursive descent, `E ::= T (('+'|'-') T)*`. -/
def descent_expr : Nat → List Token → Option (Nat × List Token)
  | 0, _ => none
  | n + 1, ts =>
    match descent_term n ts with
    | some (v, rest) => descent_expr_loop n v rest
    | none => none
end

/-- The recursive-descent parser-evaluator of the grammar: one function for
each nonterminal and one loop for each repetition.  The result is `none` on a
zero divisor and when the grammar does not derive the whole sequence.  Every
call consumes a token or moves one level up, so `3 * length + 3` nested calls
are enough (see `descent_of_G`). -/
def descent (ts : List Token) : Option Nat :=
  match descent_expr (3 * ts.length + 3) ts with
  | some (v, []) => some v
  | _ => none

/-- The input does not start with `*` or `/`. -/
def noMulDiv (rest : List Token) : Prop :=
  ∀ t rest', rest = t :: rest' → t.type ≠ TK_MUL ∧ t.type ≠ TK_DIV

/-- The input does not start with `+` or `-`. -/
def noAddSub (rest : List Token) : Prop :=
  ∀ t rest', rest = t :: rest' → t.type ≠ TK_ADD ∧ t.type ≠ TK_SUB

/-- What recursive descent does on a derivation of level `k` followed by
`rest`, with enough fuel. -/
def Parses : Nat → List Token → Nat → Prop
  | 0, ts, v => ∀ rest n, noMulDiv rest → 3 * (ts.length + rest.length) + 3 ≤ n →
      ∃ n', 3 * rest.length + 1 ≤ n' ∧ descent_expr n (ts ++ rest) = descent_expr_loop n' v rest
  | 1, ts, v => ∀ rest n, 3 * (ts.length + rest.length) + 2 ≤ n →
      ∃ n', 3 * rest.length + 1 ≤ n' ∧ descent_term n (ts ++ rest) = descent_term_loop n' v rest
  | 2, ts, v => ∀ rest n, 3 * (ts.length + rest.length) + 1 ≤ n →
      descent_factor n (ts ++ rest) = some (v, rest)
  | _ + 3, _, _ => True

/-- What a successful run of recursive descent with fuel `n` means, for
each of its five functions. -/
def Sound (n : Nat) : Prop :=
  (∀ inp v rest, descent_factor n inp = some (v, rest) → ∃ ts, inp = ts ++ rest ∧ G 2 ts v) ∧
  (∀ acc inp v rest P, G 1 P acc → descent_term_loop n acc inp = some (v, rest) →
    ∃ Q, inp = Q ++ rest ∧ G 1 (P ++ Q) v) ∧
  (∀ inp v rest, descent_term n inp = some (v, rest) → ∃ ts, inp = ts ++ rest ∧ G 1 ts v) ∧
  (∀ acc inp v rest P, G 0 P acc → descent_expr_loop n acc inp = some (v, rest) →
    ∃ Q, inp = Q ++ rest ∧ G 0 (P ++ Q) v) ∧
  (∀ inp v rest, descent_expr n inp = some (v, rest) → ∃ ts, inp = ts ++ rest ∧ G 0 ts v)

/-- The tokens of a number text wrapped in `k` pairs of parentheses. -/
def wrapped (k : Nat) (s : List Char) : List Token :=
  List.replicate k ⟨TK_LPAREN, []⟩ ++ (⟨TK_NUM, s⟩ :: List.replicate k ⟨TK_RPAREN, []⟩)

/-! ## The reference parser-evaluator: precedence climbing -/

/-- The precedence of a binary operator in the reference parser: 1 for `+`
and `-`, 2 for `*` and `/`; `none` for a token that is no binary operator. -/
def prec (type : Int) : Option Nat :=
  if type = TK_ADD ∨ type = TK_SUB then some 1
  else if type = TK_MUL ∨ type = TK_DIV then some 2
  else none

/-- The value of a binary operation on 32-bit unsigned integers; `none` for a
zero divisor. -/
def apply_op (type : Int) (a b : Nat) : Option Nat :=
  if type = TK_ADD then some ((a + b) % 2 ^ 32)
  else if type = TK_SUB then some ((a + 2 ^ 32 - b) % 2 ^ 32)
  else if type = TK_MUL then some ((a * b) % 2 ^ 32)
  else if type = TK_DIV then (if b = 0 then none else some (a / b))
  else none

mutual
/-- Precedence climbing, the primary `NUMBER | '(' E ')'`: its value and the
rest of the input. -/
def climb_primary : Nat → List Token → Option (Nat × List Token)
  | 0, _ => none
  | _ + 1, [] => none
  | n + 1, t :: rest =>
    if t.type = TK_NUM then some (digits_value t.str, rest)
    else if t.type = TK_LPAREN then
      match climb_expr n 1 rest with
      | some (v, r :: rest') => if r.type = TK_RPAREN then some (v, rest') else none
      | _ => none
    else none
/-- Precedence climbing, the loop: while the next token is a binary operator
of precedence at least `m`, its right operand is parsed with the minimal
precedence one higher, which makes the operator left-associative, and the
operator is applied to the value so far. -/
def climb_loop : Nat → Nat → Nat → List Token → Option (Nat × List Token)
  | 0, _, _, _ => none
  | _ + 1, _, lhs, [] => some (lhs, [])
  | n + 1, m, lhs, op :: rest =>
    match prec op.type with
    | none => some (lhs, op :: rest)
    | some p =>
      if m ≤ p then
        match climb_expr n (p + 1) rest with
        | none => none
        | some (rhs, rest') =>
          match apply_op op.type lhs rhs with
          | none => none
          | some v => climb_loop n m v rest'
      else some (lhs, op :: rest)
/-- Precedence climbing, an expression whose operators outside parentheses
have precedence at least `m`: a primary, then the loop. -/
def climb_expr : Nat → Nat → List Token → Option (Nat × List Token)
  | 0, _, _ => none
  | n + 1, m, ts =>
    match climb_primary n ts with
    | none => none
    | some (lhs, rest) => climb_loop n m lhs rest
end

/-- The reference parser-evaluator of the grammar
`E ::= T (('+'|'-') T)*`, `T ::= F (('*'|'/') F)*`, `F ::= NUMBER | '(' E ')'`:
precedence climbing from the minimal precedence 1 over the whole sequence.  The
value of a number is the decimal value of its text.  The result is `none` on a
zero divisor and when the sequence is not derived by the grammar as a whole.
A call passes on less fuel only after it has consumed a token or on the way
from an expression to its primary, so `2 * length + 2` nested calls are enough
(see `reference_of_G`). -/
def reference (ts : List Token) : Option Nat :=
  match climb_expr (2 * ts.length + 2) 1 ts with
  | some (v, []) => some v
  | _ => none

/-- The input does not start with an operator of precedence `m` or more. -/
def stops (m : Nat) (rest : List Token) : Prop :=
  ∀ t rest', rest = t :: rest' → ∀ p, prec t.type = some p → p < m

/-- What a successful run of precedence climbing with fuel `n` means. -/
def ClimbSound (n : Nat) : Prop :=
  (∀ inp v rest, climb_primary n inp = some (v, rest) → ∃ ts, inp = ts ++ rest ∧ G 2 ts v) ∧
  (∀ k lhs inp v rest P, k ≤ 2 → G k P lhs → (k = 0 → ¬ noMulDiv inp → G 1 P lhs) →
    climb_loop n (k + 1) lhs inp = some (v, rest) →
    ∃ Q, inp = Q ++ rest ∧ G k (P ++ Q) v ∧ stops (k + 1) rest) ∧
  (∀ k inp v rest, k ≤ 2 → climb_expr n (k + 1) inp = some (v, rest) →
    ∃ ts, inp = ts ++ rest ∧ G k ts v ∧ stops (k + 1) rest)

/-- What precedence climbing does on a derivation of level `k` followed by
`rest`, with enough fuel. -/
def Climbs (k : Nat) (ts : List Token) (v : Nat) : Prop :=
  (k = 2 → ∀ rest n, 2 * (ts.length + rest.length) + 1 ≤ n →
    climb_primary n (ts ++ rest) = some (v, rest)) ∧
  (∀ m rest n, 1 ≤ m → m ≤ k + 1 → (k = 0 → noMulDiv rest) →
    2 * (ts.length + rest.length) + 2 ≤ n →
    ∃ n', 2 * rest.length + 1 ≤ n' ∧ climb_expr n m (ts ++ rest) = climb_loop n' m v rest)

/-! ## The calls of eval -/

/-- The spans of the calls of `eval` that the call `eval(p, q)` gives rise to,
itself first, in the order in which they are made; `none` means that the fuel
ran out.  The spans do not depend on the success flag. -/
def eval_calls (tokens : Int → Token) : Nat → Int → Int → Option (List (Int × Int))
  | 0, _, _ => none
  | fuel + 1, p, q =>
    if p > q then some [(p, q)]
    else if p = q then some [(p, q)]
    else if check_parentheses tokens p q then
      (eval_calls tokens fuel (p + 1) (q - 1)).map (fun cs => (p, q) :: cs)
    else
      let op_pos := find_main_op tokens p q
      if op_pos = -1 then some [(p, q)]
      else
        match eval_calls tokens fuel p (op_pos - 1) with
        | none => none
        | some cs1 =>
          match eval_calls tokens fuel (op_pos + 1) q with
          | none => none
          | some cs2 => some ((p, q) :: (cs1 ++ cs2))

/-! ## cmd_p -/

/-- The character that the rule of an operator or parenthesis token matches. -/
def op_text (type : Int) : List Char :=
  if type = TK_ADD then ['+']
  else if type = TK_SUB then ['-']
  else if type = TK_MUL then ['*']
  else if type = TK_DIV then ['/']
  else if type = TK_LPAREN then ['(']
  else if type = TK_RPAREN then [')']
  else []

/-- The characters of the input that a token stands for: the digit run of a
number, the single character of any other token. -/
def Token.text (t : Token) : List Char :=
  if t.type = TK_NUM then t.str else op_text t.type

/-- The characters that a token sequence stands for, in order. -/
def unlex (ts : List Token) : List Char :=
  ts.foldr (fun t acc => t.text ++ acc) []

/-! ## The bracket-depth counter of a span -/

/-- The bracket-depth counter after the scan of the tokens at `p, ..., i`:
incremented on `TK_LPAREN`, decremented on `TK_RPAREN`, started at 0. -/
def bracket_counter (tokens : Int → Token) (p i : Int) : Int :=
  depth (slice tokens p (i - p + 1).toNat)

/-- The counter of the scan of `p..q` never returns to zero before index `q`:
it is not zero after any of the indices `p, ..., q - 1`. -/
def never_zero_before (tokens : Int → Token) (p q : Int) : Bool :=
  (List.range (q - p).toNat).all (fun k => bracket_counter tokens p (p + k) != 0)

/-- Scanning a list from the count `c`, the counter is not zero after any
token but the last, and it is zero after the last. -/
def zeroAtEnd (c : Int) (ts : List Token) : Prop :=
  (∀ k, 1 ≤ k → k < ts.length → c + depth (ts.take k) ≠ 0) ∧ c + depth ts = 0

/-! ## The operators of a span outside all parentheses -/

/-- The token at index `i` of the span `[p, q]` is an `ADD`, `SUB`, `MUL` or
`DIV` token outside all parentheses: every parenthesis opened in the span
before it is closed before it. -/
def top_operator (tokens : Int → Token) (p q i : Int) : Bool :=
  decide (p ≤ i) && decide (i ≤ q) &&
    ((tokens i).type == TK_ADD || (tokens i).type == TK_SUB || (tokens i).type == TK_MUL ||
      (tokens i).type == TK_DIV) &&
    bracket_counter tokens p (i - 1) == 0

/-! ## The array `tokens` as bytes

The definitions above keep the text of a token as a list of any length.  The
source keeps it in the field `char str[32]` of a `Token` of the array
`Token tokens[32]`, and `make_token` copies a digit run into the field without
comparing `substr_len` with the size of the field.  The definitions below are
`make_token` and `expr` once more with the array as its bytes, laid out as the
System V ABIs lay out the struct: `int type` in the 4 bytes at offset 0, least
significant byte first, `str` in the 32 bytes at offset 4, 36 bytes to a token.
A write past the field lands in the bytes that follow it in the array; a write
past the array is a fault, since the source does not determine what lies
there.  The theorem `make_token_bytes_refines` shows that both levels agree on
every input whose digit runs have at most 31 characters. -/

/-- The value of `sizeof(Token)`. -/
abbrev TOKEN_BYTES : Nat := 36

/-- The value of `offsetof(Token, str)`. -/
abbrev STR_OFFSET : Nat := 4

/-- The value of `sizeof(tokens)`: 32 tokens of 36 bytes. -/
abbrev TOKENS_BYTES : Nat := 1152

/-- The file-scope variables, the array `tokens` as bytes: `bytes a` is the
byte at offset `a` from the start of the array, for `a < 1152`. -/
structure Memory where
  bytes : Nat → Nat
  nr_token : Int

/-- How a run on the bytes ends when it does not return: the fuel ran out, or
a byte was written outside the array `tokens`, at the given offset. -/
inductive Fault where
  | fuel
  | out_of_bounds (offset : Nat)
deriving DecidableEq

/-- A write of the byte `b` at offset `a`. -/
def store (bytes : Nat → Nat) (a b : Nat) : Except Fault (Nat → Nat) :=
  if a < TOKENS_BYTES then .ok (Function.update bytes a b) else .error (.out_of_bounds a)

/-- The assignment of an `int` to the 4 bytes at offset `a`: two's complement,
least significant byte first. -/
def store_int (bytes : Nat → Nat) (a : Nat) (v : Int) : Except Fault (Nat → Nat) :=
  let u := (v % 2 ^ 32).toNat
  match store bytes a (u % 256) with
  | .error f => .error f
  | .ok b1 =>
    match store b1 (a + 1) (u / 256 % 256) with
    | .error f => .error f
    | .ok b2 =>
      match store b2 (a + 2) (u / 65536 % 256) with
      | .error f => .error f
      | .ok b3 => store b3 (a + 3) (u / 16777216 % 256)

/-- The library call `strncpy(dest, src, n)` for a source that has at least
`n` characters, given as the `n` characters to copy: they are written one
after the other from offset `a` on. -/
def strncpy (bytes : Nat → Nat) : Nat → List Char → Except Fault (Nat → Nat)
  | _, [] => .ok bytes
  | a, c :: cs =>
    match store bytes a c.toNat with
    | .error f => .error f
    | .ok b1 => strncpy b1 (a + 1) cs

/-- The value of the `int` in the 4 bytes at offset `a`. -/
def load_int (bytes : Nat → Nat) (a : Nat) : Int :=
  let u := bytes a + 256 * bytes (a + 1) + 65536 * bytes (a + 2) + 16777216 * bytes (a + 3)
  if u < 2 ^ 31 then (u : Int) else (u : Int) - 2 ^ 32

/-- The C string that starts at offset `a`: the bytes before the first zero
byte.  The first argument is the number of bytes from `a` to the end of the
array, where the string is cut. -/
def load_str (bytes : Nat → Nat) : Nat → Nat → List Char
  | 0, _ => []
  | n + 1, a =>
    if bytes a = 0 then [] else Char.ofNat (bytes a) :: load_str bytes n (a + 1)

/-- The array `tokens` as the functions on tokens read it, for the indices
`0, ..., 31`: `tokens[i].type` is the `int` at offset `36 * i`, and
`tokens[i].str`, passed to `strtoul`, is the C string that starts at offset
`36 * i + 4`, which runs on into the bytes of the next tokens when the field
holds no zero byte. -/
def Memory.tokens (m : Memory) : Int → Token := fun i =>
  { type := load_int m.bytes (TOKEN_BYTES * i.toNat),
    str := load_str m.bytes (TOKENS_BYTES - (TOKEN_BYTES * i.toNat + STR_OFFSET))
      (TOKEN_BYTES * i.toNat + STR_OFFSET) }

/-- The file-scope variables of the definitions above that a memory stands
for. -/
def Memory.state (m : Memory) : State :=
  { tokens := m.tokens, nr_token := m.nr_token }

/-- The memory at program start: all zero. -/
def Memory.init : Memory :=
  { bytes := fun _ => 0, nr_token := 0 }

/-- The statements of `make_token` that record a token in `tokens[nr_token]`:
the assignment of the type, for a number `strncpy` of the matched characters
and the assignment of the terminator to `str[substr_len]`, then `nr_token++`. -/
def record_token (m : Memory) (type : Int) (substr : List Char) : Except Fault Memory :=
  match store_int m.bytes (TOKEN_BYTES * m.nr_token.toNat) type with
  | .error f => .error f
  | .ok b1 =>
    if type = TK_NUM then
      match strncpy b1 (TOKEN_BYTES * m.nr_token.toNat + STR_OFFSET) substr with
      | .error f => .error f
      | .ok b2 =>
        match store b2 (TOKEN_BYTES * m.nr_token.toNat + STR_OFFSET + substr.length) 0 with
        | .error f => .error f
        | .ok b3 => .ok { bytes := b3, nr_token := m.nr_token + 1 }
    else .ok { bytes := b1, nr_token := m.nr_token + 1 }

/-- The `while` loop of `make_token` on the bytes of the array. -/
def make_token_loop_bytes (e : List Char) :
    Nat → Nat → Memory → Except Fault (Bool × Nat × Memory)
  | 0, _, _ => .error .fuel
  | fuel + 1, position, m =>
    if e.length ≤ position then .ok (true, position, m)
    else
      match try_rules (e.drop position) rules with
      | none => .ok (false, position, m)
      | some (r, substr_len) =>
        let position' := position + substr_len
        if r.token_type = TK_NOTYPE then make_token_loop_bytes e fuel position' m
        else if r.token_type = TK_NUM ∨ r.token_type = TK_ADD ∨ r.token_type = TK_SUB ∨
            r.token_type = TK_MUL ∨ r.token_type = TK_DIV ∨ r.token_type = TK_LPAREN ∨
            r.token_type = TK_RPAREN then
          if m.nr_token ≥ 32 then .ok (false, position', m)
          else
            match record_token m r.token_type ((e.drop position).take substr_len) with
            | .error f => .error f
            | .ok m' => make_token_loop_bytes e fuel position' m'
        else .ok (false, position', m)

/-- The function `make_token` on the bytes of the array. -/
def make_token_bytes (m : Memory) (e : List Char) : Except Fault (Bool × Nat × Memory) :=
  make_token_loop_bytes e (e.length + 1) 0 { m with nr_token := 0 }

/-- The function `expr` on the bytes of the array: `make_token`, then `eval`
reading the array. -/
def expr_bytes (m : Memory) (e : List Char) (success : Bool) :
    Except Fault (Nat × Bool × Memory) :=
  match make_token_bytes m e with
  | .error f => .error f
  | .ok (false, _, m') => .ok (0, false, m')
  | .ok (true, _, m') =>
    match eval m'.tokens (m'.nr_token.toNat + 1) 0 (m'.nr_token - 1) success with
    | none => .error .fuel
    | some (val, success') => .ok (val, success', m')

/-- A memory holds the tokens of a state: the counts are equal, and at every
index below the count the types are equal and, for a number, the texts are
equal and have at most 31 characters, so that the text and its terminator lie
in the field `str`. -/
def Memory.agrees (m : Memory) (st : State) : Prop :=
  m.nr_token = st.nr_token ∧ 0 ≤ st.nr_token ∧
    ∀ k : Nat, (k : Int) < st.nr_token →
      (m.tokens k).type = (st.tokens k).type ∧
      ((st.tokens k).type = TK_NUM →
        (m.tokens k).str = (st.tokens k).str ∧ (st.tokens k).str.length ≤ 31)

/-- Every digit run of the input before the first character that no rule
matches has at most 31 characters: with its terminator it fits the field
`str`. -/
def runs_fit (e : List Char) : Bool :=
  (lex e).all (fun t => decide (t.str.length ≤ 31))

/-- The value and the final `*success` of a call of `expr` on the bytes. -/
def outcome_bytes (r : Except Fault (Nat × Bool × Memory)) : Except Fault (Nat × Bool) :=
  match r with
  | .error f => .error f
  | .ok x => .ok (x.1, x.2.1)

/-- The number of characters of its argument that `strtoul(s, NULL, 10)`
examines: the white space, the sign and the digits that it takes, and the
character after them, at which the scan stops; this is the terminator when the
scan takes the whole string. -/
def strtoul_scanned (s : List Char) : Nat :=
  let s1 := s.dropWhile isspace
  let s2 := if s1.head? = some '-' ∨ s1.head? = some '+' then s1.tail else s1
  (s.length - s2.length) + (s2.takeWhile isdigit).length + 1

/-! ## The reads of the token array

The functions below are `check_parentheses`, `find_main_op` and `eval` once
more, returning next to their result the list of the indices at which they read
the array `tokens`, one entry for each evaluation of an expression
`tokens[i].type` and for the copy `tokens[i]`, in the order of the evaluations
(`||` evaluates its right operand only if the left one is false).  The call
`strtoul(tokens[p].str, NULL, 10)` reads the characters of the string one by
one: it gives one entry for each character examined, with the index of the
token in whose 36 bytes the character lies, which is `p` for the first 32
characters and the terminator only when it is among them.  The theorems
`check_parentheses_traced_fst`, `find_main_op_traced_fst` and
`eval_traced_fst` show that the results are those of the functions above. -/

/-- A read of `tokens[index]` made by a call whose span is `[p, q]`. -/
structure Read where
  index : Int
  p : Int
  q : Int
deriving DecidableEq

/-- The loop of `check_parentheses` with the indices read. -/
def check_parentheses_loop_traced (tokens : Int → Token) (q : Int) :
    Nat → Int → Int → Bool × List Int
  | 0, _, count => (decide (count = 0), [])
  | n + 1, i, count =>
    if (tokens i).type = TK_LPAREN then
      let r := check_parentheses_loop_traced tokens q n (i + 1) (count + 1)
      (r.1, i :: r.2)
    else if (tokens i).type = TK_RPAREN then
      if count - 1 < 0 then (false, [i, i])
      else if count - 1 = 0 ∧ i ≠ q then (false, [i, i])
      else
        let r := check_parentheses_loop_traced tokens q n (i + 1) (count - 1)
        (r.1, i :: i :: r.2)
    else
      let r := check_parentheses_loop_traced tokens q n (i + 1) count
      (r.1, i :: i :: r.2)

/-- The function `check_parentheses` with the indices read. -/
def check_parentheses_traced (tokens : Int → Token) (p q : Int) : Bool × List Int :=
  if (tokens p).type ≠ TK_LPAREN then (false, [p])
  else if (tokens q).type ≠ TK_RPAREN then (false, [p, q])
  else
    let r := check_parentheses_loop_traced tokens q (q - p + 1).toNat p 0
    (r.1, p :: q :: r.2)

/-- The loop of `find_main_op` with the indices read: each pass copies
`tokens[i]` once. -/
def find_main_op_loop_traced (tokens : Int → Token) :
    Nat → Int → Int → Int → Int → Int × List Int
  | 0, _, main_op, _, bracket_level =>
    (if main_op = -1 ∨ bracket_level ≠ 0 then -1 else main_op, [])
  | n + 1, i, main_op, min_priority, bracket_level =>
    let type := (tokens i).type
    let bracket_level' :=
      if type = TK_RPAREN then bracket_level + 1
      else if type = TK_LPAREN then bracket_level - 1
      else bracket_level
    if type ≠ TK_RPAREN ∧ type = TK_LPAREN ∧ bracket_level' < 0 then (-1, [i])
    else
      let r :=
        if bracket_level' ≠ 0 then
          find_main_op_loop_traced tokens n (i - 1) main_op min_priority bracket_level'
        else
          let priority := get_priority type
          if priority = -1 then
            find_main_op_loop_traced tokens n (i - 1) main_op min_priority bracket_level'
          else if priority < min_priority then
            find_main_op_loop_traced tokens n (i - 1) i priority bracket_level'
          else
            find_main_op_loop_traced tokens n (i - 1) main_op min_priority bracket_level'
      (r.1, i :: r.2)

/-- The function `find_main_op` with the indices read. -/
def find_main_op_traced (tokens : Int → Token) (p q : Int) : Int × List Int :=
  find_main_op_loop_traced tokens (q - p + 1).toNat q (-1) INT_MAX 0

/-- The function `eval` with the reads of the array made by the call, by the
calls of `check_parentheses` and `find_main_op` it makes, and by the nested
calls of `eval`, each with the span of the call that makes it. -/
def eval_traced (tokens : Int → Token) :
    Nat → Int → Int → Bool → Option ((Nat × Bool) × List Read)
  | 0, _, _, _ => none
  | fuel + 1, p, q, success =>
    if p > q then some ((0, false), [])
    else if p = q then
      if (tokens p).type ≠ TK_NUM then some ((0, false), [⟨p, p, q⟩])
      else
        some ((strtoul (tokens p).str % 2 ^ 32, success),
          ⟨p, p, q⟩ :: (List.range (strtoul_scanned (tokens p).str)).map
            (fun k => Read.mk (p + ((STR_OFFSET + k) / TOKEN_BYTES : Nat)) p q))
    else
      let cp := check_parentheses_traced tokens p q
      let reads0 := cp.2.map (fun i => Read.mk i p q)
      if cp.1 then
        match eval_traced tokens fuel (p + 1) (q - 1) success with
        | none => none
        | some (r, reads) => some (r, reads0 ++ reads)
      else
        let fm := find_main_op_traced tokens p q
        let reads1 := reads0 ++ fm.2.map (fun i => Read.mk i p q)
        let op_pos := fm.1
        if op_pos = -1 then some ((0, false), reads1)
        else
          match eval_traced tokens fuel p (op_pos - 1) success with
          | none => none
          | some ((val1, success1), reads2) =>
            match eval_traced tokens fuel (op_pos + 1) q success1 with
            | none => none
            | some ((val2, success2), reads3) =>
              let type := (tokens op_pos).type
              some
                (if type = TK_ADD then ((val1 + val2) % 2 ^ 32, success2)
                 else if type = TK_SUB then ((val1 + 2 ^ 32 - val2) % 2 ^ 32, success2)
                 else if type = TK_MUL then ((val1 * val2) % 2 ^ 32, success2)
                 else if type = TK_DIV then
                   if val2 = 0 then (0, false) else (val1 / val2, success2)
                 else (0, false),
                 reads1 ++ reads2 ++ reads3 ++ [⟨op_pos, p, q⟩])

/-! ## The register lookup of `isa/riscv32/reg.c` -/

/-- The table `regs` of `reg.c`. -/
def regs : List (List Char) :=
  ["$0", "ra", "sp", "gp", "tp", "t0", "t1", "t2",
   "s0", "s1", "a0", "a1", "a2", "a3", "a4", "a5",
   "a6", "a7", "s2", "s3", "s4", "s5", "s6", "s7",
   "s8", "s9", "s10", "s11", "t3", "t4", "t5", "t6"].map String.toList

/-- The `for` loop of `isa_reg_str2val` over the entries of the table that are
still to visit, `i` being the index of the first of them.  The pointer
`regs[i] + 1` is the entry from its second character on, and `strcmp(...) == 0`
is equality of strings.  The result is the returned value and `*success`. -/
def isa_reg_str2val_loop (gpr : Int → Nat) (name : List Char) :
    List (List Char) → Int → Nat × Bool
  | [], _ => (0, false)
  | r :: rs, i =>
    if name = r.drop 1 then (gpr i, true)
    else isa_reg_str2val_loop gpr name rs (i + 1)

/-- The function `isa_reg_str2val`; `gpr` is the array `cpu.gpr`.  Every path
writes `*success`, so the flag is a result only. -/
def isa_reg_str2val (gpr : Int → Nat) (s : List Char) : Nat × Bool :=
  let name := if s.head? = some '$' then s.tail else s
  isa_reg_str2val_loop gpr name regs 0

/-- The register names of the table, the sigil `$` of the table stripped:
`0`, `ra`, `sp`, ..., `t6`. -/
def reg_names : List (List Char) :=
  regs.map (fun r => if r.head? = some '$' then r.tail else r)

/-! ## Basic facts about slices -/

theorem slice_length (tokens : Int → Token) (n : Nat) (p : Int) :
    (slice tokens p n).length = n := by
  induction n generalizing p with
  | zero => rfl
  | succ n ih => simp [slice, ih]

theorem slice_append (tokens : Int → Token) (m n : Nat) (p : Int) :
    slice tokens p (m + n) = slice tokens p m ++ slice tokens (p + m) n := by
  induction m generalizing p with
  | zero => simp [slice]
  | succ m ih =>
    have h : m + 1 + n = (m + n) + 1 := by omega
    rw [h]
    simp only [slice, List.cons_append, ih]
    congr 2
    push_cast
    ring_nf

theorem slice_succ_right (tokens : Int → Token) (n : Nat) (p : Int) :
    slice tokens p (n + 1) = slice tokens p n ++ [tokens (p + n)] := by
  rw [slice_append]
  simp [slice]

theorem depth_append (a b : List Token) : depth (a ++ b) = depth a + depth b := by
  induction a with
  | nil => simp [depth]
  | cons t a ih =>
    show _ + depth (a ++ b) = (_ + depth a) + depth b
    rw [ih]; ring

/-! ## check_parentheses over lists -/

theorem check_parentheses_loop_eq (tokens : Int → Token) (q : Int) (n : Nat) (i count : Int)
    (hq : q = i + n - 1) :
    check_parentheses_loop tokens q n i count = cpl count (slice tokens i n) := by
  induction n generalizing i count with
  | zero => simp [check_parentheses_loop, slice, cpl]
  | succ n ih =>
    have hq' : q = (i + 1) + n - 1 := by rw [hq]; push_cast; ring
    have hne : (i ≠ q) ↔ slice tokens (i + 1) n ≠ [] := by
      rw [← List.length_pos, slice_length, hq]
      push_cast
      constructor <;> intro h <;> omega
    simp only [check_parentheses_loop, slice, cpl, ih _ _ hq', hne]

theorem slice_getLast (tokens : Int → Token) (n : Nat) (p : Int) :
    (slice tokens p (n + 1)).getLast? = some (tokens (p + n)) := by
  rw [slice_succ_right]
  simp

theorem check_parentheses_eq (tokens : Int → Token) (p q : Int) (h : p ≤ q) :
    check_parentheses tokens p q = cpL (slice tokens p (q - p + 1).toNat) := by
  obtain ⟨n, hn⟩ : ∃ n : Nat, (q - p + 1).toNat = n + 1 := ⟨(q - p).toNat, by omega⟩
  have hq : q = p + (n + 1 : Nat) - 1 := by push_cast; omega
  have hq2 : p + (n : Int) = q := by omega
  unfold check_parentheses
  rw [hn]
  rw [check_parentheses_loop_eq tokens q (n + 1) p 0 hq]
  have hl := slice_getLast tokens n p
  rw [hq2] at hl
  simp only [slice] at hl ⊢
  simp only [cpL, hl, Option.map_some', ne_eq, Option.some.injEq]

/-! ## find_main_op over lists -/

theorem rbal_depth_le (ts : List Token) (h : rbal ts = true) : depth ts ≤ 0 := by
  cases ts with
  | nil => simp [depth]
  | cons t ts =>
    simp only [rbal, Bool.and_eq_true, decide_eq_true_eq] at h
    exact h.2

theorem rbal_append_right (a b : List Token) (h : rbal (a ++ b) = true) : rbal b = true := by
  induction a with
  | nil => simpa using h
  | cons t a ih =>
    simp only [List.cons_append, rbal, Bool.and_eq_true, decide_eq_true_eq] at h
    exact ih h.1

theorem get_priority_lt_INT_MAX (t : Int) : get_priority t < INT_MAX := by
  unfold get_priority
  split_ifs <;> decide

theorem mainEnc_shift (i j : Int) (hj : j = i + 1) (b : Option (Nat × Int)) :
    mainEnc i (shift b) = mainEnc j b := by
  cases b with
  | none => rfl
  | some x => simp only [shift, mainEnc]; rw [hj]; push_cast; ring

theorem minEnc_shift (b : Option (Nat × Int)) : minEnc (shift b) = minEnc b := by
  cases b <;> rfl

theorem find_main_op_loop_eq (tokens : Int → Token) (n : Nat) :
    ∀ (i j p : Int) (m : Nat), j = i + 1 → p = i - n + 1 → 0 ≤ p →
      rbal (slice tokens j m) = true →
      find_main_op_loop tokens n i (mainEnc j (best (slice tokens j m)))
          (minEnc (best (slice tokens j m))) (-(depth (slice tokens j m)))
        = fmoRes p (fmoL (slice tokens p (n + m))) := by
  induction n with
  | zero =>
    intro i j p m hj hp h0 hb
    have hpj : p = j := by rw [hp, hj]; simp
    subst hpj
    simp only [find_main_op_loop, Nat.zero_add, fmoL, hb, true_and]
    cases hbest : best (slice tokens p m) with
    | none => simp [mainEnc, fmoRes]
    | some x =>
      simp only [mainEnc, Option.map_some']
      have hx : p + (x.1 : Int) ≠ -1 := by omega
      by_cases hd : depth (slice tokens p m) = 0
      · simp [hd, hx, fmoRes]
      · simp [hd, fmoRes]
  | succ n ih =>
    intro i j p m hj hp h0 hb
    have hS : slice tokens i (m + 1) = tokens i :: slice tokens j m := by
      simp only [slice, hj]
    have hfull : slice tokens p (n + 1 + m) =
        slice tokens p n ++ slice tokens i (m + 1) := by
      have : n + 1 + m = n + (m + 1) := by omega
      rw [this, slice_append]
      congr 2
      rw [hp]; push_cast; ring
    have hdS := rbal_depth_le _ hb
    have hdepth : depth (slice tokens i (m + 1)) =
        (if (tokens i).type = TK_LPAREN then 1 else if (tokens i).type = TK_RPAREN then -1
          else 0) + depth (slice tokens j m) := by
      rw [hS]; rfl
    have hrb : rbal (slice tokens i (m + 1)) =
        decide (depth (slice tokens i (m + 1)) ≤ 0) := by
      rw [hS, rbal, hb, Bool.true_and]
    have hbestdef : best (slice tokens i (m + 1)) =
        (if depth (slice tokens i (m + 1)) = 0 ∧ get_priority (tokens i).type ≠ -1 ∧
            get_priority (tokens i).type < minEnc (best (slice tokens j m)) then
          some (0, get_priority (tokens i).type)
        else shift (best (slice tokens j m))) := by
      rw [hS, best]
    have hi1 : i = (i - 1) + 1 := by ring
    have hp1 : p = (i - 1) - n + 1 := by rw [hp]; push_cast; ring
    have key := ih (i - 1) i p (m + 1) hi1 hp1 h0
    have hnm : n + (m + 1) = n + 1 + m := by omega
    rw [hnm] at key
    unfold find_main_op_loop
    simp only []
    by_cases hR : (tokens i).type = TK_RPAREN
    · -- a right parenthesis raises the level
      have hnL : (tokens i).type ≠ TK_LPAREN := by rw [hR]; decide
      have hd : depth (slice tokens i (m + 1)) = -1 + depth (slice tokens j m) := by
        rw [hdepth]; simp [hR, hnL]
      have hb' : rbal (slice tokens i (m + 1)) = true := by
        rw [hrb, decide_eq_true_eq]; omega
      have hd0 : ¬ depth (slice tokens i (m + 1)) = 0 := by omega
      have hbest : best (slice tokens i (m + 1)) = shift (best (slice tokens j m)) := by
        rw [hbestdef, if_neg (fun h => hd0 h.1)]
      have hne : -depth (slice tokens j m) + 1 ≠ 0 := by omega
      have hC : -depth (slice tokens i (m + 1)) = -depth (slice tokens j m) + 1 := by omega
      simp only [hR, if_true, ne_eq, not_true_eq_false, false_and, if_false, hne,
        not_false_eq_true]
      rw [← key hb', hbest, mainEnc_shift i j hj, minEnc_shift, hC]
    · by_cases hL : (tokens i).type = TK_LPAREN
      · have hd : depth (slice tokens i (m + 1)) = 1 + depth (slice tokens j m) := by
          rw [hdepth]; simp [hL]
        have hprio : get_priority (tokens i).type = -1 := by rw [hL]; decide
        have hbest : best (slice tokens i (m + 1)) = shift (best (slice tokens j m)) := by
          rw [hbestdef, if_neg (fun h => h.2.1 hprio)]
        have hC : -depth (slice tokens i (m + 1)) = -depth (slice tokens j m) - 1 := by omega
        have hLR : ¬ (TK_LPAREN = TK_RPAREN) := by decide
        have hprio' : get_priority TK_LPAREN = -1 := by decide
        simp only [hL, hLR, if_false, if_true, ne_eq, not_false_eq_true, true_and]
        by_cases hneg : -depth (slice tokens j m) - 1 < 0
        · -- early return: the span is not balanced
          simp only [hneg, if_true]
          have hnb : rbal (slice tokens i (m + 1)) = false := by
            rw [hrb, decide_eq_false_iff_not]; omega
          have : rbal (slice tokens p (n + 1 + m)) = false := by
            cases hc : rbal (slice tokens p (n + 1 + m)) with
            | false => rfl
            | true =>
              rw [hfull] at hc
              rw [rbal_append_right _ _ hc] at hnb
              exact absurd hnb (by simp)
          simp [fmoL, this, fmoRes]
        · have hb' : rbal (slice tokens i (m + 1)) = true := by
            rw [hrb, decide_eq_true_eq]; omega
          simp only [hneg, if_false, hprio', if_true, ite_self]
          rw [← key hb', hbest, mainEnc_shift i j hj, minEnc_shift, hC]
      · have hd : depth (slice tokens i (m + 1)) = depth (slice tokens j m) := by
          rw [hdepth]; simp [hR, hL]
        have hb' : rbal (slice tokens i (m + 1)) = true := by
          rw [hrb, decide_eq_true_eq]; omega
        have hC : -depth (slice tokens i (m + 1)) = -depth (slice tokens j m) := by omega
        simp only [hR, hL, if_false, ne_eq, and_false, false_and, not_false_eq_true]
        rw [← key hb', hC]
        by_cases h1 : -depth (slice tokens j m) = 0
        · have h1' : depth (slice tokens i (m + 1)) = 0 := by omega
          rw [if_neg (by simpa using h1)]
          by_cases h2 : get_priority (tokens i).type = -1
          · have hbest : best (slice tokens i (m + 1)) = shift (best (slice tokens j m)) := by
              rw [hbestdef, if_neg (fun h => h.2.1 h2)]
            rw [if_pos h2, hbest, mainEnc_shift i j hj, minEnc_shift]
          · rw [if_neg h2]
            by_cases h3 : get_priority (tokens i).type < minEnc (best (slice tokens j m))
            · have hbest : best (slice tokens i (m + 1)) =
                  some (0, get_priority (tokens i).type) := by
                rw [hbestdef, if_pos ⟨h1', h2, h3⟩]
              rw [if_pos h3, hbest]
              simp [mainEnc, minEnc]
            · have hbest : best (slice tokens i (m + 1)) =
                  shift (best (slice tokens j m)) := by
                rw [hbestdef, if_neg (fun h => h3 h.2.2)]
              rw [if_neg h3, hbest, mainEnc_shift i j hj, minEnc_shift]
        · have h1' : ¬ depth (slice tokens i (m + 1)) = 0 := by omega
          have hbest : best (slice tokens i (m + 1)) = shift (best (slice tokens j m)) := by
            rw [hbestdef, if_neg (fun h => h1' h.1)]
          rw [if_pos h1, hbest, mainEnc_shift i j hj, minEnc_shift]

theorem find_main_op_eq (tokens : Int → Token) (p q : Int) (hp : 0 ≤ p) (h : p ≤ q) :
    find_main_op tokens p q = fmoRes p (fmoL (slice tokens p (q - p + 1).toNat)) := by
  have key := find_main_op_loop_eq tokens (q - p + 1).toNat q (q + 1) p 0 rfl
    (by rw [Int.toNat_of_nonneg (by omega)]; ring) hp (by simp [slice, rbal])
  simpa [slice, best, mainEnc, minEnc, depth, find_main_op] using key

/-! ## eval over lists -/

theorem slice_dropLast (tokens : Int → Token) (n : Nat) (p : Int) :
    (slice tokens p (n + 1)).dropLast = slice tokens p n := by
  rw [slice_succ_right]
  simp

theorem slice_take (tokens : Int → Token) (k n : Nat) (p : Int) (h : k ≤ n) :
    (slice tokens p n).take k = slice tokens p k := by
  obtain ⟨d, rfl⟩ := Nat.exists_eq_add_of_le h
  rw [slice_append, List.take_left' (slice_length _ _ _)]

theorem slice_drop (tokens : Int → Token) (k n : Nat) (p : Int) (h : k ≤ n) :
    (slice tokens p n).drop k = slice tokens (p + k) (n - k) := by
  obtain ⟨d, rfl⟩ := Nat.exists_eq_add_of_le h
  rw [slice_append, List.drop_left' (slice_length _ _ _)]
  simp

theorem slice_getD (tokens : Int → Token) (k n : Nat) (p : Int) (h : k < n) (d : Token) :
    (slice tokens p n).getD k d = tokens (p + k) := by
  induction n generalizing p k with
  | zero => omega
  | succ n ih =>
    cases k with
    | zero => simp [slice]
    | succ k =>
      simp only [slice, List.getD_cons_succ]
      rw [ih k (p + 1) (by omega)]
      congr 1
      push_cast; ring

theorem shift_fst_lt (b : Option (Nat × Int)) (n : Nat)
    (h : ∀ x, b = some x → x.1 < n) : ∀ x, shift b = some x → x.1 < n + 1 := by
  intro x hx
  cases b with
  | none => simp [shift] at hx
  | some y =>
    simp only [shift, Option.some.injEq] at hx
    have := h y rfl
    rw [← hx]
    simpa using this

theorem best_lt_length (ts : List Token) : ∀ x, best ts = some x → x.1 < ts.length := by
  induction ts with
  | nil => intro x hx; simp [best] at hx
  | cons t ts ih =>
    intro x hx
    rw [best] at hx
    split_ifs at hx with hc
    · simp only [Option.some.injEq] at hx
      rw [← hx]; simp
    · exact shift_fst_lt _ _ ih x hx

theorem fmoL_lt_length (ts : List Token) (k : Nat) (h : fmoL ts = some k) : k < ts.length := by
  unfold fmoL at h
  split_ifs at h
  cases hb : best ts with
  | none => simp [hb] at h
  | some x =>
    simp only [hb, Option.map_some', Option.some.injEq] at h
    rw [← h]
    exact best_lt_length ts x hb

theorem eval_eq_evalL (tokens : Int → Token) (fuel : Nat) :
    ∀ (p q : Int) (success : Bool), 0 ≤ p →
      eval tokens fuel p q success =
        (evalL fuel (slice tokens p (q - p + 1).toNat)).map (fun r => (r.1, success && r.2)) := by
  induction fuel with
  | zero => intro p q success _; rfl
  | succ fuel ih =>
    intro p q success hp
    unfold eval
    by_cases h1 : p > q
    · have : (q - p + 1).toNat = 0 := by omega
      simp [h1, this, slice, evalL]
    · rw [if_neg h1]
      by_cases h2 : p = q
      · subst h2
        simp only [if_true, sub_self, zero_add, Int.toNat_one, slice, evalL]
        by_cases h3 : (tokens p).type = TK_NUM <;> simp [h3]
      · rw [if_neg h2]
        obtain ⟨n, hn⟩ : ∃ n : Nat, (q - p + 1).toNat = n + 2 := ⟨(q - p - 1).toNat, by omega⟩
        have hle : p ≤ q := by omega
        rw [check_parentheses_eq tokens p q hle, find_main_op_eq tokens p q hp hle, hn]
        have hsl : slice tokens p (n + 2) =
            tokens p :: tokens (p + 1) :: slice tokens (p + 1 + 1) n := rfl
        have hinner : (tokens (p + 1) :: slice tokens (p + 1 + 1) n).dropLast =
            slice tokens (p + 1) (q - 1 - (p + 1) + 1).toNat := by
          have e : (q - 1 - (p + 1) + 1).toNat = n := by omega
          rw [e]
          exact slice_dropLast tokens n (p + 1)
        by_cases h3 : cpL (slice tokens p (n + 2)) = true
        · rw [if_pos h3, ih (p + 1) (q - 1) success (by omega)]
          rw [hsl] at h3
          rw [hsl, evalL, if_pos h3, hinner]
        · rw [if_neg h3]
          have h3' := h3
          rw [hsl] at h3
          rw [hsl, evalL, if_neg h3, ← hsl]
          cases hk : fmoL (slice tokens p (n + 2)) with
          | none => simp [fmoRes]
          | some k =>
            have hklt : k < n + 2 := by
              have := fmoL_lt_length _ k hk
              rwa [slice_length] at this
            have hne : p + (k : Int) ≠ -1 := by omega
            simp only [fmoRes, hne, if_false]
            have e1 : (p + (k : Int) - 1 - p + 1).toNat = k := by omega
            have e2 : (q - (p + (k : Int) + 1) + 1).toNat = n + 2 - (k + 1) := by omega
            rw [ih p (p + k - 1) success hp, e1]
            rw [slice_take tokens k (n + 2) p (by omega)]
            rw [slice_drop tokens (k + 1) (n + 2) p (by omega)]
            rw [slice_getD tokens k (n + 2) p hklt]
            have e3 : p + ((k + 1 : Nat) : Int) = p + k + 1 := by push_cast; ring
            rw [e3]
            cases hl : evalL fuel (slice tokens p k) with
            | none => simp
            | some l =>
              simp only [Option.map_some']
              rw [ih (p + k + 1) q _ (by omega), e2]
              cases hr : evalL fuel (slice tokens (p + k + 1) (n + 2 - (k + 1))) with
              | none => simp
              | some r =>
                simp only [Option.map_some', combineL]
                split_ifs <;> simp [Bool.and_assoc]

/-! ## One pass of the loop of make_token -/

theorem regexec_cons (re : Regex) (c : Char) (s : List Char) :
    regexec re (c :: s) =
      if re.atom.accepts c then
        match re with
        | .one _ => some (0, 1)
        | .plus a => some (0, 1 + (s.takeWhile a.accepts).length)
      else
        match regexec re s with
        | none => none
        | some (so, eo) => some (so + 1, eo + 1) := by
  cases re <;> rfl

theorem try_rules_cons (c : Char) (cs : List Char) (r : Rule) (rs : List Rule) :
    try_rules (c :: cs) (r :: rs) =
      if r.regex.atom.accepts c then
        some (r, match r.regex with
          | .one _ => 1
          | .plus a => 1 + (cs.takeWhile a.accepts).length)
      else try_rules (c :: cs) rs := by
  conv_lhs => rw [try_rules, regexec_cons]
  by_cases h : r.regex.atom.accepts c = true
  · rw [if_pos h, if_pos h]
    cases r.regex <;> rfl
  · rw [if_neg h, if_neg h]
    cases regexec r.regex cs <;> rfl

theorem accepts_chr (a x : Char) : Atom.accepts (.chr a) x = (x == a) := rfl

theorem accepts_digit : Atom.accepts (.range '0' '9') = isdigit := rfl

theorem try_rules_table (c : Char) (cs : List Char) :
    (try_rules (c :: cs) rules).map (fun x => (x.1.token_type, x.2)) = first_match c cs := by
  simp only [rules, try_rules_cons, Regex.atom, accepts_chr, accepts_digit, first_match, isop,
    op_type, beq_iff_eq, Bool.or_eq_true]
  by_cases h0 : c = ' '
  · subst h0; simp; rfl
  by_cases h1 : c = '+'
  · subst h1; simp
  by_cases h2 : c = '-'
  · subst h2; simp
  by_cases h3 : c = '*'
  · subst h3; simp
  by_cases h4 : c = '/'
  · subst h4; simp
  by_cases h5 : c = '('
  · subst h5; simp
  by_cases h6 : c = ')'
  · subst h6; simp
  by_cases h7 : isdigit c = true
  · simp [h0, h1, h2, h3, h4, h5, h6, h7, try_rules]
  · simp [h0, h1, h2, h3, h4, h5, h6, h7, try_rules]

/-! ## Runs of characters -/

theorem drop_takeWhile_length (p : Char → Bool) (l : List Char) :
    l.drop (l.takeWhile p).length = l.dropWhile p := by
  induction l with
  | nil => rfl
  | cons a l ih =>
    by_cases h : p a = true
    · simp [List.takeWhile_cons, List.dropWhile_cons, h, ih]
    · simp [List.takeWhile_cons, List.dropWhile_cons, h]

theorem take_takeWhile_length (p : Char → Bool) (l : List Char) :
    l.take (l.takeWhile p).length = l.takeWhile p := by
  induction l with
  | nil => rfl
  | cons a l ih =>
    by_cases h : p a = true
    · simp [List.takeWhile_cons, h, ih]
    · simp [List.takeWhile_cons, h]

theorem takeWhile_length_split (p q : Char → Bool) (hpq : ∀ x, p x = true → q x = true)
    (l : List Char) :
    (l.takeWhile q).length = (l.takeWhile p).length + ((l.dropWhile p).takeWhile q).length := by
  induction l with
  | nil => rfl
  | cons a l ih =>
    by_cases h : p a = true
    · simp [List.takeWhile_cons, List.dropWhile_cons, h, hpq a h, ih]; omega
    · simp [List.takeWhile_cons, List.dropWhile_cons, h]

theorem all_dropWhile (p q : Char → Bool) (hpq : ∀ x, p x = true → q x = true)
    (l : List Char) : l.all q = (l.dropWhile p).all q := by
  induction l with
  | nil => rfl
  | cons a l ih =>
    by_cases h : p a = true
    · simp [List.dropWhile_cons, h, hpq a h, ih]
    · simp [List.dropWhile_cons, h]

theorem dropWhile_length_le (p : Char → Bool) (l : List Char) :
    (l.dropWhile p).length ≤ l.length :=
  List.Sublist.length_le (List.dropWhile_sublist _)

theorem space_legal (x : Char) (h : (x == ' ') = true) : legal x = true := by
  simp [legal, h]

theorem digit_legal (x : Char) (h : isdigit x = true) : legal x = true := by
  simp [legal, h]

theorem lex_dropWhile_space (l : List Char) :
    lex (l.dropWhile (fun x => x == ' ')) = lex l := by
  induction l with
  | nil => rfl
  | cons a l ih =>
    by_cases h : a = ' '
    · subst h
      rw [List.dropWhile_cons]
      simp only [beq_self_eq_true, if_true, ih]
      rw [lex]
      simp
    · rw [List.dropWhile_cons]
      simp [h]

theorem first_match_type (c : Char) (cs : List Char) (ty : Int) (len : Nat)
    (h : first_match c cs = some (ty, len)) :
    ty = TK_NOTYPE ∨ (ty = TK_NUM ∨ ty = TK_ADD ∨ ty = TK_SUB ∨ ty = TK_MUL ∨ ty = TK_DIV ∨
      ty = TK_LPAREN ∨ ty = TK_RPAREN) := by
  unfold first_match at h
  split_ifs at h with h0 h1 h2
  · simp only [Option.some.injEq, Prod.mk.injEq] at h; exact Or.inl h.1.symm
  · simp only [Option.some.injEq, Prod.mk.injEq] at h
    rw [← h.1]
    unfold op_type
    simp only [isop, Bool.or_eq_true, beq_iff_eq] at h1
    split_ifs <;> simp_all
  · simp only [Option.some.injEq, Prod.mk.injEq] at h; exact Or.inr (Or.inl h.1.symm)

theorem make_token_loop_step (e : List Char) (fuel pos : Nat) (st : State) (c : Char)
    (cs : List Char) (h : e.drop pos = c :: cs) :
    make_token_loop e (fuel + 1) pos st =
      match first_match c cs with
      | none => some (false, pos, st)
      | some (ty, len) =>
        if ty = TK_NOTYPE then make_token_loop e fuel (pos + len) st
        else if st.nr_token ≥ 32 then some (false, pos + len, st)
        else make_token_loop e fuel (pos + len)
          { tokens := Function.update st.tokens st.nr_token
              ⟨ty, if ty = TK_NUM then (c :: cs).take len else (st.tokens st.nr_token).str⟩,
            nr_token := st.nr_token + 1 } := by
  have hlen : ¬ e.length ≤ pos := by
    intro hle
    rw [List.drop_eq_nil_of_le hle] at h
    exact absurd h (by simp)
  rw [make_token_loop, if_neg hlen, h]
  have ht := try_rules_table c cs
  cases hr : try_rules (c :: cs) rules with
  | none =>
    rw [hr] at ht
    simp only [Option.map_none'] at ht
    rw [← ht]
  | some x =>
    obtain ⟨r, len⟩ := x
    rw [hr] at ht
    simp only [Option.map_some'] at ht
    rw [← ht]
    simp only []
    have hty := first_match_type c cs r.token_type len ht.symm
    by_cases h0 : r.token_type = TK_NOTYPE
    · simp [h0]
    · have hk := hty.resolve_left h0
      simp only [h0, if_false, hk, if_true]

/-! ## The scanning loop records the token sequence of the input -/

theorem lex_nil : lex [] = [] := by rw [lex]

theorem lex_space (cs : List Char) : lex (' ' :: cs) = lex cs := by
  rw [lex]; simp

theorem lex_op (c : Char) (cs : List Char) (h0 : c ≠ ' ') (h1 : isop c = true) :
    lex (c :: cs) = ⟨op_type c, []⟩ :: lex cs := by
  rw [lex]; simp [h0, h1]

theorem lex_digit (c : Char) (cs : List Char) (h0 : c ≠ ' ') (h1 : ¬ isop c = true)
    (h2 : isdigit c = true) :
    lex (c :: cs) = ⟨TK_NUM, c :: cs.takeWhile isdigit⟩ :: lex (cs.dropWhile isdigit) := by
  rw [lex]; simp [h0, h1, h2]

theorem lex_illegal (c : Char) (cs : List Char) (h0 : c ≠ ' ') (h1 : ¬ isop c = true)
    (h2 : ¬ isdigit c = true) : lex (c :: cs) = [] := by
  rw [lex]; simp [h0, h1, h2]

theorem op_type_ne (c : Char) (h : isop c = true) :
    op_type c ≠ TK_NOTYPE ∧ op_type c ≠ TK_NUM := by
  unfold op_type
  simp only [isop, Bool.or_eq_true, beq_iff_eq] at h
  split_ifs <;> simp_all

theorem some_triple_congr {a : Bool} {p q : Nat} {s : State} (h : p = q) :
    (some (a, p, s) : Option (Bool × Nat × State)) = some (a, q, s) := by rw [h]

theorem make_token_loop_ok (fuel : Nat) :
    ∀ (e : List Char) (pos : Nat) (st : State) (rest : List Char),
      e.drop pos = rest → rest.length < fuel → 0 ≤ st.nr_token →
      st.nr_token + (lex rest).length ≤ 32 →
      ∃ st', make_token_loop e fuel pos st =
          some (rest.all legal, pos + (rest.takeWhile legal).length, st') ∧
        st'.nr_token = st.nr_token + (lex rest).length ∧
        (slice st'.tokens st.nr_token (lex rest).length).map Token.norm = lex rest ∧
        ∀ i, i < st.nr_token → st'.tokens i = st.tokens i := by
  induction fuel with
  | zero => intro e pos st rest _ h; omega
  | succ fuel ih =>
    intro e pos st rest hrest hfuel hnr hcap
    cases rest with
    | nil =>
      have hle : e.length ≤ pos := by
        by_contra hc
        have : (e.drop pos).length = 0 := by rw [hrest]; rfl
        rw [List.length_drop] at this
        omega
      refine ⟨st, ?_, ?_, ?_, fun _ _ => rfl⟩
      · rw [make_token_loop, if_pos hle]; simp
      · simp [lex_nil]
      · simp [lex_nil, slice]
    | cons c cs =>
      have hdrop : ∀ k, e.drop (pos + k) = (c :: cs).drop k := by
        intro k; rw [← hrest, List.drop_drop]
      rw [make_token_loop_step e fuel pos st c cs hrest]
      simp only [List.length_cons] at hfuel
      by_cases h0 : c = ' '
      · -- a run of spaces
        subst h0
        have hfm : first_match ' ' cs =
            some (TK_NOTYPE, 1 + (cs.takeWhile (fun x => x == ' ')).length) := by
          simp [first_match]
        rw [hfm]
        simp only [if_true]
        have hd := hdrop (1 + (cs.takeWhile (fun x => x == ' ')).length)
        rw [Nat.add_comm 1, List.drop_succ_cons, drop_takeWhile_length] at hd
        rw [Nat.add_comm 1] 
        have hl := dropWhile_length_le (fun x => x == ' ') cs
        rw [lex_space] at hcap ⊢
        rw [← lex_dropWhile_space cs] at hcap ⊢
        obtain ⟨st', h1, h2, h3, h4⟩ := ih e _ st _ hd (by omega) hnr hcap
        refine ⟨st', ?_, h2, h3, h4⟩
        rw [h1]
        have hsl : legal ' ' = true := by decide
        have ha := all_dropWhile (fun x => x == ' ') legal space_legal cs
        have ht := takeWhile_length_split (fun x => x == ' ') legal space_legal cs
        simp only [List.all_cons, hsl, Bool.true_and, List.takeWhile_cons, if_true,
          List.length_cons, ha, ht]
        exact some_triple_congr (by omega)
      · by_cases h1 : isop c = true
        · -- a single-character token
          have hfm : first_match c cs = some (op_type c, 1) := by
            simp [first_match, h0, h1]
          have hne := op_type_ne c h1
          rw [hfm]
          rw [lex_op c cs h0 h1] at hcap ⊢
          simp only [List.length_cons] at hcap ⊢
          have hlt : ¬ st.nr_token ≥ 32 := by push_cast at hcap; omega
          simp only [hne.1, hne.2, if_false, hlt]
          have hd := hdrop 1
          rw [List.drop_succ_cons, List.drop_zero] at hd
          obtain ⟨st', e1, e2, e3, e4⟩ := ih e (pos + 1)
            { tokens := Function.update st.tokens st.nr_token
                ⟨op_type c, (st.tokens st.nr_token).str⟩,
              nr_token := st.nr_token + 1 } cs hd (by omega) (by simp only []; omega)
            (by simp only []; push_cast at hcap; omega)
          simp only [] at e2 e3 e4
          refine ⟨st', ?_, ?_, ?_, ?_⟩
          · rw [e1]
            have hl : legal c = true := by simp [legal, h1]
            simp only [List.all_cons, hl, Bool.true_and, List.takeWhile_cons, if_true,
              List.length_cons]
            exact some_triple_congr (by omega)
          · rw [e2]; push_cast; ring
          · rw [slice, List.map_cons, e3]
            have := e4 st.nr_token (by omega)
            rw [this]
            simp [Token.norm, hne.2]
          · intro i hi
            rw [e4 i (by omega)]
            simp [Function.update, Int.ne_of_lt hi]
        · by_cases h2 : isdigit c = true
          · -- a run of digits
            have hfm : first_match c cs =
                some (TK_NUM, 1 + (cs.takeWhile isdigit).length) := by
              simp [first_match, h0, h1, h2]
            rw [hfm]
            rw [lex_digit c cs h0 h1 h2] at hcap ⊢
            simp only [List.length_cons] at hcap ⊢
            have hlt : ¬ st.nr_token ≥ 32 := by push_cast at hcap; omega
            have hNN : ¬ (TK_NUM = TK_NOTYPE) := by decide
            simp only [hNN, if_false, hlt, if_true]
            have hd := hdrop (1 + (cs.takeWhile isdigit).length)
            rw [Nat.add_comm 1, List.drop_succ_cons, drop_takeWhile_length] at hd
            rw [Nat.add_comm 1, List.take_succ_cons, take_takeWhile_length]
            have hl := dropWhile_length_le isdigit cs
            obtain ⟨st', e1, e2, e3, e4⟩ := ih e _
              { tokens := Function.update st.tokens st.nr_token
                  ⟨TK_NUM, c :: cs.takeWhile isdigit⟩,
                nr_token := st.nr_token + 1 } _ hd (by omega) (by simp only []; omega)
              (by simp only []; push_cast at hcap; omega)
            simp only [] at e2 e3 e4
            refine ⟨st', ?_, ?_, ?_, ?_⟩
            · rw [e1]
              have hlc : legal c = true := digit_legal c h2
              have ha := all_dropWhile isdigit legal digit_legal cs
              have ht := takeWhile_length_split isdigit legal digit_legal cs
              simp only [List.all_cons, hlc, Bool.true_and, List.takeWhile_cons, if_true,
                List.length_cons, ha, ht]
              exact some_triple_congr (by omega)
            · rw [e2]; push_cast; ring
            · rw [slice, List.map_cons, e3]
              have := e4 st.nr_token (by omega)
              rw [this]
              simp [Token.norm]
            · intro i hi
              rw [e4 i (by omega)]
              simp [Function.update, Int.ne_of_lt hi]
          · -- no rule matches
            have hfm : first_match c cs = none := by
              simp [first_match, h0, h1, h2]
            rw [hfm, lex_illegal c cs h0 h1 h2]
            have hl : legal c = false := by simp [legal, h0, h1, h2]
            refine ⟨st, ?_, by simp, by simp [slice], fun _ _ => rfl⟩
            simp [hl]

theorem make_token_loop_overflow (fuel : Nat) :
    ∀ (e : List Char) (pos : Nat) (st : State) (rest : List Char),
      e.drop pos = rest → rest.length < fuel → st.nr_token ≤ 32 →
      st.nr_token + (lex rest).length > 32 →
      ∃ pos' st', make_token_loop e fuel pos st = some (false, pos', st') := by
  induction fuel with
  | zero => intro e pos st rest _ h; omega
  | succ fuel ih =>
    intro e pos st rest hrest hfuel hnr hcap
    cases rest with
    | nil => simp [lex_nil] at hcap; omega
    | cons c cs =>
      have hdrop : ∀ k, e.drop (pos + k) = (c :: cs).drop k := by
        intro k; rw [← hrest, List.drop_drop]
      rw [make_token_loop_step e fuel pos st c cs hrest]
      simp only [List.length_cons] at hfuel
      by_cases h0 : c = ' '
      · subst h0
        have hfm : first_match ' ' cs =
            some (TK_NOTYPE, 1 + (cs.takeWhile (fun x => x == ' ')).length) := by
          simp [first_match]
        rw [hfm]
        simp only [if_true]
        have hd := hdrop (1 + (cs.takeWhile (fun x => x == ' ')).length)
        rw [Nat.add_comm 1, List.drop_succ_cons, drop_takeWhile_length] at hd
        rw [Nat.add_comm 1]
        have hl := dropWhile_length_le (fun x => x == ' ') cs
        rw [lex_space, ← lex_dropWhile_space cs] at hcap
        exact ih e _ st _ hd (by omega) hnr hcap
      · by_cases h1 : isop c = true
        · have hfm : first_match c cs = some (op_type c, 1) := by
            simp [first_match, h0, h1]
          have hne := op_type_ne c h1
          rw [hfm]
          rw [lex_op c cs h0 h1] at hcap
          simp only [List.length_cons] at hcap
          simp only [hne.1, if_false]
          by_cases hlt : st.nr_token ≥ 32
          · exact ⟨_, _, by rw [if_pos hlt]⟩
          · rw [if_neg hlt]
            have hd := hdrop 1
            rw [List.drop_succ_cons, List.drop_zero] at hd
            exact ih e (pos + 1) _ cs hd (by omega) (by simp only []; omega)
              (by simp only []; push_cast at hcap; omega)
        · by_cases h2 : isdigit c = true
          · have hfm : first_match c cs =
                some (TK_NUM, 1 + (cs.takeWhile isdigit).length) := by
              simp [first_match, h0, h1, h2]
            rw [hfm]
            rw [lex_digit c cs h0 h1 h2] at hcap
            simp only [List.length_cons] at hcap
            have hNN : ¬ (TK_NUM = TK_NOTYPE) := by decide
            simp only [hNN, if_false]
            by_cases hlt : st.nr_token ≥ 32
            · exact ⟨_, _, by rw [if_pos hlt]⟩
            · rw [if_neg hlt]
              have hd := hdrop (1 + (cs.takeWhile isdigit).length)
              rw [Nat.add_comm 1, List.drop_succ_cons, drop_takeWhile_length] at hd
              rw [Nat.add_comm 1]
              have hl := dropWhile_length_le isdigit cs
              exact ih e _ _ _ hd (by omega) (by simp only []; omega)
                (by simp only []; push_cast at hcap; omega)
          · rw [lex_illegal c cs h0 h1 h2] at hcap
            simp at hcap; omega

/-! ## make_token as a whole -/

theorem make_token_ok (st : State) (e : List Char) (h : (lex e).length ≤ 32) :
    ∃ st', make_token st e = some (e.all legal, (e.takeWhile legal).length, st') ∧
      st'.nr_token = (lex e).length ∧
      (slice st'.tokens 0 (lex e).length).map Token.norm = lex e := by
  obtain ⟨st', h1, h2, h3, _⟩ := make_token_loop_ok (e.length + 1) e 0
    { st with nr_token := 0 } e (by simp) (by omega) (by simp)
    (by simp only [zero_add]; exact_mod_cast h)
  refine ⟨st', ?_, ?_, ?_⟩
  · rw [make_token, h1]; simp
  · simpa using h2
  · simpa using h3

theorem make_token_overflow (st : State) (e : List Char) (h : (lex e).length > 32) :
    ∃ pos' st', make_token st e = some (false, pos', st') :=
  make_token_loop_overflow (e.length + 1) e 0 { st with nr_token := 0 } e (by simp)
    (by omega) (by simp) (by simp only [zero_add]; exact_mod_cast h)

/-- The loop of `make_token` returns for every input: `e.length + 1` passes
are enough. -/
theorem make_token_total (st : State) (e : List Char) :
    ∃ r, make_token st e = some r := by
  by_cases h : (lex e).length ≤ 32
  · obtain ⟨st', h1, _⟩ := make_token_ok st e h
    exact ⟨_, h1⟩
  · obtain ⟨pos', st', h1⟩ := make_token_overflow st e (by omega)
    exact ⟨_, h1⟩

/-! ## Only the type of a token, and the text of a number, are read -/

theorem norm_type (t : Token) : t.norm.type = t.type := by
  unfold Token.norm
  split_ifs <;> rfl

theorem norm_str (t : Token) (h : t.type = TK_NUM) : t.norm.str = t.str := by
  unfold Token.norm
  rw [if_pos h]

theorem depth_norm (ts : List Token) : depth (ts.map Token.norm) = depth ts := by
  induction ts with
  | nil => rfl
  | cons t ts ih => simp only [List.map_cons, depth, norm_type, ih]

theorem cpl_norm (ts : List Token) (c : Int) : cpl c (ts.map Token.norm) = cpl c ts := by
  induction ts generalizing c with
  | nil => rfl
  | cons t ts ih => simp only [List.map_cons, cpl, norm_type, ih, ne_eq, List.map_eq_nil_iff]

theorem cpL_norm (ts : List Token) : cpL (ts.map Token.norm) = cpL ts := by
  cases ts with
  | nil => rfl
  | cons t ts =>
    have h := cpl_norm (t :: ts) 0
    have hl : ((t :: ts).map Token.norm).getLast?.map Token.type =
        (t :: ts).getLast?.map Token.type := by
      rw [List.getLast?_map, Option.map_map]
      congr 1
      funext x
      exact norm_type x
    simp only [List.map_cons] at h hl
    simp only [List.map_cons, cpL, norm_type, h, hl]

theorem rbal_norm (ts : List Token) : rbal (ts.map Token.norm) = rbal ts := by
  induction ts with
  | nil => rfl
  | cons t ts ih =>
    have h := depth_norm (t :: ts)
    simp only [List.map_cons] at h
    simp only [List.map_cons, rbal, ih, h]

theorem best_norm (ts : List Token) : best (ts.map Token.norm) = best ts := by
  induction ts with
  | nil => rfl
  | cons t ts ih =>
    have h := depth_norm (t :: ts)
    simp only [List.map_cons] at h
    simp only [List.map_cons, best, ih, h, norm_type]

theorem fmoL_norm (ts : List Token) : fmoL (ts.map Token.norm) = fmoL ts := by
  simp only [fmoL, rbal_norm, depth_norm, best_norm]

theorem getD_norm_type (ts : List Token) (k : Nat) :
    ((ts.map Token.norm).getD k default).type = (ts.getD k default).type := by
  induction ts generalizing k with
  | nil => rfl
  | cons t ts ih =>
    cases k with
    | zero => simp [norm_type]
    | succ k => simpa using ih k

theorem evalL_norm (fuel : Nat) : ∀ ts : List Token,
    evalL fuel (ts.map Token.norm) = evalL fuel ts := by
  induction fuel with
  | zero => intro ts; rfl
  | succ fuel ih =>
    intro ts
    match ts with
    | [] => rfl
    | [t] =>
      simp only [List.map_cons, List.map_nil, evalL, norm_type]
      by_cases h : t.type = TK_NUM
      · simp [h, norm_str t h]
      · simp [h]
    | t :: u :: ts =>
      have hc := cpL_norm (t :: u :: ts)
      have hf := fmoL_norm (t :: u :: ts)
      have hi := ih (u :: ts).dropLast
      simp only [List.map_cons, List.map_dropLast] at hc hf hi
      simp only [List.map_cons, evalL, hc, hf]
      by_cases h1 : cpL (t :: u :: ts) = true
      · rw [if_pos h1, if_pos h1]; exact hi
      · rw [if_neg h1, if_neg h1]
        cases hk : fmoL (t :: u :: ts) with
        | none => rfl
        | some k =>
          have hl := ih ((t :: u :: ts).take k)
          have hr := ih ((t :: u :: ts).drop (k + 1))
          have hg : ((Token.norm t :: Token.norm u :: ts.map Token.norm).getD k default).type =
              ((t :: u :: ts).getD k default).type :=
            getD_norm_type (t :: u :: ts) k
          simp only [List.map_take, List.map_drop, List.map_cons] at hl hr
          simp only [hl, hr, hg]

/-! ## Fuel -/

/-- A span of `n` tokens is evaluated within `n + 1` nested calls. -/
theorem evalL_total (fuel : Nat) : ∀ ts : List Token, ts.length < fuel →
    ∃ r, evalL fuel ts = some r := by
  induction fuel with
  | zero => intro ts h; omega
  | succ fuel ih =>
    intro ts h
    match ts with
    | [] => exact ⟨_, rfl⟩
    | [t] =>
      simp only [evalL]
      split_ifs <;> exact ⟨_, rfl⟩
    | t :: u :: ts =>
      simp only [List.length_cons] at h
      simp only [evalL]
      split_ifs with h1
      · exact ih _ (by simp; omega)
      · cases hk : fmoL (t :: u :: ts) with
        | none => exact ⟨_, rfl⟩
        | some k =>
          have hkl := fmoL_lt_length _ k hk
          simp only [List.length_cons] at hkl
          obtain ⟨l, hl⟩ := ih ((t :: u :: ts).take k) (by simp; omega)
          obtain ⟨r, hr⟩ := ih ((t :: u :: ts).drop (k + 1)) (by simp; omega)
          simp only [hl, hr]
          exact ⟨_, rfl⟩

theorem evalL_fuel_succ (fuel : Nat) : ∀ (ts : List Token) (r : Nat × Bool),
    evalL fuel ts = some r → evalL (fuel + 1) ts = some r := by
  induction fuel with
  | zero => intro ts r h; simp [evalL] at h
  | succ fuel ih =>
    intro ts r h
    match ts with
    | [] => simpa [evalL] using h
    | [t] => simpa [evalL] using h
    | t :: u :: ts =>
      rw [evalL] at h ⊢
      split_ifs at h ⊢ with h1
      · exact ih _ _ h
      · cases hk : fmoL (t :: u :: ts) with
        | none => simpa [hk] using h
        | some k =>
          simp only [hk] at h ⊢
          cases hl : evalL fuel ((t :: u :: ts).take k) with
          | none => rw [hl] at h; exact absurd h (by simp)
          | some l =>
            rw [hl] at h
            simp only [] at h
            cases hr : evalL fuel ((t :: u :: ts).drop (k + 1)) with
            | none => rw [hr] at h; exact absurd h (by simp)
            | some r' =>
              rw [hr] at h
              rw [ih _ _ hl, ih _ _ hr]
              exact h

theorem evalL_fuel_le (f g : Nat) (hfg : f ≤ g) (ts : List Token) (r : Nat × Bool)
    (h : evalL f ts = some r) : evalL g ts = some r := by
  induction hfg with
  | refl => exact h
  | step _ ih => exact evalL_fuel_succ _ _ _ ih

/-- With fuel above the length of the span the result no longer depends on
the fuel. -/
theorem evalL_fuel (fuel : Nat) (ts : List Token) (h : ts.length < fuel) :
    evalL fuel ts = evalL (ts.length + 1) ts := by
  obtain ⟨r, hr⟩ := evalL_total (ts.length + 1) ts (by omega)
  rw [hr]
  exact evalL_fuel_le _ _ (by omega) ts r hr

/-! ## expr in terms of the token sequence of the input -/

theorem expr_of_make_token_false (st : State) (e : List Char) (success : Bool) (pos : Nat)
    (st' : State) (h : make_token st e = some (false, pos, st')) :
    expr st e success = some (0, false, st') := by
  rw [expr, h]

theorem expr_ok (st : State) (e : List Char) (success : Bool)
    (hl : e.all legal = true) (hc : (lex e).length ≤ 32) :
    ∃ st' r, make_token st e = some (true, e.length, st') ∧
      st'.nr_token = (lex e).length ∧
      evalL ((lex e).length + 1) (lex e) = some r ∧
      expr st e success = some (r.1, success && r.2, st') := by
  obtain ⟨st', h1, h2, h3⟩ := make_token_ok st e hc
  obtain ⟨r, hr⟩ := evalL_total ((lex e).length + 1) (lex e) (by omega)
  have hpos : (e.takeWhile legal).length = e.length := by
    rw [List.takeWhile_eq_self_iff.mpr]
    intro x hx
    exact List.all_eq_true.mp hl x hx
  rw [hl, hpos] at h1
  refine ⟨st', r, h1, h2, hr, ?_⟩
  rw [expr, h1]
  simp only []
  rw [eval_eq_evalL _ _ _ _ _ (le_refl 0), h2]
  have e1 : (((lex e).length : Int) - 1 - 0 + 1).toNat = (lex e).length := by omega
  have e2 : ((lex e).length : Int).toNat = (lex e).length := by omega
  rw [e1, e2, ← evalL_norm, h3, hr]
  rfl

theorem expr_illegal (st : State) (e : List Char) (success : Bool)
    (hl : e.all legal = false) :
    ∃ st', expr st e success = some (0, false, st') := by
  by_cases hc : (lex e).length ≤ 32
  · obtain ⟨st', h1, _⟩ := make_token_ok st e hc
    rw [hl] at h1
    exact ⟨st', expr_of_make_token_false st e success _ st' h1⟩
  · obtain ⟨pos', st', h1⟩ := make_token_overflow st e (by omega)
    exact ⟨st', expr_of_make_token_false st e success _ st' h1⟩

theorem expr_overflow (st : State) (e : List Char) (success : Bool)
    (hc : (lex e).length > 32) :
    ∃ st', expr st e success = some (0, false, st') := by
  obtain ⟨pos', st', h1⟩ := make_token_overflow st e hc
  exact ⟨st', expr_of_make_token_false st e success _ st' h1⟩

/-- The function `expr` returns for every input. -/
theorem expr_total (st : State) (e : List Char) (success : Bool) :
    ∃ r, expr st e success = some r := by
  by_cases hl : e.all legal = true
  · by_cases hc : (lex e).length ≤ 32
    · obtain ⟨st', r, _, _, _, h⟩ := expr_ok st e success hl hc
      exact ⟨_, h⟩
    · obtain ⟨st', h⟩ := expr_overflow st e success (by omega)
      exact ⟨_, h⟩
  · obtain ⟨st', h⟩ := expr_illegal st e success (by simpa using hl)
    exact ⟨_, h⟩

/-! ## Decimal texts -/

theorem toDigitsCore_append (f n : Nat) (ds : List Char) :
    Nat.toDigitsCore 10 f n ds = Nat.toDigitsCore 10 f n [] ++ ds := by
  induction f generalizing n ds with
  | zero => simp [Nat.toDigitsCore]
  | succ f ih =>
    simp only [Nat.toDigitsCore]
    split_ifs
    · simp
    · rw [ih (n / 10) (_ :: ds), ih (n / 10) [_]]
      simp

theorem toDigitsCore_fuel (f n : Nat) (h : n < f) :
    Nat.toDigitsCore 10 f n [] = Nat.toDigits 10 n := by
  induction f using Nat.strong_induction_on generalizing n with
  | _ f ih =>
    cases f with
    | zero => omega
    | succ f =>
      unfold Nat.toDigits
      simp only [Nat.toDigitsCore]
      split_ifs with h0
      · rfl
      · have hlt : n / 10 < n := Nat.div_lt_self (by omega) (by omega)
        rw [toDigitsCore_append f, toDigitsCore_append n]
        rw [ih f (by omega) (n / 10) (by omega), ih n (by omega) (n / 10) hlt]

theorem toDigits_small (n : Nat) (h : n < 10) : Nat.toDigits 10 n = [Nat.digitChar n] := by
  unfold Nat.toDigits
  simp only [Nat.toDigitsCore]
  have h1 : n % 10 = n := Nat.mod_eq_of_lt h
  have h2 : n / 10 = 0 := Nat.div_eq_of_lt h
  simp [h1, h2]

theorem toDigits_step (n : Nat) (h : 10 ≤ n) :
    Nat.toDigits 10 n = Nat.toDigits 10 (n / 10) ++ [Nat.digitChar (n % 10)] := by
  have h2 : n / 10 ≠ 0 := by omega
  have hlt : n / 10 < n := Nat.div_lt_self (by omega) (by omega)
  conv_lhs => unfold Nat.toDigits
  simp only [Nat.toDigitsCore, h2, if_false]
  rw [toDigitsCore_append, toDigitsCore_fuel n (n / 10) hlt]

theorem digitChar_isdigit (d : Nat) (h : d < 10) :
    isdigit (Nat.digitChar d) = true ∧ (Nat.digitChar d).toNat - '0'.toNat = d := by
  interval_cases d <;> decide

theorem toDigits_all_digit (n : Nat) : ∀ c ∈ Nat.toDigits 10 n, isdigit c = true := by
  induction n using Nat.strong_induction_on with
  | _ n ih =>
    by_cases h : n < 10
    · rw [toDigits_small n h]
      intro c hc
      simp only [List.mem_singleton] at hc
      rw [hc]
      exact (digitChar_isdigit n h).1
    · rw [toDigits_step n (by omega)]
      intro c hc
      rw [List.mem_append] at hc
      rcases hc with hc | hc
      · exact ih (n / 10) (Nat.div_lt_self (by omega) (by omega)) c hc
      · simp only [List.mem_singleton] at hc
        rw [hc]
        exact (digitChar_isdigit (n % 10) (Nat.mod_lt _ (by omega))).1

theorem toDigits_ne_nil (n : Nat) : Nat.toDigits 10 n ≠ [] := by
  by_cases h : n < 10
  · rw [toDigits_small n h]; simp
  · rw [toDigits_step n (by omega)]; simp

theorem digits_value_snoc (ds : List Char) (c : Char) :
    digits_value (ds ++ [c]) = digits_value ds * 10 + (c.toNat - '0'.toNat) := by
  simp [digits_value, List.foldl_append]

theorem digits_value_toDigits (n : Nat) : digits_value (Nat.toDigits 10 n) = n := by
  induction n using Nat.strong_induction_on with
  | _ n ih =>
    by_cases h : n < 10
    · rw [toDigits_small n h]
      have := (digitChar_isdigit n h).2
      simpa [digits_value] using this
    · rw [toDigits_step n (by omega), digits_value_snoc,
        ih (n / 10) (Nat.div_lt_self (by omega) (by omega)),
        (digitChar_isdigit (n % 10) (Nat.mod_lt _ (by omega))).2]
      omega

theorem decimal_eq (n : Nat) : decimal n = Nat.toDigits 10 n := rfl

theorem isdigit_not_space (c : Char) (h : isdigit c = true) : isspace c = false := by
  cases hs : isspace c with
  | false => rfl
  | true =>
    simp only [isspace, Bool.or_eq_true, beq_iff_eq] at hs
    rcases hs with ((((hs | hs) | hs) | hs) | hs) | hs <;> (subst hs; revert h; decide)

theorem isdigit_ne (c : Char) (h : isdigit c = true) :
    c ≠ ' ' ∧ c ≠ '-' ∧ c ≠ '+' ∧ isop c = false := by
  refine ⟨?_, ?_, ?_, ?_⟩
  · rintro rfl; revert h; decide
  · rintro rfl; revert h; decide
  · rintro rfl; revert h; decide
  · cases ho : isop c with
    | false => rfl
    | true =>
      simp only [isop, Bool.or_eq_true, beq_iff_eq] at ho
      rcases ho with ((((ho | ho) | ho) | ho) | ho) | ho <;> (subst ho; revert h; decide)

theorem takeWhile_all (p : Char → Bool) (l : List Char) (h : ∀ c ∈ l, p c = true) :
    l.takeWhile p = l := List.takeWhile_eq_self_iff.mpr h

/-- On a non-empty run of digits whose value fits `unsigned long`, `strtoul`
returns that value. -/
theorem strtoul_digits (ds : List Char) (hne : ds ≠ []) (hd : ∀ c ∈ ds, isdigit c = true)
    (hv : digits_value ds ≤ ULONG_MAX) : strtoul ds = digits_value ds := by
  cases ds with
  | nil => exact absurd rfl hne
  | cons d ds =>
    have hdd := hd d (List.mem_cons_self _ _)
    have hsp := isdigit_not_space d hdd
    have hne' := isdigit_ne d hdd
    have h1 : (d :: ds).dropWhile isspace = d :: ds := by
      rw [List.dropWhile_cons]; simp [hsp]
    unfold strtoul
    simp only [h1, List.head?_cons, Option.some.injEq, hne'.2.1, hne'.2.2.1, or_self,
      if_false, decide_False, takeWhile_all isdigit (d :: ds) hd]
    rw [if_neg (by omega)]
    simp

theorem strtoul_decimal (n : Nat) (h : n < 2 ^ 32) : strtoul (decimal n) % 2 ^ 32 = n := by
  rw [decimal_eq, strtoul_digits _ (toDigits_ne_nil n) (toDigits_all_digit n)
    (by rw [digits_value_toDigits]; unfold ULONG_MAX; omega), digits_value_toDigits]
  exact Nat.mod_eq_of_lt h

theorem takeWhile_digits_append (ds : List Char) (hd : ∀ c ∈ ds, isdigit c = true)
    (c : Char) (cs : List Char) (hc : isdigit c = false) :
    (ds ++ c :: cs).takeWhile isdigit = ds ∧ (ds ++ c :: cs).dropWhile isdigit = c :: cs := by
  induction ds with
  | nil => simp [List.takeWhile_cons, List.dropWhile_cons, hc]
  | cons d ds ih =>
    have hdd := hd d (List.mem_cons_self _ _)
    have := ih (fun x hx => hd x (List.mem_cons_of_mem _ hx))
    simp [List.takeWhile_cons, List.dropWhile_cons, hdd, this]

/-- A run of digits followed by a character that is not a digit is one
number token. -/
theorem lex_digits_cons (ds : List Char) (hne : ds ≠ []) (hd : ∀ c ∈ ds, isdigit c = true)
    (c : Char) (cs : List Char) (hc : isdigit c = false) :
    lex (ds ++ c :: cs) = ⟨TK_NUM, ds⟩ :: lex (c :: cs) := by
  cases ds with
  | nil => exact absurd rfl hne
  | cons d ds =>
    have hdd := hd d (List.mem_cons_self _ _)
    have hne' := isdigit_ne d hdd
    have h := takeWhile_digits_append ds (fun x hx => hd x (List.mem_cons_of_mem _ hx)) c cs hc
    rw [List.cons_append, lex_digit d _ hne'.1 (by simp [hne'.2.2.2]) hdd, h.1, h.2]

/-- A run of digits at the end of the input is one number token. -/
theorem lex_digits_end (ds : List Char) (hne : ds ≠ []) (hd : ∀ c ∈ ds, isdigit c = true) :
    lex ds = [⟨TK_NUM, ds⟩] := by
  cases ds with
  | nil => exact absurd rfl hne
  | cons d ds =>
    have hdd := hd d (List.mem_cons_self _ _)
    have hne' := isdigit_ne d hdd
    have hds : ∀ x ∈ ds, isdigit x = true := fun x hx => hd x (List.mem_cons_of_mem _ hx)
    rw [lex_digit d _ hne'.1 (by simp [hne'.2.2.2]) hdd, takeWhile_all isdigit ds hds,
      List.dropWhile_eq_nil_iff.mpr hds, lex_nil]

theorem lex_decimal_cons (n : Nat) (c : Char) (cs : List Char) (hc : isdigit c = false) :
    lex (decimal n ++ c :: cs) = ⟨TK_NUM, decimal n⟩ :: lex (c :: cs) :=
  lex_digits_cons _ (toDigits_ne_nil n) (toDigits_all_digit n) c cs hc

theorem lex_decimal_end (n : Nat) : lex (decimal n) = [⟨TK_NUM, decimal n⟩] :=
  lex_digits_end _ (toDigits_ne_nil n) (toDigits_all_digit n)

theorem decimal_legal (n : Nat) : (decimal n).all legal = true := by
  rw [List.all_eq_true]
  intro c hc
  exact digit_legal c (toDigits_all_digit n c hc)

/-- The outcome of `expr` on an input of legal characters with at most 32
tokens is the evaluation of its token sequence. -/
theorem outcome_expr (st : State) (e : List Char) (ts : List Token)
    (r : Nat × Bool) (hl : e.all legal = true) (hlex : lex e = ts) (hc : ts.length ≤ 32)
    (hr : evalL (ts.length + 1) ts = some r) :
    outcome (expr st e true) = some r := by
  subst hlex
  obtain ⟨st', r', _, _, h3, h4⟩ := expr_ok st e true hl hc
  rw [hr] at h3
  cases h3
  rw [h4]
  rfl

theorem lex_decimal_op (n : Nat) (c : Char) (cs : List Char) (hc0 : c ≠ ' ')
    (hc : isop c = true) :
    lex (decimal n ++ c :: cs) = ⟨TK_NUM, decimal n⟩ :: ⟨op_type c, []⟩ :: lex cs := by
  have hcd : isdigit c = false := by
    simp only [isop, Bool.or_eq_true, beq_iff_eq] at hc
    rcases hc with ((((h | h) | h) | h) | h) | h <;> (subst h; decide)
  rw [lex_decimal_cons n c cs hcd, lex_op c cs hc0 hc]

theorem legal_decimal_op (n : Nat) (c : Char) (cs : List Char) (hc : isop c = true)
    (h : cs.all legal = true) : (decimal n ++ c :: cs).all legal = true := by
  simp [List.all_append, decimal_legal, legal, hc, h]

theorem eval_fuel (tokens : Int → Token) (f g : Nat) (p q : Int) (success : Bool)
    (hp : 0 ≤ p) (hf : (q - p + 1).toNat < f) (hg : (q - p + 1).toNat < g) :
    eval tokens f p q success = eval tokens g p q success := by
  rw [eval_eq_evalL tokens f p q success hp, eval_eq_evalL tokens g p q success hp,
    evalL_fuel f _ (by rw [slice_length]; exact hf),
    evalL_fuel g _ (by rw [slice_length]; exact hg)]

theorem eval_total (tokens : Int → Token) (f : Nat) (p q : Int) (success : Bool)
    (hp : 0 ≤ p) (hf : (q - p + 1).toNat < f) :
    ∃ r, eval tokens f p q success = some r := by
  obtain ⟨r, hr⟩ := evalL_total f (slice tokens p (q - p + 1).toNat)
    (by rw [slice_length]; exact hf)
  rw [eval_eq_evalL tokens f p q success hp, hr]
  exact ⟨_, rfl⟩

/-- C2: subtraction and division are left-associative.  For all `a`, `b`,
`c` below `2^32`, `expr` on the text `a-b-c` succeeds with `((a-b)-c) mod 2^32`,
and for `b ≠ 0`, `c ≠ 0`, `expr` on `a/b/c` succeeds with `(a/b)/c`. -/
theorem expr_left_assoc (st : State) (a b c : Nat) (ha : a < 2 ^ 32) (hb : b < 2 ^ 32)
    (hc : c < 2 ^ 32) :
    outcome (expr st (decimal a ++ '-' :: (decimal b ++ '-' :: decimal c)) true) =
        some ((((a : Int) - b - c) % 2 ^ 32).toNat, true) ∧
      (b ≠ 0 → c ≠ 0 →
        outcome (expr st (decimal a ++ '/' :: (decimal b ++ '/' :: decimal c)) true) =
          some (a / b / c, true)) := by
  constructor
  · have hlex : lex (decimal a ++ '-' :: (decimal b ++ '-' :: decimal c)) =
        [⟨TK_NUM, decimal a⟩, ⟨TK_SUB, []⟩, ⟨TK_NUM, decimal b⟩, ⟨TK_SUB, []⟩,
          ⟨TK_NUM, decimal c⟩] := by
      rw [lex_decimal_op a '-' _ (by decide) (by decide),
        lex_decimal_op b '-' _ (by decide) (by decide), lex_decimal_end]
      rfl
    have hleg := legal_decimal_op a '-' _ (by decide)
      (legal_decimal_op b '-' _ (by decide) (decimal_legal c))
    have hev : evalL 6 [⟨TK_NUM, decimal a⟩, ⟨TK_SUB, []⟩, ⟨TK_NUM, decimal b⟩,
        ⟨TK_SUB, []⟩, ⟨TK_NUM, decimal c⟩] =
        some (((strtoul (decimal a) % 2 ^ 32 + 2 ^ 32 - strtoul (decimal b) % 2 ^ 32) % 2 ^ 32
          + 2 ^ 32 - strtoul (decimal c) % 2 ^ 32) % 2 ^ 32, true) := rfl
    rw [outcome_expr st _ _ _ hleg hlex (by simp) hev]
    simp only [strtoul_decimal a ha, strtoul_decimal b hb, strtoul_decimal c hc,
      Option.some.injEq, Prod.mk.injEq, and_true]
    norm_num at ha hb hc ⊢
    omega
  · intro hb0 hc0
    have hlex : lex (decimal a ++ '/' :: (decimal b ++ '/' :: decimal c)) =
        [⟨TK_NUM, decimal a⟩, ⟨TK_DIV, []⟩, ⟨TK_NUM, decimal b⟩, ⟨TK_DIV, []⟩,
          ⟨TK_NUM, decimal c⟩] := by
      rw [lex_decimal_op a '/' _ (by decide) (by decide),
        lex_decimal_op b '/' _ (by decide) (by decide), lex_decimal_end]
      rfl
    have hleg := legal_decimal_op a '/' _ (by decide)
      (legal_decimal_op b '/' _ (by decide) (decimal_legal c))
    have hev : evalL 6 [⟨TK_NUM, decimal a⟩, ⟨TK_DIV, []⟩, ⟨TK_NUM, decimal b⟩,
        ⟨TK_DIV, []⟩, ⟨TK_NUM, decimal c⟩] =
        some (combineL TK_DIV (combineL TK_DIV (strtoul (decimal a) % 2 ^ 32, true)
          (strtoul (decimal b) % 2 ^ 32, true)) (strtoul (decimal c) % 2 ^ 32, true)) := rfl
    rw [outcome_expr st _ _ _ hleg hlex (by simp) hev]
    simp only [combineL, strtoul_decimal a ha, strtoul_decimal b hb, strtoul_decimal c hc]
    simp [hb0, hc0]

/-- Witness of C2: `8-3-2` gives 3 and `8/4/2` gives 1. -/
theorem expr_left_assoc_witness :
    outcome (expr State.init "8-3-2".toList true) = some (3, true) ∧
      outcome (expr State.init "8/4/2".toList true) = some (1, true) :=
  ⟨(expr_left_assoc State.init 8 3 2 (by decide) (by decide) (by decide)).1,
   (expr_left_assoc State.init 8 4 2 (by decide) (by decide) (by decide)).2
     (by decide) (by decide)⟩

/-- C3: multiplication binds tighter than addition and parentheses override
precedence.  For all `a`, `b`, `c` below `2^32`, `expr` on `a+b*c` succeeds with
`(a + b*c) mod 2^32` and on `(a+b)*c` with `((a+b)*c) mod 2^32`. -/
theorem expr_precedence (st : State) (a b c : Nat) (ha : a < 2 ^ 32) (hb : b < 2 ^ 32)
    (hc : c < 2 ^ 32) :
    outcome (expr st (decimal a ++ '+' :: (decimal b ++ '*' :: decimal c)) true) =
        some ((a + b * c) % 2 ^ 32, true) ∧
      outcome (expr st ('(' :: (decimal a ++ '+' :: (decimal b ++ ')' :: '*' :: decimal c)))
          true) = some (((a + b) * c) % 2 ^ 32, true) := by
  constructor
  · have hlex : lex (decimal a ++ '+' :: (decimal b ++ '*' :: decimal c)) =
        [⟨TK_NUM, decimal a⟩, ⟨TK_ADD, []⟩, ⟨TK_NUM, decimal b⟩, ⟨TK_MUL, []⟩,
          ⟨TK_NUM, decimal c⟩] := by
      rw [lex_decimal_op a '+' _ (by decide) (by decide),
        lex_decimal_op b '*' _ (by decide) (by decide), lex_decimal_end]
      rfl
    have hleg := legal_decimal_op a '+' _ (by decide)
      (legal_decimal_op b '*' _ (by decide) (decimal_legal c))
    have hev : evalL 6 [⟨TK_NUM, decimal a⟩, ⟨TK_ADD, []⟩, ⟨TK_NUM, decimal b⟩,
        ⟨TK_MUL, []⟩, ⟨TK_NUM, decimal c⟩] =
        some ((strtoul (decimal a) % 2 ^ 32 +
          (strtoul (decimal b) % 2 ^ 32 * (strtoul (decimal c) % 2 ^ 32)) % 2 ^ 32) % 2 ^ 32,
          true) := rfl
    rw [outcome_expr st _ _ _ hleg hlex (by simp) hev]
    simp only [strtoul_decimal a ha, strtoul_decimal b hb, strtoul_decimal c hc,
      Nat.add_mod_mod]
  · have hlex : lex ('(' :: (decimal a ++ '+' :: (decimal b ++ ')' :: '*' :: decimal c))) =
        [⟨TK_LPAREN, []⟩, ⟨TK_NUM, decimal a⟩, ⟨TK_ADD, []⟩, ⟨TK_NUM, decimal b⟩,
          ⟨TK_RPAREN, []⟩, ⟨TK_MUL, []⟩, ⟨TK_NUM, decimal c⟩] := by
      rw [lex_op '(' _ (by decide) (by decide),
        lex_decimal_op a '+' _ (by decide) (by decide),
        lex_decimal_op b ')' _ (by decide) (by decide),
        lex_op '*' _ (by decide) (by decide), lex_decimal_end]
      rfl
    have hleg : ('(' :: (decimal a ++ '+' :: (decimal b ++ ')' :: '*' :: decimal c))).all
        legal = true := by
      have h1 : ('*' :: decimal c).all legal = true := by
        simp only [List.all_cons, decimal_legal]; rfl
      have h2 := legal_decimal_op a '+' _ (by decide)
        (legal_decimal_op b ')' _ (by decide) h1)
      simp only [List.all_cons, h2]; rfl
    have hev : evalL 8 [⟨TK_LPAREN, []⟩, ⟨TK_NUM, decimal a⟩, ⟨TK_ADD, []⟩,
        ⟨TK_NUM, decimal b⟩, ⟨TK_RPAREN, []⟩, ⟨TK_MUL, []⟩, ⟨TK_NUM, decimal c⟩] =
        some (((strtoul (decimal a) % 2 ^ 32 + strtoul (decimal b) % 2 ^ 32) % 2 ^ 32 *
          (strtoul (decimal c) % 2 ^ 32)) % 2 ^ 32, true) := rfl
    rw [outcome_expr st _ _ _ hleg hlex (by simp) hev]
    simp only [strtoul_decimal a ha, strtoul_decimal b hb, strtoul_decimal c hc,
      Nat.mod_mul_mod]

/-- Witness of C3: `2+3*4` gives 14 and `(2+3)*4` gives 20. -/
theorem expr_precedence_witness :
    outcome (expr State.init "2+3*4".toList true) = some (14, true) ∧
      outcome (expr State.init "(2+3)*4".toList true) = some (20, true) :=
  expr_precedence State.init 2 3 4 (by decide) (by decide) (by decide)

/-- C7: arithmetic wraps modulo `2^32` and never saturates.  For all `a`, `b`
below `2^32`, `expr` returns `(a+b) mod 2^32` on `a+b`, `(a-b) mod 2^32` on
`a-b`, `(a*b) mod 2^32` on `a*b` and, for `b ≠ 0`, the floor of `a/b` on `a/b`,
each with the success flag left true. -/
theorem expr_arith_wraps (st : State) (a b : Nat) (ha : a < 2 ^ 32) (hb : b < 2 ^ 32) :
    outcome (expr st (decimal a ++ '+' :: decimal b) true) = some ((a + b) % 2 ^ 32, true) ∧
      outcome (expr st (decimal a ++ '-' :: decimal b) true) =
        some ((((a : Int) - b) % 2 ^ 32).toNat, true) ∧
      outcome (expr st (decimal a ++ '*' :: decimal b) true) = some ((a * b) % 2 ^ 32, true) ∧
      (b ≠ 0 → outcome (expr st (decimal a ++ '/' :: decimal b) true) = some (a / b, true)) := by
  have hlex : ∀ c : Char, c ≠ ' ' → isop c = true →
      lex (decimal a ++ c :: decimal b) =
        [⟨TK_NUM, decimal a⟩, ⟨op_type c, []⟩, ⟨TK_NUM, decimal b⟩] := by
    intro c h0 h1
    rw [lex_decimal_op a c _ h0 h1, lex_decimal_end]
  have hleg : ∀ c : Char, isop c = true → (decimal a ++ c :: decimal b).all legal = true :=
    fun c h1 => legal_decimal_op a c _ h1 (decimal_legal b)
  refine ⟨?_, ?_, ?_, ?_⟩
  · have hev : evalL 4 [⟨TK_NUM, decimal a⟩, ⟨op_type '+', []⟩, ⟨TK_NUM, decimal b⟩] =
        some ((strtoul (decimal a) % 2 ^ 32 + strtoul (decimal b) % 2 ^ 32) % 2 ^ 32, true) :=
      rfl
    rw [outcome_expr st _ _ _ (hleg '+' (by decide)) (hlex '+' (by decide) (by decide))
      (by simp) hev, strtoul_decimal a ha, strtoul_decimal b hb]
  · have hev : evalL 4 [⟨TK_NUM, decimal a⟩, ⟨op_type '-', []⟩, ⟨TK_NUM, decimal b⟩] =
        some ((strtoul (decimal a) % 2 ^ 32 + 2 ^ 32 - strtoul (decimal b) % 2 ^ 32) % 2 ^ 32,
          true) := rfl
    rw [outcome_expr st _ _ _ (hleg '-' (by decide)) (hlex '-' (by decide) (by decide))
      (by simp) hev, strtoul_decimal a ha, strtoul_decimal b hb]
    simp only [Option.some.injEq, Prod.mk.injEq, and_true]
    norm_num at ha hb ⊢
    omega
  · have hev : evalL 4 [⟨TK_NUM, decimal a⟩, ⟨op_type '*', []⟩, ⟨TK_NUM, decimal b⟩] =
        some ((strtoul (decimal a) % 2 ^ 32 * (strtoul (decimal b) % 2 ^ 32)) % 2 ^ 32, true) :=
      rfl
    rw [outcome_expr st _ _ _ (hleg '*' (by decide)) (hlex '*' (by decide) (by decide))
      (by simp) hev, strtoul_decimal a ha, strtoul_decimal b hb]
  · intro hb0
    have hev : evalL 4 [⟨TK_NUM, decimal a⟩, ⟨op_type '/', []⟩, ⟨TK_NUM, decimal b⟩] =
        some (combineL TK_DIV (strtoul (decimal a) % 2 ^ 32, true)
          (strtoul (decimal b) % 2 ^ 32, true)) := rfl
    rw [outcome_expr st _ _ _ (hleg '/' (by decide)) (hlex '/' (by decide) (by decide))
      (by simp) hev, strtoul_decimal a ha, strtoul_decimal b hb]
    simp [combineL, hb0]

/-- Witness of C7: `0-1` gives 4294967295, and the product of `65536` with
itself wraps to 0. -/
theorem expr_arith_wraps_witness :
    outcome (expr State.init "0-1".toList true) = some (4294967295, true) ∧
      outcome (expr State.init "65536*65536".toList true) = some (0, true) :=
  ⟨(expr_arith_wraps State.init 0 1 (by decide) (by decide)).2.1,
   (expr_arith_wraps State.init 65536 65536 (by decide) (by decide)).2.2.1⟩

/-! ## Unbalanced parentheses -/

theorem rbal_balanced (ts : List Token) : ∀ d : Int, rbal ts = true → d + depth ts = 0 →
    balanced_from d ts = true := by
  induction ts with
  | nil =>
    intro d _ h
    simp only [depth, add_zero] at h
    simp [balanced_from, h]
  | cons t ts ih =>
    intro d hr hd
    simp only [rbal, Bool.and_eq_true, decide_eq_true_eq] at hr
    have hts := rbal_depth_le ts hr.1
    rw [depth] at hd
    rw [balanced_from]
    by_cases h1 : t.type = TK_LPAREN
    · simp only [h1, if_true] at hd ⊢
      exact ih _ hr.1 (by omega)
    · by_cases h2 : t.type = TK_RPAREN
      · simp only [h1, h2, if_false, if_true] at hd ⊢
        have hc : 0 < d := by omega
        simp only [hc, decide_True, Bool.true_and]
        exact ih _ hr.1 (by omega)
      · simp only [h1, h2, if_false] at hd ⊢
        exact ih _ hr.1 (by omega)

theorem fmoL_balanced (ts : List Token) (k : Nat) (h : fmoL ts = some k) :
    balanced ts = true := by
  unfold fmoL at h
  split_ifs at h with hc
  exact rbal_balanced ts 0 hc.1 (by omega)

/-- The capacity of 32 tokens, on the tokens.  For every input made only of
digits, `+ - * /`, parentheses and spaces, `make_token` on the tokens succeeds,
with `nr_token` equal to the number of tokens, if the input lexes to at most 32
tokens, and fails if it lexes to more than 32 tokens; `expr` then reports
failure.  On the bytes the same holds when the digit runs fit the field
(`make_token_bytes_ok`, `make_token_bytes_overflow`). -/
theorem make_token_capacity (st : State) (e : List Char) (success : Bool)
    (hl : e.all legal = true) :
    ((lex e).length ≤ 32 →
      ∃ st', make_token st e = some (true, e.length, st') ∧ st'.nr_token = (lex e).length) ∧
    ((lex e).length > 32 →
      (∃ pos st', make_token st e = some (false, pos, st')) ∧
        outcome (expr st e success) = some (0, false)) := by
  constructor
  · intro hc
    obtain ⟨st', r, h1, h2, _, _⟩ := expr_ok st e success hl hc
    exact ⟨st', h1, h2⟩
  · intro hc
    refine ⟨make_token_overflow st e hc, ?_⟩
    obtain ⟨st', h⟩ := expr_overflow st e success hc
    rw [h]
    rfl

/-- Sixteen additions of seventeen numbers make 33 tokens, and `make_token`
fails on them; fifteen additions make 31 tokens, which it records. -/
theorem make_token_capacity_witness :
    ((∃ pos st', make_token State.init "1+1+1+1+1+1+1+1+1+1+1+1+1+1+1+1+1".toList =
          some (false, pos, st')) ∧
        outcome (expr State.init "1+1+1+1+1+1+1+1+1+1+1+1+1+1+1+1+1".toList true) =
          some (0, false)) ∧
      (∃ st', make_token State.init "1+1+1+1+1+1+1+1+1+1+1+1+1+1+1+1".toList =
          some (true, 31, st') ∧ st'.nr_token = 31) :=
  ⟨(make_token_capacity State.init "1+1+1+1+1+1+1+1+1+1+1+1+1+1+1+1+1".toList true
      (by decide)).2 (by simp [lex, isop, isdigit]),
   by
    simpa [lex, isop, isdigit] using
      (make_token_capacity State.init "1+1+1+1+1+1+1+1+1+1+1+1+1+1+1+1".toList true
        (by decide)).1 (by simp [lex, isop, isdigit])⟩

theorem G_ne_nil {k : Nat} {ts : List Token} {v : Nat} (h : G k ts v) : ts ≠ [] := by
  induction h <;> simp_all

theorem depth_cons (t : Token) (ts : List Token) :
    depth (t :: ts) =
      (if t.type = TK_LPAREN then 1 else if t.type = TK_RPAREN then -1 else 0) + depth ts :=
  rfl

theorem depth_of_type {t : Token} (ts : List Token)
    (h1 : t.type ≠ TK_LPAREN) (h2 : t.type ≠ TK_RPAREN) : depth (t :: ts) = depth ts := by
  rw [depth_cons, if_neg h1, if_neg h2, zero_add]

theorem depth_lparen {t : Token} (ts : List Token) (h : t.type = TK_LPAREN) :
    depth (t :: ts) = 1 + depth ts := by
  rw [depth_cons, if_pos h]

theorem depth_rparen {t : Token} (ts : List Token) (h : t.type = TK_RPAREN) :
    depth (t :: ts) = -1 + depth ts := by
  have h1 : t.type ≠ TK_LPAREN := by rw [h]; decide
  rw [depth_cons, if_neg h1, if_pos h]

theorem G_depth {k : Nat} {ts : List Token} {v : Nat} (h : G k ts v) : depth ts = 0 := by
  induction h with
  | num t ht => rw [depth_of_type _ (by rw [ht]; decide) (by rw [ht]; decide)]; rfl
  | paren l r ts v hl hr _ ih =>
    rw [depth_lparen _ hl, depth_append, ih, depth_rparen _ hr]; rfl
  | factor _ _ _ ih => exact ih
  | term _ _ _ ih => exact ih
  | mul op ts us a b hop _ _ ih1 ih2 =>
    rw [depth_append, ih1, depth_of_type _ (by rw [hop]; decide) (by rw [hop]; decide), ih2]
    rfl
  | div op ts us a b hop _ _ _ ih1 ih2 =>
    rw [depth_append, ih1, depth_of_type _ (by rw [hop]; decide) (by rw [hop]; decide), ih2]
    rfl
  | add op ts us a b hop _ _ ih1 ih2 =>
    rw [depth_append, ih1, depth_of_type _ (by rw [hop]; decide) (by rw [hop]; decide), ih2]
    rfl
  | sub op ts us a b hop _ _ ih1 ih2 =>
    rw [depth_append, ih1, depth_of_type _ (by rw [hop]; decide) (by rw [hop]; decide), ih2]
    rfl

theorem rbal_cons (t : Token) (ts : List Token) :
    rbal (t :: ts) = true ↔ rbal ts = true ∧ depth (t :: ts) ≤ 0 := by
  simp [rbal]

theorem rbal_append (a b : List Token) (ha : rbal a = true) (hb : rbal b = true) :
    rbal (a ++ b) = true := by
  induction a with
  | nil => simpa using hb
  | cons t a ih =>
    rw [rbal_cons] at ha
    rw [List.cons_append, rbal_cons]
    refine ⟨ih ha.1, ?_⟩
    have h1 := rbal_depth_le b hb
    have h2 := ha.2
    rw [depth_cons] at h2 ⊢
    rw [depth_append]
    omega

theorem G_rbal {k : Nat} {ts : List Token} {v : Nat} (h : G k ts v) : rbal ts = true := by
  induction h with
  | num t ht =>
    rw [rbal_cons]
    exact ⟨rfl, by rw [depth_of_type _ (by rw [ht]; decide) (by rw [ht]; decide)]; decide⟩
  | paren l r ts v hl hr hE ih =>
    have h1 : rbal [r] = true := by
      rw [rbal_cons]; exact ⟨rfl, by rw [depth_rparen _ hr]; decide⟩
    rw [rbal_cons]
    refine ⟨rbal_append _ _ ih h1, ?_⟩
    rw [depth_lparen _ hl, depth_append, G_depth hE, depth_rparen _ hr]
    decide
  | factor _ _ _ ih => exact ih
  | term _ _ _ ih => exact ih
  | mul op ts us a b hop _ h2 ih1 ih2 =>
    refine rbal_append _ _ ih1 ?_
    rw [rbal_cons, depth_of_type _ (by rw [hop]; decide) (by rw [hop]; decide), G_depth h2]
    exact ⟨ih2, le_refl _⟩
  | div op ts us a b hop _ h2 _ ih1 ih2 =>
    refine rbal_append _ _ ih1 ?_
    rw [rbal_cons, depth_of_type _ (by rw [hop]; decide) (by rw [hop]; decide), G_depth h2]
    exact ⟨ih2, le_refl _⟩
  | add op ts us a b hop _ h2 ih1 ih2 =>
    refine rbal_append _ _ ih1 ?_
    rw [rbal_cons, depth_of_type _ (by rw [hop]; decide) (by rw [hop]; decide), G_depth h2]
    exact ⟨ih2, le_refl _⟩
  | sub op ts us a b hop _ h2 ih1 ih2 =>
    refine rbal_append _ _ ih1 ?_
    rw [rbal_cons, depth_of_type _ (by rw [hop]; decide) (by rw [hop]; decide), G_depth h2]
    exact ⟨ih2, le_refl _⟩

theorem noClose_append (a b : List Token) : ∀ c : Int,
    noClose c a → noClose (c + depth a) b → noClose c (a ++ b) := by
  induction a with
  | nil => intro c _ hb; simpa [depth] using hb
  | cons t a ih =>
    intro c ha hb
    rw [depth_cons] at hb
    rw [List.cons_append, noClose]
    rw [noClose] at ha
    by_cases h1 : t.type = TK_LPAREN
    · simp only [h1, if_true] at ha hb ⊢
      exact ih _ ha (by rw [← add_assoc] at hb; exact hb)
    · by_cases h2 : t.type = TK_RPAREN
      · simp only [h1, h2, if_false, if_true] at ha hb ⊢
        refine ⟨ha.1, ih _ ha.2 ?_⟩
        have : c - 1 + depth a = c + (-1 + depth a) := by ring
        rw [this]; exact hb
      · simp only [h1, h2, if_false] at ha hb ⊢
        exact ih _ ha (by simpa using hb)

theorem noClose_single {t : Token} (c : Int) (h1 : t.type ≠ TK_LPAREN)
    (h2 : t.type ≠ TK_RPAREN) : noClose c [t] := by
  simp [noClose, h1, h2]

theorem noClose_cons_op {t : Token} (c : Int) (ts : List Token) (h1 : t.type ≠ TK_LPAREN)
    (h2 : t.type ≠ TK_RPAREN) (h : noClose c ts) : noClose c (t :: ts) := by
  rw [noClose, if_neg h1, if_neg h2]; exact h

theorem G_noClose {k : Nat} {ts : List Token} {v : Nat} (h : G k ts v) :
    ∀ c : Int, 1 ≤ c → noClose c ts := by
  induction h with
  | num t ht =>
    intro c _
    exact noClose_single c (by rw [ht]; decide) (by rw [ht]; decide)
  | paren l r ts v hl hr hE ih =>
    intro c hc
    rw [noClose, if_pos hl]
    refine noClose_append _ _ _ (ih _ (by omega)) ?_
    have h1 : r.type ≠ TK_LPAREN := by rw [hr]; decide
    rw [G_depth hE, noClose, if_neg h1, if_pos hr]
    exact ⟨by omega, trivial⟩
  | factor _ _ _ ih => exact ih
  | term _ _ _ ih => exact ih
  | mul op ts us a b hop h1 _ ih1 ih2 =>
    intro c hc
    refine noClose_append _ _ _ (ih1 c hc) ?_
    rw [G_depth h1, add_zero]
    exact noClose_cons_op c us (by rw [hop]; decide) (by rw [hop]; decide) (ih2 c hc)
  | div op ts us a b hop h1 _ _ ih1 ih2 =>
    intro c hc
    refine noClose_append _ _ _ (ih1 c hc) ?_
    rw [G_depth h1, add_zero]
    exact noClose_cons_op c us (by rw [hop]; decide) (by rw [hop]; decide) (ih2 c hc)
  | add op ts us a b hop h1 _ ih1 ih2 =>
    intro c hc
    refine noClose_append _ _ _ (ih1 c hc) ?_
    rw [G_depth h1, add_zero]
    exact noClose_cons_op c us (by rw [hop]; decide) (by rw [hop]; decide) (ih2 c hc)
  | sub op ts us a b hop h1 _ ih1 ih2 =>
    intro c hc
    refine noClose_append _ _ _ (ih1 c hc) ?_
    rw [G_depth h1, add_zero]
    exact noClose_cons_op c us (by rw [hop]; decide) (by rw [hop]; decide) (ih2 c hc)

/-! ## Operators outside all parentheses -/

theorem get_priority_cases (t : Int) :
    (get_priority t = -1 ∧ t ≠ TK_ADD ∧ t ≠ TK_SUB ∧ t ≠ TK_MUL ∧ t ≠ TK_DIV) ∨
      (get_priority t = 1 ∧ (t = TK_ADD ∨ t = TK_SUB)) ∨
      (get_priority t = 2 ∧ (t = TK_MUL ∨ t = TK_DIV)) := by
  unfold get_priority
  split_ifs with h1 h2 h3 h4
  · exact Or.inr (Or.inl ⟨rfl, Or.inl h1⟩)
  · exact Or.inr (Or.inl ⟨rfl, Or.inr h2⟩)
  · exact Or.inr (Or.inr ⟨rfl, Or.inl h3⟩)
  · exact Or.inr (Or.inr ⟨rfl, Or.inr h4⟩)
  · exact Or.inl ⟨rfl, h1, h2, h3, h4⟩

theorem topsGe_cons (m : Int) (t : Token) (ts : List Token) :
    topsGe m (t :: ts) ↔
      (depth (t :: ts) = 0 → get_priority t.type ≠ -1 → m ≤ get_priority t.type) ∧
        topsGe m ts := Iff.rfl

theorem cpl_lparen {t : Token} (c : Int) (ts : List Token) (h : t.type = TK_LPAREN) :
    cpl c (t :: ts) = cpl (c + 1) ts := by
  rw [cpl, if_pos h]

theorem cpl_rparen {t : Token} (c : Int) (ts : List Token) (h : t.type = TK_RPAREN) :
    cpl c (t :: ts) =
      if c - 1 < 0 then false else if c - 1 = 0 ∧ ts ≠ [] then false else cpl (c - 1) ts := by
  have h1 : t.type ≠ TK_LPAREN := by rw [h]; decide
  rw [cpl, if_neg h1, if_pos h]

theorem cpl_other {t : Token} (c : Int) (ts : List Token) (h1 : t.type ≠ TK_LPAREN)
    (h2 : t.type ≠ TK_RPAREN) : cpl c (t :: ts) = cpl c ts := by
  rw [cpl, if_neg h1, if_neg h2]

theorem noClose_lparen {t : Token} (c : Int) (ts : List Token) (h : t.type = TK_LPAREN) :
    noClose c (t :: ts) ↔ noClose (c + 1) ts := by
  rw [noClose, if_pos h]

theorem noClose_rparen {t : Token} (c : Int) (ts : List Token) (h : t.type = TK_RPAREN) :
    noClose c (t :: ts) ↔ 1 ≤ c - 1 ∧ noClose (c - 1) ts := by
  have h1 : t.type ≠ TK_LPAREN := by rw [h]; decide
  rw [noClose, if_neg h1, if_pos h]

theorem noClose_other {t : Token} (c : Int) (ts : List Token) (h1 : t.type ≠ TK_LPAREN)
    (h2 : t.type ≠ TK_RPAREN) : noClose c (t :: ts) ↔ noClose c ts := by
  rw [noClose, if_neg h1, if_neg h2]

theorem topsGe_mono (m m' : Int) (h : m' ≤ m) (ts : List Token) (ht : topsGe m ts) :
    topsGe m' ts := by
  induction ts with
  | nil => trivial
  | cons t ts ih =>
    exact ⟨fun h1 h2 => le_trans h (ht.1 h1 h2), ih ht.2⟩

theorem topsGe_one (ts : List Token) : topsGe 1 ts := by
  induction ts with
  | nil => trivial
  | cons t ts ih =>
    refine ⟨fun _ h2 => ?_, ih⟩
    rcases get_priority_cases t.type with h | h | h
    · exact absurd h.1 h2
    · rw [h.1]
    · rw [h.1]; decide

theorem topsGe_append_zero (m : Int) (a b : List Token) (hb : depth b = 0) :
    topsGe m (a ++ b) ↔ topsGe m a ∧ topsGe m b := by
  induction a with
  | nil => simp [topsGe]
  | cons t a ih =>
    have hd : depth (t :: (a ++ b)) = depth (t :: a) := by
      rw [depth_cons, depth_cons, depth_append, hb, add_zero]
    rw [List.cons_append, topsGe_cons, topsGe_cons, hd, ih]
    tauto

theorem topsGe_append_neg (m : Int) (a b : List Token) (ha : rbal a = true)
    (hb : depth b < 0) (ht : topsGe m b) : topsGe m (a ++ b) := by
  induction a with
  | nil => simpa using ht
  | cons t a ih =>
    rw [rbal_cons] at ha
    rw [List.cons_append, topsGe_cons]
    refine ⟨fun h1 _ => ?_, ih ha.1⟩
    exfalso
    have h2 := ha.2
    have hd : depth (t :: (a ++ b)) = depth (t :: a) + depth b := by
      rw [depth_cons, depth_cons, depth_append, add_assoc]
    rw [hd] at h1
    omega

theorem topsGe_cons_op {t : Token} (m : Int) (ts : List Token)
    (h : m ≤ get_priority t.type) (hts : topsGe m ts) : topsGe m (t :: ts) :=
  ⟨fun _ _ => h, hts⟩

theorem topsGe_cons_none {t : Token} (m : Int) (ts : List Token)
    (h : get_priority t.type = -1) (hts : topsGe m ts) : topsGe m (t :: ts) :=
  ⟨fun _ h2 => absurd h h2, hts⟩

theorem G_tops {k : Nat} {ts : List Token} {v : Nat} (h : G k ts v) :
    topsGe ((k : Int) + 1) ts := by
  induction h with
  | num t ht => exact topsGe_cons_none _ _ (by rw [ht]; decide) trivial
  | paren l r ts v hl hr hE _ =>
    refine topsGe_cons_none _ _ (by rw [hl]; decide) ?_
    refine topsGe_append_neg _ _ _ (G_rbal hE) (by rw [depth_rparen _ hr]; decide) ?_
    exact topsGe_cons_none _ _ (by rw [hr]; decide) trivial
  | factor _ _ _ ih => exact topsGe_mono _ _ (by norm_num) _ ih
  | term _ _ _ ih => exact topsGe_mono _ _ (by norm_num) _ ih
  | mul op ts us a b hop _ h2 ih1 ih2 =>
    have hd : depth (op :: us) = 0 := by
      rw [depth_of_type _ (by rw [hop]; decide) (by rw [hop]; decide), G_depth h2]
    rw [topsGe_append_zero _ _ _ hd]
    exact ⟨ih1, topsGe_cons_op _ _ (by rw [hop]; decide)
      (topsGe_mono _ _ (by norm_num) _ ih2)⟩
  | div op ts us a b hop _ h2 _ ih1 ih2 =>
    have hd : depth (op :: us) = 0 := by
      rw [depth_of_type _ (by rw [hop]; decide) (by rw [hop]; decide), G_depth h2]
    rw [topsGe_append_zero _ _ _ hd]
    exact ⟨ih1, topsGe_cons_op _ _ (by rw [hop]; decide)
      (topsGe_mono _ _ (by norm_num) _ ih2)⟩
  | add op ts us a b hop _ _ _ _ => exact topsGe_one _
  | sub op ts us a b hop _ _ _ _ => exact topsGe_one _

/-- An expression without additive operator outside parentheses is a term. -/
theorem G_lower1 {ts : List Token} {v : Nat} (h : G 0 ts v) (ht : topsGe 2 ts) :
    G 1 ts v := by
  cases h with
  | term _ _ h1 => exact h1
  | add op ts us a b hop _ h2 =>
    exfalso
    have hd : depth (op :: us) = 0 := by
      rw [depth_of_type _ (by rw [hop]; decide) (by rw [hop]; decide), G_depth h2]
    rw [topsGe_append_zero _ _ _ hd] at ht
    have := ht.2.1 hd (by rw [hop]; decide)
    rw [hop] at this
    exact absurd this (by decide)
  | sub op ts us a b hop _ h2 =>
    exfalso
    have hd : depth (op :: us) = 0 := by
      rw [depth_of_type _ (by rw [hop]; decide) (by rw [hop]; decide), G_depth h2]
    rw [topsGe_append_zero _ _ _ hd] at ht
    have := ht.2.1 hd (by rw [hop]; decide)
    rw [hop] at this
    exact absurd this (by decide)

/-- A term without operator outside parentheses is a factor. -/
theorem G_lower2 {ts : List Token} {v : Nat} (h : G 1 ts v) (ht : topsGe 3 ts) :
    G 2 ts v := by
  cases h with
  | factor _ _ h1 => exact h1
  | mul op ts us a b hop _ h2 =>
    exfalso
    have hd : depth (op :: us) = 0 := by
      rw [depth_of_type _ (by rw [hop]; decide) (by rw [hop]; decide), G_depth h2]
    rw [topsGe_append_zero _ _ _ hd] at ht
    have := ht.2.1 hd (by rw [hop]; decide)
    rw [hop] at this
    exact absurd this (by decide)
  | div op ts us a b hop _ h2 _ =>
    exfalso
    have hd : depth (op :: us) = 0 := by
      rw [depth_of_type _ (by rw [hop]; decide) (by rw [hop]; decide), G_depth h2]
    rw [topsGe_append_zero _ _ _ hd] at ht
    have := ht.2.1 hd (by rw [hop]; decide)
    rw [hop] at this
    exact absurd this (by decide)

/-! ## The candidate of find_main_op -/

theorem best_cons (t : Token) (ts : List Token) :
    best (t :: ts) =
      if depth (t :: ts) = 0 ∧ get_priority t.type ≠ -1 ∧
          get_priority t.type < minEnc (best ts) then
        some (0, get_priority t.type)
      else shift (best ts) := rfl

/-- The candidate has the least priority among the operators outside
parentheses. -/
theorem best_min (ts : List Token) : topsGe (minEnc (best ts)) ts := by
  induction ts with
  | nil => trivial
  | cons t ts ih =>
    rw [best_cons]
    split_ifs with hc
    · exact ⟨fun _ _ => le_refl _, topsGe_mono _ _ (le_of_lt hc.2.2) _ ih⟩
    · rw [minEnc_shift]
      refine ⟨fun h1 h2 => ?_, ih⟩
      by_contra hlt
      exact hc ⟨h1, h2, by omega⟩

theorem topsGe_le_minEnc (m : Int) (ts : List Token) (ht : topsGe m ts) (hm : m ≤ INT_MAX) :
    m ≤ minEnc (best ts) := by
  induction ts with
  | nil => exact hm
  | cons t ts ih =>
    rw [best_cons]
    split_ifs with hc
    · exact ht.1 hc.1 hc.2.1
    · rw [minEnc_shift]
      exact ih ht.2

/-- The candidate is an operator outside parentheses, and every operator
outside parentheses to its right has a higher priority. -/
theorem best_decomp (ts : List Token) : ∀ x, best ts = some x →
    ∃ L t R, ts = L ++ t :: R ∧ L.length = x.1 ∧ get_priority t.type = x.2 ∧ x.2 ≠ -1 ∧
      depth (t :: R) = 0 ∧ topsGe (x.2 + 1) R := by
  induction ts with
  | nil => intro x hx; simp [best] at hx
  | cons t ts ih =>
    intro x hx
    rw [best_cons] at hx
    split_ifs at hx with hc
    · simp only [Option.some.injEq] at hx
      subst hx
      refine ⟨[], t, ts, rfl, rfl, rfl, hc.2.1, hc.1, ?_⟩
      exact topsGe_mono _ _ (by simp only []; omega) _ (best_min ts)
    · cases hb : best ts with
      | none => rw [hb] at hx; simp [shift] at hx
      | some y =>
        rw [hb] at hx
        simp only [shift, Option.some.injEq] at hx
        subst hx
        obtain ⟨L, t', R, h1, h2, h3, h4, h5, h6⟩ := ih y hb
        exact ⟨t :: L, t', R, by rw [h1]; rfl, by simp [h2], h3, h4, h5, h6⟩

/-- An operator outside parentheses with no operator of higher or equal
rank to its right, and none of strictly lower priority anywhere, is the
candidate. -/
theorem best_of_decomp (t : Token) (R : List Token) (hd : depth (t :: R) = 0)
    (hp : get_priority t.type ≠ -1) (hR : topsGe (get_priority t.type + 1) R) :
    ∀ L : List Token, topsGe (get_priority t.type) (L ++ t :: R) →
      best (L ++ t :: R) = some (L.length, get_priority t.type) := by
  have hlt := get_priority_lt_INT_MAX t.type
  intro L
  induction L with
  | nil =>
    intro _
    have h1 := topsGe_le_minEnc _ R hR (by omega)
    rw [List.nil_append, best_cons, if_pos ⟨hd, hp, by omega⟩]
    rfl
  | cons x L ih =>
    intro ht
    have hb := ih ht.2
    rw [List.cons_append, best_cons, hb]
    have hc : ¬ (depth (x :: (L ++ t :: R)) = 0 ∧ get_priority x.type ≠ -1 ∧
        get_priority x.type < minEnc (some (L.length, get_priority t.type))) := by
      rintro ⟨h1, h2, h3⟩
      have := ht.1 h1 h2
      simp only [minEnc] at h3
      omega
    rw [if_neg hc]
    rfl

/-! ## check_parentheses on derived token lists -/

theorem cpl_wrapped (E : List Token) {r : Token} (hr : r.type = TK_RPAREN) :
    ∀ c : Int, noClose c E → c + depth E = 1 → cpl c (E ++ [r]) = true := by
  induction E with
  | nil =>
    intro c _ hc
    simp only [depth, add_zero] at hc
    subst hc
    rw [List.nil_append, cpl_rparen _ _ hr]
    simp [cpl]
  | cons t E ih =>
    intro c hn hc
    rw [List.cons_append]
    by_cases h1 : t.type = TK_LPAREN
    · rw [depth_lparen _ h1] at hc
      rw [noClose_lparen _ _ h1] at hn
      rw [cpl_lparen _ _ h1]
      exact ih _ hn (by omega)
    · by_cases h2 : t.type = TK_RPAREN
      · rw [depth_rparen _ h2] at hc
        rw [noClose_rparen _ _ h2] at hn
        rw [cpl_rparen _ _ h2, if_neg (by omega), if_neg (by omega)]
        exact ih _ hn.2 (by omega)
      · rw [depth_of_type _ h1 h2] at hc
        rw [noClose_other _ _ h1 h2] at hn
        rw [cpl_other _ _ h1 h2]
        exact ih _ hn hc

theorem cpl_closes_early (X S : List Token) (hS : S ≠ []) :
    ∀ c : Int, 1 ≤ c → c + depth X ≤ 0 → cpl c (X ++ S) = false := by
  induction X with
  | nil => intro c h1 h2; simp only [depth] at h2; omega
  | cons t X ih =>
    intro c h1 h2
    rw [List.cons_append]
    by_cases ht1 : t.type = TK_LPAREN
    · rw [depth_lparen _ ht1] at h2
      rw [cpl_lparen _ _ ht1]
      exact ih _ (by omega) (by omega)
    · by_cases ht2 : t.type = TK_RPAREN
      · rw [depth_rparen _ ht2] at h2
        rw [cpl_rparen _ _ ht2, if_neg (by omega)]
        by_cases hc1 : c - 1 = 0
        · rw [if_pos ⟨hc1, by simp [hS]⟩]
        · rw [if_neg (fun h => hc1 h.1)]
          exact ih _ (by omega) (by omega)
      · rw [depth_of_type _ ht1 ht2] at h2
        rw [cpl_other _ _ ht1 ht2]
        exact ih _ h1 h2

/-- A parenthesized expression is fully parenthesized. -/
theorem cpL_paren {l r : Token} {E : List Token} {v : Nat} (hl : l.type = TK_LPAREN)
    (hr : r.type = TK_RPAREN) (hE : G 0 E v) : cpL (l :: (E ++ [r])) = true := by
  have hlast : (l :: (E ++ [r])).getLast? = some r := by
    rw [← List.cons_append, List.getLast?_append]; simp
  rw [cpL, hlast]
  simp only [hl, hr, ne_eq, not_true_eq_false, Option.map_some', or_self, if_false]
  rw [cpl_lparen _ _ hl]
  exact cpl_wrapped E hr _ (G_noClose hE _ (by norm_num)) (by rw [G_depth hE]; rfl)

/-- A list that is split at an operator outside parentheses is not fully
parenthesized. -/
theorem cpL_split (A : List Token) (op : Token) (B : List Token) (hA : A ≠ [])
    (hd : depth A = 0) : cpL (A ++ op :: B) = false := by
  cases A with
  | nil => exact absurd rfl hA
  | cons a A =>
    rw [List.cons_append, cpL]
    split_ifs with h
    · rfl
    · have ha : a.type = TK_LPAREN := by
        by_contra hc
        exact h (Or.inl hc)
      rw [cpl_lparen _ _ ha]
      rw [depth_lparen _ ha] at hd
      exact cpl_closes_early A (op :: B) (by simp) _ (by norm_num) (by omega)

/-- A fully parenthesized list starts with `(` and ends with `)`. -/
theorem cpL_shape (t u : Token) (ts : List Token) (h : cpL (t :: u :: ts) = true) :
    ∃ r, t.type = TK_LPAREN ∧ r.type = TK_RPAREN ∧
      t :: u :: ts = t :: ((u :: ts).dropLast ++ [r]) := by
  rw [cpL] at h
  split_ifs at h with hc
  have hc' : t.type = TK_LPAREN ∧
      ((t :: u :: ts).getLast?.map Token.type) = some TK_RPAREN := by
    constructor
    · by_contra h1; exact hc (Or.inl h1)
    · by_contra h1; exact hc (Or.inr h1)
  have hne : (u :: ts) ≠ [] := by simp
  have hlast : (t :: u :: ts).getLast? = some ((u :: ts).getLast hne) := by
    rw [List.getLast?_cons_cons, List.getLast?_eq_getLast _ hne]
  refine ⟨(u :: ts).getLast hne, hc'.1, ?_, ?_⟩
  · have := hc'.2
    rw [hlast] at this
    simpa using this
  · rw [List.dropLast_append_getLast hne]

/-! ## eval computes the value of the derivation, and only of derivations -/

theorem strtoul_denotes32 (s : List Char) (h : denotes32 s = true) :
    strtoul s % 2 ^ 32 = digits_value s := by
  simp only [denotes32, Bool.and_eq_true, Bool.not_eq_true', List.isEmpty_eq_false,
    List.all_eq_true, decide_eq_true_eq] at h
  obtain ⟨⟨h1, h2⟩, h3⟩ := h
  rw [strtoul_digits s h1 h2 (by unfold ULONG_MAX; omega)]
  exact Nat.mod_eq_of_lt h3

theorem numbers_ok_sub {ts us : List Token} (h : numbers_ok ts) (hs : ∀ t ∈ us, t ∈ ts) :
    numbers_ok us := fun t ht => h t (hs t ht)

theorem evalL_two (f : Nat) (ts : List Token) (h : 2 ≤ ts.length) :
    evalL (f + 1) ts =
      if cpL ts then evalL f ts.tail.dropLast
      else
        match fmoL ts with
        | none => some (0, false)
        | some k =>
          match evalL f (ts.take k) with
          | none => none
          | some l =>
            match evalL f (ts.drop (k + 1)) with
            | none => none
            | some r => some (combineL (ts.getD k default).type l r) := by
  match ts with
  | [] => simp at h
  | [_] => simp at h
  | t :: u :: ts => rfl

theorem fmoL_of_decomp (A : List Token) (op : Token) (B : List Token)
    (hr : rbal (A ++ op :: B) = true) (hd : depth (A ++ op :: B) = 0)
    (hdB : depth (op :: B) = 0) (hp : get_priority op.type ≠ -1)
    (hB : topsGe (get_priority op.type + 1) B)
    (hall : topsGe (get_priority op.type) (A ++ op :: B)) :
    fmoL (A ++ op :: B) = some A.length := by
  rw [fmoL, if_pos ⟨hr, hd⟩, best_of_decomp op B hdB hp hB A hall]
  rfl

/-- The step of `eval` on a list split at its main operator. -/
theorem evalL_split (f : Nat) (A : List Token) (op : Token) (B : List Token)
    (hA : A ≠ []) (hdA : depth A = 0)
    (hfm : fmoL (A ++ op :: B) = some A.length) (l r : Nat × Bool)
    (hl : evalL f A = some l) (hr : evalL f B = some r) :
    evalL (f + 1) (A ++ op :: B) = some (combineL op.type l r) := by
  have hlen : 2 ≤ (A ++ op :: B).length := by
    have := List.length_pos.mpr hA
    simp only [List.length_append, List.length_cons]
    omega
  rw [evalL_two f _ hlen, cpL_split A op B hA hdA, hfm]
  simp only [Bool.false_eq_true, if_false]
  have h1 : (A ++ op :: B).take A.length = A := List.take_left' rfl
  have h2 : (A ++ op :: B).drop (A.length + 1) = B := by
    rw [← List.drop_drop, List.drop_left' rfl]
    rfl
  have h3 : (A ++ op :: B).getD A.length default = op := by
    rw [List.getD_eq_getElem?_getD, List.getElem?_append_right (le_refl _)]
    simp
  rw [h1, h2, h3, hl, hr]

/-- On a derivable token list `eval` succeeds with the value of the
derivation. -/
theorem evalL_of_G {k : Nat} {ts : List Token} {v : Nat} (h : G k ts v) :
    numbers_ok ts → ∀ fuel, ts.length < fuel → evalL fuel ts = some (v, true) := by
  induction h with
  | num t ht =>
    intro hn fuel hf
    obtain ⟨f, rfl⟩ : ∃ f, fuel = f + 1 := ⟨fuel - 1, by omega⟩
    rw [evalL, if_neg (by simp [ht]), strtoul_denotes32 _ (hn t (by simp) ht)]
  | paren l r ts v hl hr hE ih =>
    intro hn fuel hf
    obtain ⟨f, rfl⟩ : ∃ f, fuel = f + 1 := ⟨fuel - 1, by omega⟩
    have hne := List.length_pos.mpr (G_ne_nil hE)
    simp only [List.length_cons, List.length_append, List.length_singleton] at hf
    rw [evalL_two f _ (by simp only [List.length_cons, List.length_append,
      List.length_singleton]; omega), cpL_paren hl hr hE, if_pos rfl]
    simp only [List.tail_cons, List.dropLast_concat]
    exact ih (numbers_ok_sub hn (fun t ht => by simp [ht])) f (by omega)
  | factor _ _ _ ih => exact ih
  | term _ _ _ ih => exact ih
  | mul op A B a b hop hA hB ihA ihB =>
    intro hn fuel hf
    obtain ⟨f, rfl⟩ : ∃ f, fuel = f + 1 := ⟨fuel - 1, by omega⟩
    simp only [List.length_cons, List.length_append] at hf
    have hwhole := G.mul op A B a b hop hA hB
    have hprio : get_priority op.type = 2 := by rw [hop]; rfl
    have hdB : depth (op :: B) = 0 := by
      rw [depth_of_type _ (by rw [hop]; decide) (by rw [hop]; decide), G_depth hB]
    have hfm := fmoL_of_decomp A op B (G_rbal hwhole) (G_depth hwhole) hdB
      (by rw [hprio]; decide) (by rw [hprio]; exact G_tops hB)
      (by rw [hprio]; exact G_tops hwhole)
    rw [evalL_split f A op B (G_ne_nil hA) (G_depth hA) hfm (a, true) (b, true)
      (ihA (numbers_ok_sub hn (fun t ht => by simp [ht])) f (by omega))
      (ihB (numbers_ok_sub hn (fun t ht => by simp [ht])) f (by omega)), hop]
    rfl
  | div op A B a b hop hA hB hb0 ihA ihB =>
    intro hn fuel hf
    obtain ⟨f, rfl⟩ : ∃ f, fuel = f + 1 := ⟨fuel - 1, by omega⟩
    simp only [List.length_cons, List.length_append] at hf
    have hwhole := G.div op A B a b hop hA hB hb0
    have hprio : get_priority op.type = 2 := by rw [hop]; rfl
    have hdB : depth (op :: B) = 0 := by
      rw [depth_of_type _ (by rw [hop]; decide) (by rw [hop]; decide), G_depth hB]
    have hfm := fmoL_of_decomp A op B (G_rbal hwhole) (G_depth hwhole) hdB
      (by rw [hprio]; decide) (by rw [hprio]; exact G_tops hB)
      (by rw [hprio]; exact G_tops hwhole)
    rw [evalL_split f A op B (G_ne_nil hA) (G_depth hA) hfm (a, true) (b, true)
      (ihA (numbers_ok_sub hn (fun t ht => by simp [ht])) f (by omega))
      (ihB (numbers_ok_sub hn (fun t ht => by simp [ht])) f (by omega)), hop]
    simp [combineL, hb0]
  | add op A B a b hop hA hB ihA ihB =>
    intro hn fuel hf
    obtain ⟨f, rfl⟩ : ∃ f, fuel = f + 1 := ⟨fuel - 1, by omega⟩
    simp only [List.length_cons, List.length_append] at hf
    have hwhole := G.add op A B a b hop hA hB
    have hprio : get_priority op.type = 1 := by rw [hop]; rfl
    have hdB : depth (op :: B) = 0 := by
      rw [depth_of_type _ (by rw [hop]; decide) (by rw [hop]; decide), G_depth hB]
    have hfm := fmoL_of_decomp A op B (G_rbal hwhole) (G_depth hwhole) hdB
      (by rw [hprio]; decide) (by rw [hprio]; exact G_tops hB)
      (by rw [hprio]; exact G_tops hwhole)
    rw [evalL_split f A op B (G_ne_nil hA) (G_depth hA) hfm (a, true) (b, true)
      (ihA (numbers_ok_sub hn (fun t ht => by simp [ht])) f (by omega))
      (ihB (numbers_ok_sub hn (fun t ht => by simp [ht])) f (by omega)), hop]
    rfl
  | sub op A B a b hop hA hB ihA ihB =>
    intro hn fuel hf
    obtain ⟨f, rfl⟩ : ∃ f, fuel = f + 1 := ⟨fuel - 1, by omega⟩
    simp only [List.length_cons, List.length_append] at hf
    have hwhole := G.sub op A B a b hop hA hB
    have hprio : get_priority op.type = 1 := by rw [hop]; rfl
    have hdB : depth (op :: B) = 0 := by
      rw [depth_of_type _ (by rw [hop]; decide) (by rw [hop]; decide), G_depth hB]
    have hfm := fmoL_of_decomp A op B (G_rbal hwhole) (G_depth hwhole) hdB
      (by rw [hprio]; decide) (by rw [hprio]; exact G_tops hB)
      (by rw [hprio]; exact G_tops hwhole)
    rw [evalL_split f A op B (G_ne_nil hA) (G_depth hA) hfm (a, true) (b, true)
      (ihA (numbers_ok_sub hn (fun t ht => by simp [ht])) f (by omega))
      (ihB (numbers_ok_sub hn (fun t ht => by simp [ht])) f (by omega)), hop]
    rfl

theorem fmoL_decomp (ts : List Token) (k : Nat) (h : fmoL ts = some k) :
    ∃ L t R, ts = L ++ t :: R ∧ L.length = k ∧ get_priority t.type ≠ -1 ∧
      depth (t :: R) = 0 ∧ topsGe (get_priority t.type + 1) R ∧
      topsGe (get_priority t.type) ts := by
  unfold fmoL at h
  split_ifs at h with hc
  cases hb : best ts with
  | none => rw [hb] at h; simp at h
  | some x =>
    rw [hb] at h
    simp only [Option.map_some', Option.some.injEq] at h
    obtain ⟨L, t, R, h1, h2, h3, h4, h5, h6⟩ := best_decomp ts x hb
    have hmin := best_min ts
    rw [hb] at hmin
    simp only [minEnc] at hmin
    refine ⟨L, t, R, h1, by rw [h2, h], by rw [h3]; exact h4, h5, by rw [h3]; exact h6, ?_⟩
    rw [h3]; exact hmin

theorem combineL_true (ty : Int) (l r : Nat × Bool) (v : Nat)
    (h : combineL ty l r = (v, true)) :
    l.2 = true ∧ r.2 = true ∧
      ((ty = TK_ADD ∧ v = (l.1 + r.1) % 2 ^ 32) ∨
       (ty = TK_SUB ∧ v = (l.1 + 2 ^ 32 - r.1) % 2 ^ 32) ∨
       (ty = TK_MUL ∧ v = (l.1 * r.1) % 2 ^ 32) ∨
       (ty = TK_DIV ∧ r.1 ≠ 0 ∧ v = l.1 / r.1)) := by
  unfold combineL at h
  split_ifs at h with h1 h2 h3 h4 h5
  all_goals simp only [Prod.mk.injEq, Bool.and_eq_true] at h
  · exact ⟨h.2.1, h.2.2, Or.inl ⟨h1, h.1.symm⟩⟩
  · exact ⟨h.2.1, h.2.2, Or.inr (Or.inl ⟨h2, h.1.symm⟩)⟩
  · exact ⟨h.2.1, h.2.2, Or.inr (Or.inr (Or.inl ⟨h3, h.1.symm⟩))⟩
  · exact absurd h.2 (by simp)
  · exact ⟨h.2.1, h.2.2, Or.inr (Or.inr (Or.inr ⟨h4, h5, h.1.symm⟩))⟩
  · exact absurd h.2 (by simp)

/-- Whenever `eval` succeeds, the token list is derivable with the returned
value. -/
theorem G_of_evalL (fuel : Nat) : ∀ (ts : List Token) (v : Nat), numbers_ok ts →
    evalL fuel ts = some (v, true) → G 0 ts v := by
  induction fuel with
  | zero => intro ts v _ h; simp [evalL] at h
  | succ f ih =>
    intro ts v hn h
    match ts with
    | [] => simp [evalL] at h
    | [t] =>
      rw [evalL] at h
      split_ifs at h with h1
      · simp at h
      · have ht : t.type = TK_NUM := by simpa using h1
        rw [strtoul_denotes32 _ (hn t (by simp) ht)] at h
        simp only [Option.some.injEq, Prod.mk.injEq, and_true] at h
        rw [← h]
        exact G.term _ _ (G.factor _ _ (G.num t ht))
    | t :: u :: rest =>
      rw [evalL] at h
      split_ifs at h with h1
      · obtain ⟨r, hl, hr, hshape⟩ := cpL_shape t u rest h1
        have hin := ih _ v (numbers_ok_sub hn (fun x hx => by
          have := List.mem_of_mem_dropLast hx
          exact List.mem_cons_of_mem _ this)) h
        rw [hshape]
        exact G.term _ _ (G.factor _ _ (G.paren t r _ v hl hr hin))
      · cases hk : fmoL (t :: u :: rest) with
        | none => rw [hk] at h; simp at h
        | some k =>
          rw [hk] at h
          simp only [] at h
          obtain ⟨L, o, R, h1, h2, h3, h4, h5, h6⟩ := fmoL_decomp _ k hk
          have e1 : (t :: u :: rest).take k = L := by rw [h1, ← h2]; exact List.take_left' rfl
          have e2 : (t :: u :: rest).drop (k + 1) = R := by
            rw [h1, ← h2, ← List.drop_drop, List.drop_left' rfl]
            rfl
          have e3 : (t :: u :: rest).getD k default = o := by
            rw [h1, ← h2, List.getD_eq_getElem?_getD,
              List.getElem?_append_right (le_refl _)]
            simp
          rw [e1, e2, e3] at h
          cases hL : evalL f L with
          | none => rw [hL] at h; simp at h
          | some l =>
            rw [hL] at h
            simp only [] at h
            cases hR : evalL f R with
            | none => rw [hR] at h; simp at h
            | some r =>
              rw [hR] at h
              simp only [Option.some.injEq] at h
              obtain ⟨hl2, hr2, hcases⟩ := combineL_true _ _ _ _ h
              have hnL : numbers_ok L := numbers_ok_sub hn (fun x hx => by
                rw [h1]; exact List.mem_append_left _ hx)
              have hnR : numbers_ok R := numbers_ok_sub hn (fun x hx => by
                rw [h1]; exact List.mem_append_right _ (List.mem_cons_of_mem _ hx))
              have gL : G 0 L l.1 := ih L l.1 hnL (by rw [hL, ← hl2])
              have gR : G 0 R r.1 := ih R r.1 hnR (by rw [hR, ← hr2])
              rw [h1]
              rw [h1, topsGe_append_zero _ _ _ h4] at h6
              rcases hcases with ⟨ho, hv⟩ | ⟨ho, hv⟩ | ⟨ho, hv⟩ | ⟨ho, hb0, hv⟩
              · have hp : get_priority o.type = 1 := by rw [ho]; rfl
                rw [hp] at h5
                rw [hv]
                exact G.add o L R _ _ ho gL (G_lower1 gR h5)
              · have hp : get_priority o.type = 1 := by rw [ho]; rfl
                rw [hp] at h5
                rw [hv]
                exact G.sub o L R _ _ ho gL (G_lower1 gR h5)
              · have hp : get_priority o.type = 2 := by rw [ho]; rfl
                rw [hp] at h5 h6
                rw [hv]
                exact G.term _ _ (G.mul o L R _ _ ho (G_lower1 gL h6.1)
                  (G_lower2 (G_lower1 gR (topsGe_mono _ _ (by norm_num) _ h5)) h5))
              · have hp : get_priority o.type = 2 := by rw [ho]; rfl
                rw [hp] at h5 h6
                rw [hv]
                exact G.term _ _ (G.div o L R _ _ ho (G_lower1 gL h6.1)
                  (G_lower2 (G_lower1 gR (topsGe_mono _ _ (by norm_num) _ h5)) h5) hb0)

/-! ## Recursive descent and the grammar -/

theorem descent_term_loop_stop (n acc : Nat) (rest : List Token) (h : noMulDiv rest) :
    descent_term_loop (n + 1) acc rest = some (acc, rest) := by
  cases rest with
  | nil => rfl
  | cons t rest =>
    have := h t rest rfl
    rw [descent_term_loop, if_neg this.1, if_neg this.2]

theorem descent_expr_loop_stop (n acc : Nat) (rest : List Token) (h : noAddSub rest) :
    descent_expr_loop (n + 1) acc rest = some (acc, rest) := by
  cases rest with
  | nil => rfl
  | cons t rest =>
    have := h t rest rfl
    rw [descent_expr_loop, if_neg this.1, if_neg this.2]

/-- Recursive descent accepts every derivation of the grammar. -/
theorem parses_of_G {k : Nat} {ts : List Token} {v : Nat} (h : G k ts v) : Parses k ts v := by
  induction h with
  | num t ht =>
    intro rest n hn
    obtain ⟨m, rfl⟩ : ∃ m, n = m + 1 := ⟨n - 1, by omega⟩
    rw [List.singleton_append, descent_factor, if_pos ht]
  | paren l r ts v hl hr _ ih =>
    intro rest n hn
    obtain ⟨m, rfl⟩ : ∃ m, n = m + 1 := ⟨n - 1, by omega⟩
    simp only [List.length_cons, List.length_append, List.length_singleton] at hn
    have hl' : l.type ≠ TK_NUM := by rw [hl]; decide
    have hrest : noMulDiv (r :: rest) := by
      intro t rest' he
      cases he
      rw [hr]; exact ⟨by decide, by decide⟩
    obtain ⟨n', hn', he⟩ := ih (r :: rest) m hrest
      (by simp only [List.length_cons]; omega)
    obtain ⟨n'', rfl⟩ : ∃ n'', n' = n'' + 1 := ⟨n' - 1, by omega⟩
    have hstop : descent_expr_loop (n'' + 1) v (r :: rest) = some (v, r :: rest) :=
      descent_expr_loop_stop _ _ _ (by
        intro t rest' he'
        cases he'
        rw [hr]; exact ⟨by decide, by decide⟩)
    have happ : (l :: (ts ++ [r])) ++ rest = l :: (ts ++ (r :: rest)) := by simp
    rw [happ, descent_factor, if_neg hl', if_pos hl, he, hstop]
    simp only [hr, if_true]
  | factor ts v _ ih =>
    intro rest n hn
    obtain ⟨m, rfl⟩ : ∃ m, n = m + 1 := ⟨n - 1, by omega⟩
    refine ⟨m, by omega, ?_⟩
    rw [descent_term, ih rest m (by omega)]
  | mul op A B a b hop _ _ ihA ihB =>
    intro rest n hn
    simp only [List.length_cons, List.length_append] at hn
    obtain ⟨n', hn', he⟩ := ihA (op :: (B ++ rest)) n
      (by simp only [List.length_cons, List.length_append]; omega)
    simp only [List.length_cons, List.length_append] at hn'
    obtain ⟨m, rfl⟩ : ∃ m, n' = m + 1 := ⟨n' - 1, by omega⟩
    refine ⟨m, by omega, ?_⟩
    have happ : (A ++ op :: B) ++ rest = A ++ (op :: (B ++ rest)) := by simp
    rw [happ, he, descent_term_loop, if_pos hop, ihB rest m (by omega)]
  | div op A B a b hop _ _ hb0 ihA ihB =>
    intro rest n hn
    simp only [List.length_cons, List.length_append] at hn
    obtain ⟨n', hn', he⟩ := ihA (op :: (B ++ rest)) n
      (by simp only [List.length_cons, List.length_append]; omega)
    simp only [List.length_cons, List.length_append] at hn'
    obtain ⟨m, rfl⟩ : ∃ m, n' = m + 1 := ⟨n' - 1, by omega⟩
    refine ⟨m, by omega, ?_⟩
    have happ : (A ++ op :: B) ++ rest = A ++ (op :: (B ++ rest)) := by simp
    have hop' : op.type ≠ TK_MUL := by rw [hop]; decide
    rw [happ, he, descent_term_loop, if_neg hop', if_pos hop, ihB rest m (by omega)]
    simp only [hb0, if_false]
  | term ts v _ ih =>
    intro rest n hrest hn
    obtain ⟨m, rfl⟩ : ∃ m, n = m + 1 := ⟨n - 1, by omega⟩
    obtain ⟨n', hn', he⟩ := ih rest m (by omega)
    obtain ⟨n'', rfl⟩ : ∃ n'', n' = n'' + 1 := ⟨n' - 1, by omega⟩
    refine ⟨m, by omega, ?_⟩
    rw [descent_expr, he, descent_term_loop_stop _ _ _ hrest]
  | add op A B a b hop _ _ ihA ihB =>
    intro rest n hrest hn
    simp only [List.length_cons, List.length_append] at hn
    have hop1 : noMulDiv (op :: (B ++ rest)) := by
      intro t rest' he'
      cases he'
      rw [hop]; exact ⟨by decide, by decide⟩
    obtain ⟨n', hn', he⟩ := ihA (op :: (B ++ rest)) n hop1
      (by simp only [List.length_cons, List.length_append]; omega)
    simp only [List.length_cons, List.length_append] at hn'
    obtain ⟨m, rfl⟩ : ∃ m, n' = m + 1 := ⟨n' - 1, by omega⟩
    obtain ⟨k, hk, heB⟩ := ihB rest m (by omega)
    obtain ⟨k', rfl⟩ : ∃ k', k = k' + 1 := ⟨k - 1, by omega⟩
    refine ⟨m, by omega, ?_⟩
    have happ : (A ++ op :: B) ++ rest = A ++ (op :: (B ++ rest)) := by simp
    rw [happ, he, descent_expr_loop, if_pos hop, heB, descent_term_loop_stop _ _ _ hrest]
  | sub op A B a b hop _ _ ihA ihB =>
    intro rest n hrest hn
    simp only [List.length_cons, List.length_append] at hn
    have hop1 : noMulDiv (op :: (B ++ rest)) := by
      intro t rest' he'
      cases he'
      rw [hop]; exact ⟨by decide, by decide⟩
    obtain ⟨n', hn', he⟩ := ihA (op :: (B ++ rest)) n hop1
      (by simp only [List.length_cons, List.length_append]; omega)
    simp only [List.length_cons, List.length_append] at hn'
    obtain ⟨m, rfl⟩ : ∃ m, n' = m + 1 := ⟨n' - 1, by omega⟩
    obtain ⟨k, hk, heB⟩ := ihB rest m (by omega)
    obtain ⟨k', rfl⟩ : ∃ k', k = k' + 1 := ⟨k - 1, by omega⟩
    refine ⟨m, by omega, ?_⟩
    have happ : (A ++ op :: B) ++ rest = A ++ (op :: (B ++ rest)) := by simp
    have hop' : op.type ≠ TK_ADD := by rw [hop]; decide
    rw [happ, he, descent_expr_loop, if_neg hop', if_pos hop, heB,
      descent_term_loop_stop _ _ _ hrest]

theorem descent_of_G {ts : List Token} {v : Nat} (h : G 0 ts v) :
    descent ts = some v := by
  obtain ⟨n', hn', he⟩ := parses_of_G h [] (3 * ts.length + 3)
    (by intro t rest' he; cases he) (by simp)
  obtain ⟨m, rfl⟩ : ∃ m, n' = m + 1 := ⟨n' - 1, by omega⟩
  rw [List.append_nil] at he
  rw [descent, he]
  rfl

/-- Recursive descent accepts only derivations of the grammar. -/
theorem descent_sound (n : Nat) : Sound n := by
  induction n with
  | zero =>
    refine ⟨?_, ?_, ?_, ?_, ?_⟩
    · intro inp v rest h; simp [descent_factor] at h
    · intro acc inp v rest P _ h; simp [descent_term_loop] at h
    · intro inp v rest h; simp [descent_term] at h
    · intro acc inp v rest P _ h; simp [descent_expr_loop] at h
    · intro inp v rest h; simp [descent_expr] at h
  | succ n ih =>
    obtain ⟨ihF, ihTL, ihT, ihEL, ihE⟩ := ih
    refine ⟨?_, ?_, ?_, ?_, ?_⟩
    · -- factor
      intro inp v rest h
      cases inp with
      | nil => simp [descent_factor] at h
      | cons t rest0 =>
        rw [descent_factor] at h
        split_ifs at h with h1 h2
        · simp only [Option.some.injEq, Prod.mk.injEq] at h
          obtain ⟨hv, hr⟩ := h
          subst hv hr
          exact ⟨[t], rfl, G.num t h1⟩
        · cases hE : descent_expr n rest0 with
          | none => rw [hE] at h; simp at h
          | some x =>
            obtain ⟨v', l⟩ := x
            cases l with
            | nil => rw [hE] at h; simp at h
            | cons r rest' =>
              rw [hE] at h
              simp only [] at h
              split_ifs at h with h3
              simp only [Option.some.injEq, Prod.mk.injEq] at h
              obtain ⟨hv, hr⟩ := h
              subst hv hr
              obtain ⟨ts, e1, g⟩ := ihE _ _ _ hE
              exact ⟨t :: (ts ++ [r]), by rw [e1]; simp, G.paren t r ts v' h2 h3 g⟩
    · -- the loop of a term
      intro acc inp v rest P gP h
      cases inp with
      | nil =>
        simp only [descent_term_loop, Option.some.injEq, Prod.mk.injEq] at h
        obtain ⟨hv, hr⟩ := h
        subst hv hr
        exact ⟨[], rfl, by simpa using gP⟩
      | cons op rest0 =>
        rw [descent_term_loop] at h
        split_ifs at h with h1 h2
        · cases hF : descent_factor n rest0 with
          | none => rw [hF] at h; simp at h
          | some x =>
            obtain ⟨b, rest1⟩ := x
            rw [hF] at h
            simp only [] at h
            obtain ⟨F', e1, gF⟩ := ihF _ _ _ hF
            obtain ⟨Q, e2, gQ⟩ := ihTL _ _ _ _ (P ++ op :: F') (G.mul op P F' acc b h1 gP gF) h
            exact ⟨op :: (F' ++ Q), by rw [e1, e2]; simp, by simpa using gQ⟩
        · cases hF : descent_factor n rest0 with
          | none => rw [hF] at h; simp at h
          | some x =>
            obtain ⟨b, rest1⟩ := x
            rw [hF] at h
            simp only [] at h
            split_ifs at h with h3
            obtain ⟨F', e1, gF⟩ := ihF _ _ _ hF
            obtain ⟨Q, e2, gQ⟩ := ihTL _ _ _ _ (P ++ op :: F')
              (G.div op P F' acc b h2 gP gF h3) h
            exact ⟨op :: (F' ++ Q), by rw [e1, e2]; simp, by simpa using gQ⟩
        · simp only [Option.some.injEq, Prod.mk.injEq] at h
          obtain ⟨hv, hr⟩ := h
          subst hv hr
          exact ⟨[], rfl, by simpa using gP⟩
    · -- term
      intro inp v rest h
      rw [descent_term] at h
      cases hF : descent_factor n inp with
      | none => rw [hF] at h; simp at h
      | some x =>
        obtain ⟨a, rest0⟩ := x
        rw [hF] at h
        simp only [] at h
        obtain ⟨F', e1, gF⟩ := ihF _ _ _ hF
        obtain ⟨Q, e2, gQ⟩ := ihTL _ _ _ _ F' (G.factor F' a gF) h
        exact ⟨F' ++ Q, by rw [e1, e2]; simp, gQ⟩
    · -- the loop of an expression
      intro acc inp v rest P gP h
      cases inp with
      | nil =>
        simp only [descent_expr_loop, Option.some.injEq, Prod.mk.injEq] at h
        obtain ⟨hv, hr⟩ := h
        subst hv hr
        exact ⟨[], rfl, by simpa using gP⟩
      | cons op rest0 =>
        rw [descent_expr_loop] at h
        split_ifs at h with h1 h2
        · cases hT : descent_term n rest0 with
          | none => rw [hT] at h; simp at h
          | some x =>
            obtain ⟨b, rest1⟩ := x
            rw [hT] at h
            simp only [] at h
            obtain ⟨T', e1, gT⟩ := ihT _ _ _ hT
            obtain ⟨Q, e2, gQ⟩ := ihEL _ _ _ _ (P ++ op :: T') (G.add op P T' acc b h1 gP gT) h
            exact ⟨op :: (T' ++ Q), by rw [e1, e2]; simp, by simpa using gQ⟩
        · cases hT : descent_term n rest0 with
          | none => rw [hT] at h; simp at h
          | some x =>
            obtain ⟨b, rest1⟩ := x
            rw [hT] at h
            simp only [] at h
            obtain ⟨T', e1, gT⟩ := ihT _ _ _ hT
            obtain ⟨Q, e2, gQ⟩ := ihEL _ _ _ _ (P ++ op :: T') (G.sub op P T' acc b h2 gP gT) h
            exact ⟨op :: (T' ++ Q), by rw [e1, e2]; simp, by simpa using gQ⟩
        · simp only [Option.some.injEq, Prod.mk.injEq] at h
          obtain ⟨hv, hr⟩ := h
          subst hv hr
          exact ⟨[], rfl, by simpa using gP⟩
    · -- expression
      intro inp v rest h
      rw [descent_expr] at h
      cases hT : descent_term n inp with
      | none => rw [hT] at h; simp at h
      | some x =>
        obtain ⟨a, rest0⟩ := x
        rw [hT] at h
        simp only [] at h
        obtain ⟨T', e1, gT⟩ := ihT _ _ _ hT
        obtain ⟨Q, e2, gQ⟩ := ihEL _ _ _ _ T' (G.term T' a gT) h
        exact ⟨T' ++ Q, by rw [e1, e2]; simp, gQ⟩

theorem G_of_descent {ts : List Token} {v : Nat} (h : descent ts = some v) :
    G 0 ts v := by
  unfold descent at h
  cases hE : descent_expr (3 * ts.length + 3) ts with
  | none => rw [hE] at h; simp at h
  | some x =>
    obtain ⟨v', l⟩ := x
    cases l with
    | cons r rest => rw [hE] at h; simp at h
    | nil =>
      rw [hE] at h
      simp only [Option.some.injEq] at h
      subst h
      obtain ⟨ts', e1, g⟩ := (descent_sound _).2.2.2.2 _ _ _ hE
      rw [List.append_nil] at e1
      rw [e1]; exact g

/-- Recursive descent computes exactly the values of the grammar. -/
theorem descent_iff (ts : List Token) (v : Nat) : descent ts = some v ↔ G 0 ts v :=
  ⟨G_of_descent, descent_of_G⟩

/-! ## The number tokens of a span -/

theorem numbers_ok_slice (tokens : Int → Token) (n : Nat)
    (h : ∀ i : Nat, i < n → (tokens i).type = TK_NUM → denotes32 (tokens i).str = true) :
    numbers_ok (slice tokens 0 n) := by
  intro t ht htype
  obtain ⟨i, hi, rfl⟩ := List.getElem_of_mem ht
  rw [slice_length] at hi
  have hg := slice_getD tokens i n 0 hi default
  rw [List.getD_eq_getElem?_getD, List.getElem?_eq_getElem (by rw [slice_length]; exact hi)] at hg
  simp only [Option.getD_some, zero_add] at hg
  rw [hg] at htype ⊢
  exact h i hi htype

/-! ## Nested parentheses around a number -/

theorem wrapped_succ (k : Nat) (s : List Char) :
    wrapped (k + 1) s = ⟨TK_LPAREN, []⟩ :: (wrapped k s ++ [⟨TK_RPAREN, []⟩]) := by
  unfold wrapped
  rw [List.replicate_succ, List.replicate_succ']
  simp

theorem wrapped_length (k : Nat) (s : List Char) : (wrapped k s).length = 2 * k + 1 := by
  simp [wrapped]; omega

theorem G_wrapped (k : Nat) (s : List Char) : G 0 (wrapped k s) (digits_value s) := by
  induction k with
  | zero => exact G.term _ _ (G.factor _ _ (G.num ⟨TK_NUM, s⟩ rfl))
  | succ k ih =>
    rw [wrapped_succ]
    exact G.term _ _ (G.factor _ _ (G.paren _ _ _ _ rfl rfl ih))

theorem numbers_ok_wrapped (k : Nat) (s : List Char) (h : denotes32 s = true) :
    numbers_ok (wrapped k s) := by
  intro t ht htype
  simp only [wrapped, List.mem_append, List.mem_cons, List.mem_replicate] at ht
  rcases ht with ⟨_, rfl⟩ | rfl | ⟨_, rfl⟩
  · exact absurd htype (by decide)
  · exact h
  · exact absurd htype (by decide)

theorem denotes32_decimal (n : Nat) (h : n < 2 ^ 32) : denotes32 (decimal n) = true := by
  simp only [denotes32, Bool.and_eq_true, Bool.not_eq_true', List.isEmpty_eq_false,
    List.all_eq_true, decide_eq_true_eq]
  refine ⟨⟨toDigits_ne_nil n, toDigits_all_digit n⟩, ?_⟩
  rw [decimal_eq, digits_value_toDigits]
  exact h

theorem lex_rparens (k : Nat) :
    lex (List.replicate k ')') = List.replicate k ⟨TK_RPAREN, []⟩ := by
  induction k with
  | zero => exact lex_nil
  | succ k ih =>
    rw [List.replicate_succ, lex_op ')' _ (by decide) (by decide), ih]
    rfl

theorem lex_wrapped (k : Nat) (n : Nat) :
    lex (List.replicate k '(' ++ (decimal n ++ List.replicate k ')')) =
      wrapped k (decimal n) := by
  have hinner : lex (decimal n ++ List.replicate k ')') =
      ⟨TK_NUM, decimal n⟩ :: List.replicate k ⟨TK_RPAREN, []⟩ := by
    cases k with
    | zero => simp [lex_decimal_end]
    | succ k =>
      rw [List.replicate_succ, lex_decimal_op n ')' _ (by decide) (by decide), lex_rparens]
      rfl
  have hpre : ∀ (j : Nat) (rest : List Char),
      lex (List.replicate j '(' ++ rest) = List.replicate j ⟨TK_LPAREN, []⟩ ++ lex rest := by
    intro j rest
    induction j with
    | zero => rfl
    | succ j ih =>
      rw [List.replicate_succ, List.cons_append, lex_op '(' _ (by decide) (by decide), ih]
      rfl
  rw [hpre, hinner]
  rfl

theorem legal_wrapped (k : Nat) (n : Nat) :
    (List.replicate k '(' ++ (decimal n ++ List.replicate k ')')).all legal = true := by
  rw [List.all_eq_true]
  intro c hc
  simp only [List.mem_append, List.mem_replicate] at hc
  rcases hc with ⟨_, rfl⟩ | hc | ⟨_, rfl⟩
  · decide
  · exact digit_legal c (toDigits_all_digit n c hc)
  · decide

theorem cpL_wrapped (k : Nat) (s : List Char) : cpL (wrapped (k + 1) s) = true := by
  rw [wrapped_succ]
  exact cpL_paren rfl rfl (G_wrapped k s)

theorem wrapped_inner (k j : Nat) (s : List Char) (hj : j ≤ k) :
    ((wrapped k s).drop j).take (2 * (k - j) + 1) = wrapped (k - j) s := by
  obtain ⟨d, rfl⟩ := Nat.exists_eq_add_of_le hj
  have e : j + d - j = d := by omega
  rw [e]
  unfold wrapped
  have h1 : List.replicate (j + d) (⟨TK_LPAREN, []⟩ : Token) =
      List.replicate j ⟨TK_LPAREN, []⟩ ++ List.replicate d ⟨TK_LPAREN, []⟩ :=
    List.replicate_add _ _ _
  have h2 : List.replicate (j + d) (⟨TK_RPAREN, []⟩ : Token) =
      List.replicate d ⟨TK_RPAREN, []⟩ ++ List.replicate j ⟨TK_RPAREN, []⟩ := by
    rw [Nat.add_comm]; exact List.replicate_add _ _ _
  rw [h1, h2, List.append_assoc, List.drop_left' (by simp)]
  have h3 : List.replicate d (⟨TK_LPAREN, []⟩ : Token) ++
      (⟨TK_NUM, s⟩ :: (List.replicate d ⟨TK_RPAREN, []⟩ ++ List.replicate j ⟨TK_RPAREN, []⟩)) =
      (List.replicate d ⟨TK_LPAREN, []⟩ ++ (⟨TK_NUM, s⟩ :: List.replicate d ⟨TK_RPAREN, []⟩)) ++
        List.replicate j ⟨TK_RPAREN, []⟩ := by simp
  rw [h3, List.take_left' (by simp; omega)]

/-- C6: for every `N` below `2^32` and every nesting depth `k` whose `2k+1`
tokens fit the capacity of 32, `expr` on the decimal text of `N` wrapped in `k`
pairs of parentheses succeeds and returns `N`; on the recorded tokens every
span `[j, 2k-j]` with `j < k` is fully parenthesized, so that each call of
`eval` peels one layer. -/
theorem expr_nested_parens (st : State) (N k : Nat) (hN : N < 2 ^ 32) (hk : 2 * k + 1 ≤ 32) :
    outcome (expr st (List.replicate k '(' ++ (decimal N ++ List.replicate k ')')) true) =
        some (N, true) ∧
      ∃ pos st', make_token st (List.replicate k '(' ++ (decimal N ++ List.replicate k ')')) =
          some (true, pos, st') ∧ st'.nr_token = 2 * k + 1 ∧
        ∀ j : Nat, j < k → check_parentheses st'.tokens j (2 * k - j) = true := by
  have hlex := lex_wrapped k N
  have hleg := legal_wrapped k N
  have hlen := wrapped_length k (decimal N)
  constructor
  · have hev := evalL_of_G (G_wrapped k (decimal N))
      (numbers_ok_wrapped k _ (denotes32_decimal N hN))
      ((wrapped k (decimal N)).length + 1) (by omega)
    rw [outcome_expr st _ _ _ hleg hlex (by omega) hev, decimal_eq, digits_value_toDigits]
  · obtain ⟨st', h1, h2, h3⟩ := make_token_ok st _ (by rw [hlex, hlen]; exact hk)
    rw [hlex, hlen] at h2 h3
    rw [hleg] at h1
    refine ⟨_, st', h1, by rw [h2]; push_cast; ring, ?_⟩
    intro j hj
    have hle : (j : Int) ≤ 2 * k - j := by omega
    rw [check_parentheses_eq _ _ _ hle, ← cpL_norm]
    have e1 : ((2 * (k : Int) - j) - j + 1).toNat = 2 * (k - j) + 1 := by omega
    have hs : slice st'.tokens j (2 * (k - j) + 1) =
        ((slice st'.tokens 0 (2 * k + 1)).drop j).take (2 * (k - j) + 1) := by
      rw [slice_drop _ j (2 * k + 1) 0 (by omega), zero_add, slice_take _ _ _ _ (by omega)]
    rw [e1, hs, List.map_take, List.map_drop, h3, wrapped_inner k j _ (by omega)]
    obtain ⟨d, hd⟩ : ∃ d, k - j = d + 1 := ⟨k - j - 1, by omega⟩
    rw [hd]
    exact cpL_wrapped d _

/-- Witness of C6: `(((7)))` gives 7. -/
theorem expr_nested_parens_witness :
    outcome (expr State.init "(((7)))".toList true) = some (7, true) :=
  (expr_nested_parens State.init 7 3 (by decide) (by decide)).1

/-! ## Precedence climbing and the grammar -/

theorem prec_cases (t : Int) (p : Nat) (h : prec t = some p) :
    (p = 1 ∧ (t = TK_ADD ∨ t = TK_SUB)) ∨ (p = 2 ∧ (t = TK_MUL ∨ t = TK_DIV)) := by
  unfold prec at h
  split_ifs at h with h1 h2
  · simp only [Option.some.injEq] at h
    exact Or.inl ⟨h.symm, h1⟩
  · simp only [Option.some.injEq] at h
    exact Or.inr ⟨h.symm, h2⟩

theorem G_up {k : Nat} {ts : List Token} {v : Nat} (h : G 2 ts v) (hk : k ≤ 2) : G k ts v := by
  interval_cases k
  · exact G.term _ _ (G.factor _ _ h)
  · exact G.factor _ _ h
  · exact h

theorem G_zero {k : Nat} {ts : List Token} {v : Nat} (h : G k ts v) (hk : k ≤ 2) :
    G 0 ts v := by
  interval_cases k
  · exact h
  · exact G.term _ _ h
  · exact G.term _ _ (G.factor _ _ h)

/-- Precedence climbing accepts only derivations of the grammar. -/
theorem climb_sound (n : Nat) : ClimbSound n := by
  induction n with
  | zero =>
    refine ⟨?_, ?_, ?_⟩
    · intro inp v rest h; simp [climb_primary] at h
    · intro k lhs inp v rest P _ _ _ h; simp [climb_loop] at h
    · intro k inp v rest _ h; simp [climb_expr] at h
  | succ n ih =>
    obtain ⟨ihP, ihL, ihX⟩ := ih
    refine ⟨?_, ?_, ?_⟩
    · -- primary
      intro inp v rest h
      cases inp with
      | nil => simp [climb_primary] at h
      | cons t rest0 =>
        rw [climb_primary] at h
        split_ifs at h with h1 h2
        · simp only [Option.some.injEq, Prod.mk.injEq] at h
          obtain ⟨hv, hr⟩ := h
          subst hv hr
          exact ⟨[t], rfl, G.num t h1⟩
        · cases hE : climb_expr n 1 rest0 with
          | none => rw [hE] at h; simp at h
          | some x =>
            obtain ⟨v', l⟩ := x
            cases l with
            | nil => rw [hE] at h; simp at h
            | cons r rest' =>
              rw [hE] at h
              simp only [] at h
              split_ifs at h with h3
              simp only [Option.some.injEq, Prod.mk.injEq] at h
              obtain ⟨hv, hr⟩ := h
              subst hv hr
              obtain ⟨ts, e1, g, _⟩ := ihX 0 _ _ _ (by norm_num) hE
              exact ⟨t :: (ts ++ [r]), by rw [e1]; simp, G.paren t r ts v' h2 h3 g⟩
    · -- the loop
      intro k lhs inp v rest P hk gP gP1 h
      cases inp with
      | nil =>
        simp only [climb_loop, Option.some.injEq, Prod.mk.injEq] at h
        obtain ⟨hv, hr⟩ := h
        subst hv hr
        exact ⟨[], rfl, by simpa using gP, by intro t rest' he; cases he⟩
      | cons op rest0 =>
        rw [climb_loop] at h
        cases hp : prec op.type with
        | none =>
          rw [hp] at h
          simp only [Option.some.injEq, Prod.mk.injEq] at h
          obtain ⟨hv, hr⟩ := h
          subst hv hr
          refine ⟨[], rfl, by simpa using gP, ?_⟩
          intro t rest' he p hp'
          cases he
          rw [hp] at hp'
          exact absurd hp' (by simp)
        | some p =>
          rw [hp] at h
          simp only [] at h
          split_ifs at h with hmp
          · cases hX : climb_expr n (p + 1) rest0 with
            | none => rw [hX] at h; simp at h
            | some x =>
              obtain ⟨rhs, rest1⟩ := x
              rw [hX] at h
              simp only [] at h
              cases hA : apply_op op.type lhs rhs with
              | none => rw [hA] at h; simp at h
              | some v' =>
                rw [hA] at h
                simp only [] at h
                rcases prec_cases _ _ hp with ⟨hp1, hop⟩ | ⟨hp2, hop⟩
                · -- an additive operator: the level is that of expressions
                  subst hp1
                  have hk0 : k = 0 := by omega
                  subst hk0
                  obtain ⟨T', e1, gT, hst⟩ := ihX 1 _ _ _ (by norm_num) hX
                  have gnew : G 0 (P ++ op :: T') v' := by
                    rcases hop with ho | ho
                    · simp only [apply_op, ho, if_true, Option.some.injEq] at hA
                      rw [← hA]
                      exact G.add op P T' lhs rhs ho gP gT
                    · have ho' : ¬ op.type = TK_ADD := by rw [ho]; decide
                      simp only [apply_op, ho, if_true, Option.some.injEq] at hA
                      rw [if_neg (by decide)] at hA
                      simp only [Option.some.injEq] at hA
                      rw [← hA]
                      exact G.sub op P T' lhs rhs ho gP gT
                  obtain ⟨Q, e2, gQ, hst'⟩ := ihL 0 v' rest1 v rest (P ++ op :: T')
                    (by norm_num) gnew (by
                      intro _ hnm
                      exfalso
                      apply hnm
                      intro t rest' he
                      have := hst t rest' he
                      constructor
                      · intro ht
                        have := this 2 (by rw [ht]; rfl)
                        omega
                      · intro ht
                        have := this 2 (by rw [ht]; rfl)
                        omega) h
                  exact ⟨op :: (T' ++ Q), by rw [e1, e2]; simp, by simpa using gQ, hst'⟩
                · -- a multiplicative operator: the value so far is a term
                  subst hp2
                  have gP1' : G 1 P lhs := by
                    rcases Nat.lt_or_ge k 1 with hk1 | hk1
                    · have hk0 : k = 0 := by omega
                      subst hk0
                      apply gP1 rfl
                      intro hnm
                      have := hnm op rest0 rfl
                      rcases hop with ho | ho
                      · exact this.1 ho
                      · exact this.2 ho
                    · have hk1' : k = 1 := by omega
                      subst hk1'
                      exact gP
                  obtain ⟨F', e1, gF, _⟩ := ihX 2 _ _ _ (by norm_num) hX
                  have gnew1 : G 1 (P ++ op :: F') v' := by
                    rcases hop with ho | ho
                    · have h1 : ¬ (TK_MUL = TK_ADD) := by decide
                      have h2 : ¬ (TK_MUL = TK_SUB) := by decide
                      simp only [apply_op, ho, h1, h2, if_false, if_true,
                        Option.some.injEq] at hA
                      rw [← hA]
                      exact G.mul op P F' lhs rhs ho gP1' gF
                    · have h1 : ¬ (TK_DIV = TK_ADD) := by decide
                      have h2 : ¬ (TK_DIV = TK_SUB) := by decide
                      have h3 : ¬ (TK_DIV = TK_MUL) := by decide
                      simp only [apply_op, ho, h1, h2, h3, if_false, if_true] at hA
                      split_ifs at hA with hz
                      simp only [Option.some.injEq] at hA
                      rw [← hA]
                      exact G.div op P F' lhs rhs ho gP1' gF hz
                  have gnew : G k (P ++ op :: F') v' := by
                    rcases Nat.lt_or_ge k 1 with hk1 | hk1
                    · have hk0 : k = 0 := by omega
                      subst hk0
                      exact G.term _ _ gnew1
                    · have hk1' : k = 1 := by omega
                      subst hk1'
                      exact gnew1
                  obtain ⟨Q, e2, gQ, hst'⟩ := ihL k v' rest1 v rest (P ++ op :: F')
                    hk gnew (fun _ _ => gnew1) h
                  exact ⟨op :: (F' ++ Q), by rw [e1, e2]; simp, by simpa using gQ, hst'⟩
          · simp only [Option.some.injEq, Prod.mk.injEq] at h
            obtain ⟨hv, hr⟩ := h
            subst hv hr
            refine ⟨[], rfl, by simpa using gP, ?_⟩
            intro t rest' he p' hp'
            cases he
            rw [hp] at hp'
            simp only [Option.some.injEq] at hp'
            omega
    · -- expression
      intro k inp v rest hk h
      rw [climb_expr] at h
      cases hP : climb_primary n inp with
      | none => rw [hP] at h; simp at h
      | some x =>
        obtain ⟨a, rest0⟩ := x
        rw [hP] at h
        simp only [] at h
        obtain ⟨F', e1, gF⟩ := ihP _ _ _ hP
        obtain ⟨Q, e2, gQ, hst⟩ := ihL k a rest0 v rest F' hk (G_up gF hk)
          (fun _ _ => G.factor _ _ gF) h
        exact ⟨F' ++ Q, by rw [e1, e2]; simp, gQ, hst⟩

theorem G_of_reference {ts : List Token} {v : Nat} (h : reference ts = some v) :
    G 0 ts v := by
  unfold reference at h
  cases hE : climb_expr (2 * ts.length + 2) 1 ts with
  | none => rw [hE] at h; simp at h
  | some x =>
    obtain ⟨v', l⟩ := x
    cases l with
    | cons r rest => rw [hE] at h; simp at h
    | nil =>
      rw [hE] at h
      simp only [Option.some.injEq] at h
      subst h
      obtain ⟨ts', e1, g, _⟩ := (climb_sound _).2.2 0 _ _ _ (by norm_num) hE
      rw [List.append_nil] at e1
      rw [e1]; exact g

theorem prec_none_of {t : Int} (h1 : t ≠ TK_ADD) (h2 : t ≠ TK_SUB) (h3 : t ≠ TK_MUL)
    (h4 : t ≠ TK_DIV) : prec t = none := by
  simp [prec, h1, h2, h3, h4]

/-- The loop stops at once when the input does not start with an operator of
precedence `m` or more. -/
theorem climb_loop_stop (n m lhs : Nat) (rest : List Token) (h : stops m rest) :
    climb_loop (n + 1) m lhs rest = some (lhs, rest) := by
  cases rest with
  | nil => rfl
  | cons t rest =>
    rw [climb_loop]
    cases hp : prec t.type with
    | none => rfl
    | some p =>
      have := h t rest rfl p hp
      simp only []
      rw [if_neg (by omega)]

theorem stops_three (rest : List Token) : stops 3 rest := by
  intro t rest' _ p hp
  rcases prec_cases _ _ hp with h | h <;> omega

theorem stops_two_of_noMulDiv (rest : List Token) (h : noMulDiv rest) : stops 2 rest := by
  intro t rest' he p hp
  have := h t rest' he
  rcases prec_cases _ _ hp with h1 | h1
  · omega
  · rcases h1.2 with h2 | h2
    · exact absurd h2 this.1
    · exact absurd h2 this.2

theorem stops_rparen {r : Token} (hr : r.type = TK_RPAREN) (m : Nat) (rest : List Token) :
    stops m (r :: rest) := by
  intro t rest' he p hp
  cases he
  rw [hr] at hp
  have hn : prec TK_RPAREN = none := by decide
  rw [hn] at hp
  exact absurd hp (by simp)

/-- From the primary to the expression that starts with it. -/
theorem climbs_of_primary (ts : List Token) (v : Nat)
    (h : ∀ rest n, 2 * (ts.length + rest.length) + 1 ≤ n →
      climb_primary n (ts ++ rest) = some (v, rest)) (hne : ts ≠ []) :
    ∀ m rest n, 2 * (ts.length + rest.length) + 2 ≤ n →
      ∃ n', 2 * rest.length + 1 ≤ n' ∧ climb_expr n m (ts ++ rest) = climb_loop n' m v rest := by
  intro m rest n hn
  obtain ⟨n', rfl⟩ : ∃ n', n = n' + 1 := ⟨n - 1, by omega⟩
  have hl := List.length_pos.mpr hne
  refine ⟨n', by omega, ?_⟩
  rw [climb_expr, h rest n' (by omega)]

/-- Precedence climbing accepts every derivation of the grammar. -/
theorem climbs_of_G {k : Nat} {ts : List Token} {v : Nat} (h : G k ts v) : Climbs k ts v := by
  induction h with
  | num t ht =>
    have hP : ∀ rest n, 2 * (([t] : List Token).length + rest.length) + 1 ≤ n →
        climb_primary n ([t] ++ rest) = some (digits_value t.str, rest) := by
      intro rest n hn
      obtain ⟨m, rfl⟩ : ∃ m, n = m + 1 := ⟨n - 1, by omega⟩
      rw [List.singleton_append, climb_primary, if_pos ht]
    exact ⟨fun _ => hP, fun m rest n _ _ _ hn =>
      climbs_of_primary [t] _ hP (by simp) m rest n hn⟩
  | paren l r ts v hl hr hE ih =>
    have hP : ∀ rest n, 2 * ((l :: (ts ++ [r])).length + rest.length) + 1 ≤ n →
        climb_primary n ((l :: (ts ++ [r])) ++ rest) = some (v, rest) := by
      intro rest n hn
      obtain ⟨m, rfl⟩ : ∃ m, n = m + 1 := ⟨n - 1, by omega⟩
      simp only [List.length_cons, List.length_append, List.length_singleton] at hn
      have hl' : l.type ≠ TK_NUM := by rw [hl]; decide
      have hrest : noMulDiv (r :: rest) := by
        intro t rest' he
        cases he
        rw [hr]; exact ⟨by decide, by decide⟩
      obtain ⟨n', hn', he⟩ := ih.2 1 (r :: rest) m (le_refl 1) (by norm_num)
        (fun _ => hrest) (by simp only [List.length_cons]; omega)
      obtain ⟨n'', rfl⟩ : ∃ n'', n' = n'' + 1 := ⟨n' - 1, by omega⟩
      have happ : (l :: (ts ++ [r])) ++ rest = l :: (ts ++ (r :: rest)) := by simp
      rw [happ, climb_primary, if_neg hl', if_pos hl, he,
        climb_loop_stop _ _ _ _ (stops_rparen hr 1 rest)]
      simp only [hr, if_true]
    exact ⟨fun _ => hP, fun m rest n _ _ _ hn =>
      climbs_of_primary _ _ hP (by simp) m rest n hn⟩
  | factor ts v _ ih =>
    exact ⟨fun h => absurd h (by decide), fun m rest n h1 h2 _ hn =>
      ih.2 m rest n h1 (by omega) (fun h => absurd h (by decide)) hn⟩
  | term ts v _ ih =>
    exact ⟨fun h => absurd h (by decide), fun m rest n h1 h2 _ hn =>
      ih.2 m rest n h1 (by omega) (fun h => absurd h (by decide)) hn⟩
  | mul op A B a b hop _ hB ihA ihB =>
    refine ⟨fun h => absurd h (by decide), ?_⟩
    intro m rest n h1 h2 _ hn
    simp only [List.length_cons, List.length_append] at hn
    obtain ⟨n', hn', he⟩ := ihA.2 m (op :: (B ++ rest)) n h1 h2
      (fun h => absurd h (by decide))
      (by simp only [List.length_cons, List.length_append]; omega)
    simp only [List.length_cons, List.length_append] at hn'
    obtain ⟨n1, rfl⟩ : ∃ n1, n' = n1 + 1 := ⟨n' - 1, by omega⟩
    obtain ⟨n2, hn2, heB⟩ := ihB.2 3 rest n1 (by norm_num) (le_refl 3)
      (fun h => absurd h (by decide)) (by omega)
    obtain ⟨n3, rfl⟩ : ∃ n3, n2 = n3 + 1 := ⟨n2 - 1, by omega⟩
    refine ⟨n1, by omega, ?_⟩
    have happ : (A ++ op :: B) ++ rest = A ++ (op :: (B ++ rest)) := by simp
    have hprec : prec op.type = some 2 := by rw [hop]; rfl
    have happly : apply_op op.type a b = some ((a * b) % 2 ^ 32) := by rw [hop]; rfl
    rw [happ, he, climb_loop, hprec]
    simp only []
    rw [if_pos (by omega), heB, climb_loop_stop _ _ _ _ (stops_three rest)]
    simp only [happly]
  | div op A B a b hop _ hB hb0 ihA ihB =>
    refine ⟨fun h => absurd h (by decide), ?_⟩
    intro m rest n h1 h2 _ hn
    simp only [List.length_cons, List.length_append] at hn
    obtain ⟨n', hn', he⟩ := ihA.2 m (op :: (B ++ rest)) n h1 h2
      (fun h => absurd h (by decide))
      (by simp only [List.length_cons, List.length_append]; omega)
    simp only [List.length_cons, List.length_append] at hn'
    obtain ⟨n1, rfl⟩ : ∃ n1, n' = n1 + 1 := ⟨n' - 1, by omega⟩
    obtain ⟨n2, hn2, heB⟩ := ihB.2 3 rest n1 (by norm_num) (le_refl 3)
      (fun h => absurd h (by decide)) (by omega)
    obtain ⟨n3, rfl⟩ : ∃ n3, n2 = n3 + 1 := ⟨n2 - 1, by omega⟩
    refine ⟨n1, by omega, ?_⟩
    have happ : (A ++ op :: B) ++ rest = A ++ (op :: (B ++ rest)) := by simp
    have hprec : prec op.type = some 2 := by rw [hop]; rfl
    have happly : apply_op op.type a b = some (a / b) := by
      have h1 : ¬ (TK_DIV = TK_ADD) := by decide
      have h2 : ¬ (TK_DIV = TK_SUB) := by decide
      have h3 : ¬ (TK_DIV = TK_MUL) := by decide
      simp only [apply_op, hop, h1, h2, h3, if_false, if_true, hb0]
    rw [happ, he, climb_loop, hprec]
    simp only []
    rw [if_pos (by omega), heB, climb_loop_stop _ _ _ _ (stops_three rest)]
    simp only [happly]
  | add op A B a b hop _ hB ihA ihB =>
    refine ⟨fun h => absurd h (by decide), ?_⟩
    intro m rest n h1 h2 hrest hn
    have hm : m = 1 := by omega
    subst hm
    simp only [List.length_cons, List.length_append] at hn
    have hop1 : noMulDiv (op :: (B ++ rest)) := by
      intro t rest' he'
      cases he'
      rw [hop]; exact ⟨by decide, by decide⟩
    obtain ⟨n', hn', he⟩ := ihA.2 1 (op :: (B ++ rest)) n h1 h2 (fun _ => hop1)
      (by simp only [List.length_cons, List.length_append]; omega)
    simp only [List.length_cons, List.length_append] at hn'
    obtain ⟨n1, rfl⟩ : ∃ n1, n' = n1 + 1 := ⟨n' - 1, by omega⟩
    obtain ⟨n2, hn2, heB⟩ := ihB.2 2 rest n1 (by norm_num) (le_refl 2)
      (fun h => absurd h (by decide)) (by omega)
    obtain ⟨n3, rfl⟩ : ∃ n3, n2 = n3 + 1 := ⟨n2 - 1, by omega⟩
    refine ⟨n1, by omega, ?_⟩
    have happ : (A ++ op :: B) ++ rest = A ++ (op :: (B ++ rest)) := by simp
    have hprec : prec op.type = some 1 := by rw [hop]; rfl
    have happly : apply_op op.type a b = some ((a + b) % 2 ^ 32) := by rw [hop]; rfl
    rw [happ, he, climb_loop, hprec]
    simp only []
    rw [if_pos (le_refl 1), heB,
      climb_loop_stop _ _ _ _ (stops_two_of_noMulDiv rest (hrest rfl))]
    simp only [happly]
  | sub op A B a b hop _ hB ihA ihB =>
    refine ⟨fun h => absurd h (by decide), ?_⟩
    intro m rest n h1 h2 hrest hn
    have hm : m = 1 := by omega
    subst hm
    simp only [List.length_cons, List.length_append] at hn
    have hop1 : noMulDiv (op :: (B ++ rest)) := by
      intro t rest' he'
      cases he'
      rw [hop]; exact ⟨by decide, by decide⟩
    obtain ⟨n', hn', he⟩ := ihA.2 1 (op :: (B ++ rest)) n h1 h2 (fun _ => hop1)
      (by simp only [List.length_cons, List.length_append]; omega)
    simp only [List.length_cons, List.length_append] at hn'
    obtain ⟨n1, rfl⟩ : ∃ n1, n' = n1 + 1 := ⟨n' - 1, by omega⟩
    obtain ⟨n2, hn2, heB⟩ := ihB.2 2 rest n1 (by norm_num) (le_refl 2)
      (fun h => absurd h (by decide)) (by omega)
    obtain ⟨n3, rfl⟩ : ∃ n3, n2 = n3 + 1 := ⟨n2 - 1, by omega⟩
    refine ⟨n1, by omega, ?_⟩
    have happ : (A ++ op :: B) ++ rest = A ++ (op :: (B ++ rest)) := by simp
    have hprec : prec op.type = some 1 := by rw [hop]; rfl
    have happly : apply_op op.type a b = some ((a + 2 ^ 32 - b) % 2 ^ 32) := by
      rw [hop]; rfl
    rw [happ, he, climb_loop, hprec]
    simp only []
    rw [if_pos (le_refl 1), heB,
      climb_loop_stop _ _ _ _ (stops_two_of_noMulDiv rest (hrest rfl))]
    simp only [happly]

theorem reference_of_G {ts : List Token} {v : Nat} (h : G 0 ts v) :
    reference ts = some v := by
  obtain ⟨n', hn', he⟩ := (climbs_of_G h).2 1 [] (2 * ts.length + 2) (le_refl 1)
    (by norm_num) (fun _ => by intro t rest' he; cases he) (by simp)
  obtain ⟨m, rfl⟩ : ∃ m, n' = m + 1 := ⟨n' - 1, by omega⟩
  rw [List.append_nil] at he
  rw [reference, he]
  rfl

/-- The reference parser computes exactly the values of the grammar: it
succeeds on the sequences that the grammar derives without a zero divisor. -/
theorem reference_iff (ts : List Token) (v : Nat) : reference ts = some v ↔ G 0 ts v :=
  ⟨G_of_reference, reference_of_G⟩

/-- Precedence climbing and recursive descent are the same function. -/
theorem reference_eq_descent (ts : List Token) : reference ts = descent ts := by
  cases h : reference ts with
  | some v => exact (descent_of_G (G_of_reference h)).symm
  | none =>
    cases h' : descent ts with
    | none => rfl
    | some v =>
      rw [reference_of_G (G_of_descent h')] at h
      exact absurd h (by simp)

/-! ## eval against the reference parser -/

/-- C1: for every token sequence of `n ≤ 32` tokens whose number texts denote
values below `2^32`, `eval(0, n-1)` started with the success flag true agrees
with the precedence-climbing parser-evaluator of the grammar
`E ::= T (('+'|'-') T)*`, `T ::= F (('*'|'/') F)*`, `F ::= NUMBER | '(' E ')'`:
both succeed with the same value, or both fail. -/
theorem eval_agrees_with_reference (tokens : Int → Token) (n fuel : Nat) (hn : n ≤ 32)
    (hnum : ∀ i : Nat, i < n → (tokens i).type = TK_NUM → denotes32 (tokens i).str = true)
    (hfuel : n < fuel) :
    (∀ v, reference (slice tokens 0 n) = some v →
      eval tokens fuel 0 (n - 1) true = some (v, true)) ∧
    (reference (slice tokens 0 n) = none →
      ∃ v, eval tokens fuel 0 (n - 1) true = some (v, false)) := by
  have hok := numbers_ok_slice tokens n hnum
  have hlen : ((n : Int) - 1 - 0 + 1).toNat = n := by omega
  have hev := eval_eq_evalL tokens fuel 0 (n - 1) true (le_refl 0)
  rw [hlen] at hev
  constructor
  · intro v hv
    rw [hev, evalL_of_G (G_of_reference hv) hok fuel (by rw [slice_length]; exact hfuel)]
    rfl
  · intro hnone
    obtain ⟨r, hr⟩ := evalL_total fuel (slice tokens 0 n) (by rw [slice_length]; exact hfuel)
    obtain ⟨v, b⟩ := r
    cases b with
    | false => exact ⟨v, by rw [hev, hr]; rfl⟩
    | true =>
      have := reference_of_G (G_of_evalL fuel _ v hok hr)
      rw [hnone] at this
      exact absurd this (by simp)

/-- Witness of C1: on the tokens of `2+3*4` both give 14; on the tokens of
`1+`, which the grammar does not derive, both fail. -/
theorem eval_agrees_with_reference_witness :
    (reference [⟨TK_NUM, ['2']⟩, ⟨TK_ADD, []⟩, ⟨TK_NUM, ['3']⟩, ⟨TK_MUL, []⟩,
        ⟨TK_NUM, ['4']⟩] = some 14 ∧
      eval (buffer [⟨TK_NUM, ['2']⟩, ⟨TK_ADD, []⟩, ⟨TK_NUM, ['3']⟩, ⟨TK_MUL, []⟩,
        ⟨TK_NUM, ['4']⟩]) 6 0 4 true = some (14, true)) ∧
    (reference [⟨TK_NUM, ['1']⟩, ⟨TK_ADD, []⟩] = none ∧
      ∃ v, eval (buffer [⟨TK_NUM, ['1']⟩, ⟨TK_ADD, []⟩]) 3 0 1 true = some (v, false)) :=
  ⟨⟨by decide,
    (eval_agrees_with_reference (buffer [⟨TK_NUM, ['2']⟩, ⟨TK_ADD, []⟩, ⟨TK_NUM, ['3']⟩,
      ⟨TK_MUL, []⟩, ⟨TK_NUM, ['4']⟩]) 5 6 (by decide) (by decide) (by decide)).1 14
      (by decide)⟩,
   ⟨by decide,
    (eval_agrees_with_reference (buffer [⟨TK_NUM, ['1']⟩, ⟨TK_ADD, []⟩]) 2 3 (by decide)
      (by decide) (by decide)).2 (by decide)⟩⟩

/-! ## Division by zero -/

theorem find_main_op_empty (tokens : Int → Token) (p q : Int) (h : q < p) :
    find_main_op tokens p q = -1 := by
  have : (q - p + 1).toNat = 0 := by omega
  rw [find_main_op, this]
  rfl

theorem eval_succ_paren (tokens : Int → Token) (f : Nat) (p q : Int) (s : Bool) (hpq : p < q)
    (hcp : check_parentheses tokens p q = true) :
    eval tokens (f + 1) p q s = eval tokens f (p + 1) (q - 1) s := by
  rw [eval, if_neg (by omega), if_neg (by omega), if_pos hcp]

theorem eval_succ_split (tokens : Int → Token) (f : Nat) (p q : Int) (s : Bool) (hpq : p < q)
    (hcp : check_parentheses tokens p q = false) (hop : find_main_op tokens p q ≠ -1) :
    eval tokens (f + 1) p q s =
      match eval tokens f p (find_main_op tokens p q - 1) s with
      | none => none
      | some (val1, success1) =>
        match eval tokens f (find_main_op tokens p q + 1) q success1 with
        | none => none
        | some (val2, success2) =>
          if (tokens (find_main_op tokens p q)).type = TK_ADD then
            some ((val1 + val2) % 2 ^ 32, success2)
          else if (tokens (find_main_op tokens p q)).type = TK_SUB then
            some ((val1 + 2 ^ 32 - val2) % 2 ^ 32, success2)
          else if (tokens (find_main_op tokens p q)).type = TK_MUL then
            some ((val1 * val2) % 2 ^ 32, success2)
          else if (tokens (find_main_op tokens p q)).type = TK_DIV then
            if val2 = 0 then some (0, false) else some (val1 / val2, success2)
          else some (0, false) := by
  rw [eval, if_neg (by omega), if_neg (by omega), hcp]
  simp only [Bool.false_eq_true, if_false, if_neg hop]

theorem eval_succ_cases (tokens : Int → Token) (f : Nat) (p q : Int) (s : Bool) (v : Nat)
    (b : Bool) (h : eval tokens (f + 1) p q s = some (v, b)) :
    b = false ∨ (p = q ∧ b = s) ∨
      (p < q ∧ check_parentheses tokens p q = true ∧
        eval tokens f (p + 1) (q - 1) s = some (v, b)) ∨
      (p < q ∧ check_parentheses tokens p q = false ∧ find_main_op tokens p q ≠ -1 ∧
        ∃ v1 s1 v2, eval tokens f p (find_main_op tokens p q - 1) s = some (v1, s1) ∧
          eval tokens f (find_main_op tokens p q + 1) q s1 = some (v2, b)) := by
  rcases lt_trichotomy p q with hpq | hpq | hpq
  · cases hcp : check_parentheses tokens p q with
    | true =>
      rw [eval_succ_paren tokens f p q s hpq hcp] at h
      exact Or.inr (Or.inr (Or.inl ⟨hpq, rfl, h⟩))
    | false =>
      by_cases hop : find_main_op tokens p q = -1
      · rw [eval, if_neg (by omega), if_neg (by omega), hcp] at h
        simp only [Bool.false_eq_true, if_false, if_pos hop, Option.some.injEq,
          Prod.mk.injEq] at h
        exact Or.inl h.2.symm
      · rw [eval_succ_split tokens f p q s hpq hcp hop] at h
        cases h1 : eval tokens f p (find_main_op tokens p q - 1) s with
        | none => rw [h1] at h; simp at h
        | some r1 =>
          obtain ⟨v1, s1⟩ := r1
          rw [h1] at h
          simp only [] at h
          cases h2 : eval tokens f (find_main_op tokens p q + 1) q s1 with
          | none => rw [h2] at h; simp at h
          | some r2 =>
            obtain ⟨v2, s2⟩ := r2
            rw [h2] at h
            simp only [] at h
            by_cases hb : b = false
            · exact Or.inl hb
            · refine Or.inr (Or.inr (Or.inr ⟨hpq, rfl, hop, v1, s1, v2, rfl, ?_⟩))
              split_ifs at h <;>
                simp only [Option.some.injEq, Prod.mk.injEq] at h <;>
                first
                  | exact absurd h.2.symm hb
                  | (rw [← h.2]; exact h2)
  · subst hpq
    rw [eval, if_neg (by omega), if_pos rfl] at h
    split_ifs at h <;> simp only [Option.some.injEq, Prod.mk.injEq] at h
    · exact Or.inl h.2.symm
    · exact Or.inr (Or.inl ⟨rfl, h.2.symm⟩)
  · rw [eval, if_pos (by omega)] at h
    simp only [Option.some.injEq, Prod.mk.injEq] at h
    exact Or.inl h.2.symm

theorem eval_flag_false (tokens : Int → Token) (fuel : Nat) :
    ∀ (p q : Int) (v : Nat) (b : Bool), eval tokens fuel p q false = some (v, b) → b = false := by
  induction fuel with
  | zero => intro p q v b h; simp [eval] at h
  | succ f ih =>
    intro p q v b h
    rcases eval_succ_cases tokens f p q false v b h with hb | ⟨_, hb⟩ | ⟨_, _, h'⟩ |
      ⟨_, _, _, v1, s1, v2, h1, h2⟩
    · exact hb
    · exact hb
    · exact ih _ _ _ _ h'
    · have := ih _ _ _ _ h1
      subst this
      exact ih _ _ _ _ h2

theorem eval_flag_le (tokens : Int → Token) (fuel : Nat) (p q : Int) (s : Bool) (v : Nat)
    (b : Bool) (h : eval tokens fuel p q s = some (v, b)) (hb : b = true) : s = true := by
  cases s with
  | true => rfl
  | false => rw [eval_flag_false tokens fuel p q v b h] at hb; exact hb

theorem find_main_op_range (tokens : Int → Token) (p q : Int) (hp : 0 ≤ p)
    (h : find_main_op tokens p q ≠ -1) :
    p ≤ find_main_op tokens p q ∧ find_main_op tokens p q ≤ q ∧
      get_priority (tokens (find_main_op tokens p q)).type ≠ -1 := by
  by_cases hq : q < p
  · exact absurd (find_main_op_empty tokens p q hq) h
  · have hpq : p ≤ q := by omega
    have heq := find_main_op_eq tokens p q hp hpq
    cases hk : fmoL (slice tokens p (q - p + 1).toNat) with
    | none => rw [hk] at heq; exact absurd heq h
    | some k =>
      rw [hk] at heq
      have hlt := fmoL_lt_length _ k hk
      rw [slice_length] at hlt
      obtain ⟨L, t, R, hts, hL, hpr, -, -, -⟩ := fmoL_decomp _ k hk
      have hget := slice_getD tokens k (q - p + 1).toNat p hlt default
      rw [hts, ← hL] at hget
      simp only [List.getD_eq_getElem?_getD, List.getElem?_append_right (le_refl _),
        Nat.sub_self, List.getElem?_cons_zero, Option.getD_some] at hget
      rw [heq]
      simp only [fmoRes]
      refine ⟨by omega, by omega, ?_⟩
      rw [← hL, ← hget]
      exact hpr

theorem get_priority_op (t : Int) (h : get_priority t ≠ -1) :
    t = TK_ADD ∨ t = TK_SUB ∨ t = TK_MUL ∨ t = TK_DIV := by
  rcases get_priority_cases t with h1 | h1 | h1
  · exact absurd h1.1 h
  · rcases h1.2 with h2 | h2
    · exact Or.inl h2
    · exact Or.inr (Or.inl h2)
  · rcases h1.2 with h2 | h2
    · exact Or.inr (Or.inr (Or.inl h2))
    · exact Or.inr (Or.inr (Or.inr h2))

/-! ## Failure of a nested call -/

theorem eval_self_fail (tokens : Int → Token) (f g : Nat) (p q : Int) (s : Bool) (v v' : Nat)
    (b : Bool) (hp : 0 ≤ p) (hf : (q - p + 1).toNat < f) (hg : (q - p + 1).toNat < g)
    (h : eval tokens f p q s = some (v, b)) (h' : eval tokens g p q true = some (v', false)) :
    b = false := by
  rw [eval_fuel tokens g f p q true hp hg hf, eval_eq_evalL tokens f p q true hp] at h'
  rw [eval_eq_evalL tokens f p q s hp] at h
  cases hr : evalL f (slice tokens p (q - p + 1).toNat) with
  | none => rw [hr] at h; simp at h
  | some r =>
    rw [hr] at h h'
    simp only [Option.map_some', Option.some.injEq, Prod.mk.injEq, Bool.true_and] at h h'
    rw [← h.2, h'.2]
    simp

theorem eval_calls_fail (tokens : Int → Token) (fuel : Nat) :
    ∀ p q : Int, 0 ≤ p → (q - p + 1).toNat < fuel →
      ∃ calls, eval_calls tokens fuel p q = some calls ∧ ∀ c ∈ calls,
        (0 ≤ c.1 ∧ (c.2 - c.1 + 1).toNat ≤ (q - p + 1).toNat) ∧
        ∀ (g : Nat) (s : Bool) (v v' : Nat) (b : Bool), (c.2 - c.1 + 1).toNat < g →
          eval tokens fuel p q s = some (v, b) →
          eval tokens g c.1 c.2 true = some (v', false) → b = false := by
  induction fuel with
  | zero => intro p q _ h; exact absurd h (by omega)
  | succ f ih =>
    intro p q hp hf
    have hself : ∀ c ∈ [(p, q)],
        (0 ≤ c.1 ∧ (c.2 - c.1 + 1).toNat ≤ (q - p + 1).toNat) ∧
        ∀ (g : Nat) (s : Bool) (v v' : Nat) (b : Bool), (c.2 - c.1 + 1).toNat < g →
          eval tokens (f + 1) p q s = some (v, b) →
          eval tokens g c.1 c.2 true = some (v', false) → b = false := by
      intro c hc
      rw [List.mem_singleton] at hc
      subst hc
      exact ⟨⟨hp, le_refl _⟩, fun g s v v' b hg h h' =>
        eval_self_fail tokens (f + 1) g p q s v v' b hp hf hg h h'⟩
    rcases lt_trichotomy p q with hpq | hpq | hpq
    · cases hcp : check_parentheses tokens p q with
      | true =>
        obtain ⟨cs, hcs, hprop⟩ := ih (p + 1) (q - 1) (by omega) (by omega)
        refine ⟨(p, q) :: cs, ?_, ?_⟩
        · rw [eval_calls, if_neg (by omega), if_neg (by omega), if_pos hcp, hcs]
          rfl
        · intro c hc
          rcases List.mem_cons.mp hc with hc | hc
          · exact hself c (by rw [hc]; exact List.mem_singleton.mpr rfl)
          · obtain ⟨⟨h0, hsz⟩, hfail⟩ := hprop c hc
            refine ⟨⟨h0, by omega⟩, fun g s v v' b hg h h' => ?_⟩
            rw [eval_succ_paren tokens f p q s hpq hcp] at h
            exact hfail g s v v' b hg h h'
      | false =>
        by_cases hop : find_main_op tokens p q = -1
        · refine ⟨[(p, q)], ?_, hself⟩
          rw [eval_calls, if_neg (by omega), if_neg (by omega), hcp]
          simp only [Bool.false_eq_true, if_false, if_pos hop]
        · obtain ⟨hlo, hhi, -⟩ := find_main_op_range tokens p q hp hop
          obtain ⟨cs1, hcs1, hprop1⟩ := ih p (find_main_op tokens p q - 1) hp (by omega)
          obtain ⟨cs2, hcs2, hprop2⟩ :=
            ih (find_main_op tokens p q + 1) q (by omega) (by omega)
          refine ⟨(p, q) :: (cs1 ++ cs2), ?_, ?_⟩
          · rw [eval_calls, if_neg (by omega), if_neg (by omega), hcp]
            simp only [Bool.false_eq_true, if_false, if_neg hop, hcs1, hcs2]
          · intro c hc
            rcases List.mem_cons.mp hc with hc | hc
            · exact hself c (by rw [hc]; exact List.mem_singleton.mpr rfl)
            · have hsplit : ∀ (s : Bool) (v : Nat) (b : Bool),
                  eval tokens (f + 1) p q s = some (v, b) → b = false ∨
                    ∃ v1 s1 v2,
                      eval tokens f p (find_main_op tokens p q - 1) s = some (v1, s1) ∧
                      eval tokens f (find_main_op tokens p q + 1) q s1 = some (v2, b) := by
                intro s v b h
                rcases eval_succ_cases tokens f p q s v b h with hb | ⟨he, _⟩ | ⟨_, hc', _⟩ |
                  ⟨_, _, _, hex⟩
                · exact Or.inl hb
                · omega
                · rw [hcp] at hc'; exact absurd hc' (by simp)
                · exact Or.inr hex
              rcases List.mem_append.mp hc with hc | hc
              · obtain ⟨⟨h0, hsz⟩, hfail⟩ := hprop1 c hc
                refine ⟨⟨h0, by omega⟩, fun g s v v' b hg h h' => ?_⟩
                rcases hsplit s v b h with hb | ⟨v1, s1, v2, h1, h2⟩
                · exact hb
                · have hs1 := hfail g s v1 v' s1 hg h1 h'
                  subst hs1
                  exact eval_flag_false tokens f _ _ v2 b h2
              · obtain ⟨⟨h0, hsz⟩, hfail⟩ := hprop2 c hc
                refine ⟨⟨h0, by omega⟩, fun g s v v' b hg h h' => ?_⟩
                rcases hsplit s v b h with hb | ⟨v1, s1, v2, h1, h2⟩
                · exact hb
                · exact hfail g s1 v2 v' b hg h2 h'
    · subst hpq
      refine ⟨[(p, p)], ?_, hself⟩
      rw [eval_calls, if_neg (by omega), if_pos rfl]
    · refine ⟨[(p, q)], ?_, hself⟩
      rw [eval_calls, if_pos (by omega)]

/-! ## Claims on the success flag and on the main operator -/

/-- C17: the default case of the `switch` of `eval` is unreachable.  For every
token array and span `[p, q]` with `0 ≤ p`, when `find_main_op(p, q)` returns
an index other than -1, the index lies in `[p, q]` and the token there is one
of `TK_ADD`, `TK_SUB`, `TK_MUL`, `TK_DIV`; hence, whenever `eval` reaches its
`switch`, the call equals the one whose `switch` has the four operator cases
only. -/
theorem eval_default_unreachable (tokens : Int → Token) (p q : Int) (hp : 0 ≤ p)
    (hop : find_main_op tokens p q ≠ -1) :
    (p ≤ find_main_op tokens p q ∧ find_main_op tokens p q ≤ q ∧
      ((tokens (find_main_op tokens p q)).type = TK_ADD ∨
        (tokens (find_main_op tokens p q)).type = TK_SUB ∨
        (tokens (find_main_op tokens p q)).type = TK_MUL ∨
        (tokens (find_main_op tokens p q)).type = TK_DIV)) ∧
    ∀ (fuel : Nat) (success : Bool), p < q → check_parentheses tokens p q = false →
      eval tokens (fuel + 1) p q success =
        match eval tokens fuel p (find_main_op tokens p q - 1) success with
        | none => none
        | some (val1, success1) =>
          match eval tokens fuel (find_main_op tokens p q + 1) q success1 with
          | none => none
          | some (val2, success2) =>
            if (tokens (find_main_op tokens p q)).type = TK_ADD then
              some ((val1 + val2) % 2 ^ 32, success2)
            else if (tokens (find_main_op tokens p q)).type = TK_SUB then
              some ((val1 + 2 ^ 32 - val2) % 2 ^ 32, success2)
            else if (tokens (find_main_op tokens p q)).type = TK_MUL then
              some ((val1 * val2) % 2 ^ 32, success2)
            else if val2 = 0 then some (0, false) else some (val1 / val2, success2) := by
  obtain ⟨hlo, hhi, hpr⟩ := find_main_op_range tokens p q hp hop
  have hty := get_priority_op _ hpr
  refine ⟨⟨hlo, hhi, hty⟩, fun fuel success hlt hcp => ?_⟩
  rw [eval_succ_split tokens fuel p q success hlt hcp hop]
  cases eval tokens fuel p (find_main_op tokens p q - 1) success with
  | none => rfl
  | some r1 =>
    obtain ⟨v1, s1⟩ := r1
    simp only []
    cases eval tokens fuel (find_main_op tokens p q + 1) q s1 with
    | none => rfl
    | some r2 =>
      obtain ⟨v2, s2⟩ := r2
      simp only []
      rcases hty with h | h | h | h
      · rw [if_pos h, if_pos h]
      · have h1 : ¬ (tokens (find_main_op tokens p q)).type = TK_ADD := by rw [h]; decide
        rw [if_neg h1, if_pos h, if_neg h1, if_pos h]
      · have h1 : ¬ (tokens (find_main_op tokens p q)).type = TK_ADD := by rw [h]; decide
        have h2 : ¬ (tokens (find_main_op tokens p q)).type = TK_SUB := by rw [h]; decide
        rw [if_neg h1, if_neg h2, if_pos h, if_neg h1, if_neg h2, if_pos h]
      · have h1 : ¬ (tokens (find_main_op tokens p q)).type = TK_ADD := by rw [h]; decide
        have h2 : ¬ (tokens (find_main_op tokens p q)).type = TK_SUB := by rw [h]; decide
        have h3 : ¬ (tokens (find_main_op tokens p q)).type = TK_MUL := by rw [h]; decide
        rw [if_neg h1, if_neg h2, if_neg h3, if_pos h, if_neg h1, if_neg h2, if_neg h3]

theorem eval_default_unreachable_witness :
    find_main_op (buffer [⟨TK_NUM, ['1']⟩, ⟨TK_SUB, []⟩, ⟨TK_NUM, ['2']⟩, ⟨TK_MUL, []⟩,
        ⟨TK_NUM, ['3']⟩]) 0 4 = 1 ∧
      (buffer [⟨TK_NUM, ['1']⟩, ⟨TK_SUB, []⟩, ⟨TK_NUM, ['2']⟩, ⟨TK_MUL, []⟩,
        ⟨TK_NUM, ['3']⟩] 1).type = TK_SUB ∧
      ((0 : Int) ≤ find_main_op (buffer [⟨TK_NUM, ['1']⟩, ⟨TK_SUB, []⟩, ⟨TK_NUM, ['2']⟩,
          ⟨TK_MUL, []⟩, ⟨TK_NUM, ['3']⟩]) 0 4 ∧
        find_main_op (buffer [⟨TK_NUM, ['1']⟩, ⟨TK_SUB, []⟩, ⟨TK_NUM, ['2']⟩,
          ⟨TK_MUL, []⟩, ⟨TK_NUM, ['3']⟩]) 0 4 ≤ 4) :=
  ⟨by decide, by decide,
    (eval_default_unreachable (buffer [⟨TK_NUM, ['1']⟩, ⟨TK_SUB, []⟩, ⟨TK_NUM, ['2']⟩,
      ⟨TK_MUL, []⟩, ⟨TK_NUM, ['3']⟩]) 0 4 (by decide) (by decide)).1.1,
    (eval_default_unreachable (buffer [⟨TK_NUM, ['1']⟩, ⟨TK_SUB, []⟩, ⟨TK_NUM, ['2']⟩,
      ⟨TK_MUL, []⟩, ⟨TK_NUM, ['3']⟩]) 0 4 (by decide) (by decide)).1.2.1⟩

/-- C13: failure propagates to the top.  For every token array and span
`[p, q]` with `0 ≤ p`, `eval(p, q)` returns, and if any call `eval(p', q')`
made in its recursion fails when taken by itself (started with the flag true
it ends with the flag false: an empty span, a single token that is no number,
no main operator, a zero divisor), then `eval(p, q)` ends with the flag false,
whatever the operands evaluated later give.  The same holds for `expr` and the
calls made in the recursion of its call `eval(0, nr_token - 1)`; and `expr`
ends with the flag false when `make_token` fails. -/
theorem eval_failure_propagates :
    (∀ (tokens : Int → Token) (fuel : Nat) (p q : Int) (success : Bool),
      0 ≤ p → (q - p + 1).toNat < fuel →
      ∃ calls v b, eval_calls tokens fuel p q = some calls ∧
        eval tokens fuel p q success = some (v, b) ∧
        ∀ c ∈ calls, (∃ v', eval tokens fuel c.1 c.2 true = some (v', false)) → b = false) ∧
    (∀ (st : State) (e : List Char) (success : Bool) (pos : Nat) (st' : State),
      make_token st e = some (true, pos, st') →
      ∃ calls v b,
        eval_calls st'.tokens (st'.nr_token.toNat + 1) 0 (st'.nr_token - 1) = some calls ∧
        expr st e success = some (v, b, st') ∧
        ∀ c ∈ calls,
          (∃ v', eval st'.tokens (st'.nr_token.toNat + 1) c.1 c.2 true = some (v', false)) →
            b = false) ∧
    (∀ (st : State) (e : List Char) (success : Bool) (pos : Nat) (st' : State),
      make_token st e = some (false, pos, st') → expr st e success = some (0, false, st')) := by
  have key : ∀ (tokens : Int → Token) (fuel : Nat) (p q : Int) (success : Bool),
      0 ≤ p → (q - p + 1).toNat < fuel →
      ∃ calls v b, eval_calls tokens fuel p q = some calls ∧
        eval tokens fuel p q success = some (v, b) ∧
        ∀ c ∈ calls, (∃ v', eval tokens fuel c.1 c.2 true = some (v', false)) →
          b = false := by
    intro tokens fuel p q success hp hf
    obtain ⟨calls, hcalls, hprop⟩ := eval_calls_fail tokens fuel p q hp hf
    obtain ⟨r, hr⟩ := eval_total tokens fuel p q success hp hf
    obtain ⟨v, b⟩ := r
    refine ⟨calls, v, b, hcalls, hr, fun c hc hfail => ?_⟩
    obtain ⟨v', hv'⟩ := hfail
    obtain ⟨⟨_, hsz⟩, hfl⟩ := hprop c hc
    exact hfl fuel success v v' b (by omega) hr hv'
  refine ⟨key, fun st e success pos st' hmt => ?_, fun st e success pos st' hmt =>
    expr_of_make_token_false st e success pos st' hmt⟩
  obtain ⟨calls, v, b, hcalls, hev, hprop⟩ :=
    key st'.tokens (st'.nr_token.toNat + 1) 0 (st'.nr_token - 1) success (le_refl _) (by omega)
  refine ⟨calls, v, b, hcalls, ?_, hprop⟩
  rw [expr, hmt]
  simp only [hev]

theorem eval_failure_propagates_witness :
    eval_calls (buffer [⟨TK_NUM, ['1']⟩, ⟨TK_DIV, []⟩, ⟨TK_NUM, ['0']⟩, ⟨TK_ADD, []⟩,
        ⟨TK_NUM, ['2']⟩]) 6 0 4 = some [(0, 4), (0, 2), (0, 0), (2, 2), (4, 4)] ∧
      eval (buffer [⟨TK_NUM, ['1']⟩, ⟨TK_DIV, []⟩, ⟨TK_NUM, ['0']⟩, ⟨TK_ADD, []⟩,
        ⟨TK_NUM, ['2']⟩]) 6 0 2 true = some (0, false) ∧
      ∃ v, eval (buffer [⟨TK_NUM, ['1']⟩, ⟨TK_DIV, []⟩, ⟨TK_NUM, ['0']⟩, ⟨TK_ADD, []⟩,
        ⟨TK_NUM, ['2']⟩]) 6 0 4 true = some (v, false) := by
  refine ⟨by decide, by decide, ?_⟩
  obtain ⟨calls, v, b, hcalls, hev, hprop⟩ :=
    eval_failure_propagates.1 (buffer [⟨TK_NUM, ['1']⟩, ⟨TK_DIV, []⟩, ⟨TK_NUM, ['0']⟩,
      ⟨TK_ADD, []⟩, ⟨TK_NUM, ['2']⟩]) 6 0 4 true (by decide) (by decide)
  have hc : eval_calls (buffer [⟨TK_NUM, ['1']⟩, ⟨TK_DIV, []⟩, ⟨TK_NUM, ['0']⟩, ⟨TK_ADD, []⟩,
      ⟨TK_NUM, ['2']⟩]) 6 0 4 = some [(0, 4), (0, 2), (0, 0), (2, 2), (4, 4)] := by decide
  rw [hc] at hcalls
  have hb := hprop (0, 2) (by rw [← Option.some.inj hcalls]; decide) ⟨0, by decide⟩
  exact ⟨v, by rw [hev, hb]⟩

/-! ## The tokens recorded by make_token -/

theorem op_text_op_type (c : Char) (h : isop c = true) : op_text (op_type c) = [c] := by
  simp only [isop, Bool.or_eq_true, beq_iff_eq] at h
  rcases h with ((((h | h) | h) | h) | h) | h <;> (subst h; decide)

theorem filter_space_digits (l : List Char) :
    (l.takeWhile isdigit).filter (fun c => c != ' ') = l.takeWhile isdigit := by
  rw [List.filter_eq_self]
  intro a ha
  have hd : isdigit a = true := by
    have := List.mem_takeWhile_imp ha
    exact this
  have := (isdigit_ne a hd).1
  simpa using this

theorem unlex_lex (n : Nat) : ∀ e : List Char, e.length ≤ n → e.all legal = true →
    unlex (lex e) = e.filter (fun c => c != ' ') := by
  induction n with
  | zero =>
    intro e he _
    have : e = [] := List.length_eq_zero.mp (by omega)
    subst this
    rw [lex_nil]
    rfl
  | succ n ih =>
    intro e he hl
    cases e with
    | nil => rw [lex_nil]; rfl
    | cons c cs =>
      simp only [List.length_cons] at he
      rw [List.all_cons, Bool.and_eq_true] at hl
      by_cases h0 : c = ' '
      · subst h0
        rw [lex_space, ih cs (by omega) hl.2]
        rfl
      · have hf : ((c :: cs).filter (fun c => c != ' ')) = c :: cs.filter (fun c => c != ' ') := by
          rw [List.filter_cons, if_pos (by simpa using h0)]
        by_cases h1 : isop c = true
        · rw [lex_op c cs h0 h1, hf]
          show Token.text ⟨op_type c, []⟩ ++ unlex (lex cs) = _
          rw [ih cs (by omega) hl.2, Token.text, if_neg (op_type_ne c h1).2, op_text_op_type c h1]
          rfl
        · have h2 : isdigit c = true := by
            have := hl.1
            simp only [legal, Bool.or_eq_true, beq_iff_eq] at this
            rcases this with (h | h) | h
            · exact absurd h h0
            · exact absurd h h1
            · exact h
          rw [lex_digit c cs h0 h1 h2, hf]
          show Token.text ⟨TK_NUM, c :: cs.takeWhile isdigit⟩ ++ unlex (lex (cs.dropWhile isdigit)) = _
          have hlen : (cs.dropWhile isdigit).length ≤ n :=
            le_trans (List.Sublist.length_le (List.dropWhile_sublist _)) (by omega)
          have hall : (cs.dropWhile isdigit).all legal = true := by
            rw [← all_dropWhile isdigit legal digit_legal cs]; exact hl.2
          rw [ih _ hlen hall, Token.text, if_pos rfl]
          conv_rhs => rw [← List.takeWhile_append_dropWhile isdigit cs, List.filter_append,
            filter_space_digits]
          rfl

theorem make_token_true (st : State) (e : List Char) (pos : Nat) (st' : State)
    (h : make_token st e = some (true, pos, st')) :
    e.all legal = true ∧ (lex e).length ≤ 32 ∧ pos = e.length ∧
      st'.nr_token = (lex e).length ∧
      (slice st'.tokens 0 (lex e).length).map Token.norm = lex e := by
  by_cases hc : (lex e).length ≤ 32
  · obtain ⟨st'', hmt, hn, hs⟩ := make_token_ok st e hc
    rw [hmt] at h
    simp only [Option.some.injEq, Prod.mk.injEq] at h
    obtain ⟨hl, hp, hst⟩ := h
    subst hst
    refine ⟨hl, hc, ?_, hn, hs⟩
    rw [← hp, List.takeWhile_eq_self_iff.mpr (fun a ha => List.all_eq_true.mp hl a ha)]
  · obtain ⟨pos', st'', hmt⟩ := make_token_overflow st e (by omega)
    rw [hmt] at h
    simp at h

theorem make_token_digits (st : State) (ds : List Char) (hne : ds ≠ [])
    (hd : ∀ c ∈ ds, isdigit c = true) :
    ∃ st', make_token st ds = some (true, ds.length, st') ∧ st'.nr_token = 1 ∧
      st'.tokens 0 = ⟨TK_NUM, ds⟩ := by
  have hlex := lex_digits_end ds hne hd
  obtain ⟨st', hmt, hn, hs⟩ := make_token_ok st ds (by rw [hlex]; simp)
  have hall : ds.all legal = true :=
    List.all_eq_true.mpr (fun c hc => digit_legal c (hd c hc))
  rw [hall, List.takeWhile_eq_self_iff.mpr (fun a ha => List.all_eq_true.mp hall a ha)] at hmt
  rw [hlex] at hn hs
  refine ⟨st', hmt, by simpa using hn, ?_⟩
  simp only [List.length_singleton, slice, List.map_cons, List.map_nil, List.cons.injEq,
    and_true] at hs
  have hty : (st'.tokens 0).type = TK_NUM := by
    rw [← norm_type, hs]
  rw [Token.norm, if_pos hty] at hs
  exact hs

/-- What a successful `make_token` records, on the tokens.  When `make_token`
on the tokens returns true on an input, the whole input has been scanned
(`position` is its length), `nr_token` is the length of the token sequence
`lex` of the input, and the recorded tokens are that sequence in order: one
`TK_NUM` token per maximal run of digits with the run as text, one token of the
matching type per character `+ - * / ( )`, nothing for spaces (tokens other
than numbers are compared by type, their text is not written).  The texts of
the tokens, put together, are the input without its spaces: no character is
skipped or taken twice.  On the bytes the same holds when the digit runs fit
the field (`make_token_bytes_ok`). -/
theorem make_token_records_lex (st : State) (e : List Char) (pos : Nat) (st' : State)
    (h : make_token st e = some (true, pos, st')) :
    pos = e.length ∧ st'.nr_token = (lex e).length ∧
      (slice st'.tokens 0 (lex e).length).map Token.norm = lex e ∧
      unlex (lex e) = e.filter (fun c => c != ' ') := by
  obtain ⟨hl, -, hp, hn, hs⟩ := make_token_true st e pos st' h
  exact ⟨hp, hn, hs, unlex_lex e.length e (le_refl _) hl⟩

theorem make_token_records_lex_witness :
    ∃ st', make_token State.init "12 +(3".toList = some (true, 6, st') ∧
      st'.nr_token = 4 ∧
      (slice st'.tokens 0 4).map Token.norm =
        [⟨TK_NUM, ['1', '2']⟩, ⟨TK_ADD, []⟩, ⟨TK_LPAREN, []⟩, ⟨TK_NUM, ['3']⟩] := by
  have hlex : lex "12 +(3".toList =
      [⟨TK_NUM, ['1', '2']⟩, ⟨TK_ADD, []⟩, ⟨TK_LPAREN, []⟩, ⟨TK_NUM, ['3']⟩] := by
    simp [lex, isop, isdigit, op_type]
  obtain ⟨st', hmt, -, -⟩ := make_token_ok State.init "12 +(3".toList (by rw [hlex]; decide)
  have hall : "12 +(3".toList.all legal = true := by decide
  have htw : ("12 +(3".toList.takeWhile legal).length = 6 := by decide
  rw [hall, htw] at hmt
  have h := make_token_records_lex State.init "12 +(3".toList 6 st' hmt
  rw [hlex] at h
  exact ⟨st', hmt, h.2.1, h.2.2.1⟩

/-- C19 (what the code does): a run of 32 digits is recorded whole.  On the
input of 32 digits `make_token` returns true with one `TK_NUM` token whose
text has 32 characters, one more than the 31 that fit the field `str[32]`
together with the terminator: the copy at `strncpy` is not guarded by a test
of `substr_len`. -/
theorem make_token_stores_long_number (st : State) :
    ∃ st', make_token st "12345678901234567890123456789012".toList = some (true, 32, st') ∧
      st'.nr_token = 1 ∧ (st'.tokens 0).type = TK_NUM ∧
      (st'.tokens 0).str = "12345678901234567890123456789012".toList ∧
      (st'.tokens 0).str.length = 32 := by
  obtain ⟨st', hmt, hn, ht⟩ := make_token_digits st "12345678901234567890123456789012".toList
    (by decide) (by decide)
  exact ⟨st', hmt, hn, by rw [ht], by rw [ht], by rw [ht]; decide⟩

/-! ## check_parentheses and the bracket-depth counter -/

theorem zeroAtEnd_nil (c : Int) : zeroAtEnd c [] ↔ c = 0 := by
  simp [zeroAtEnd, depth]

theorem zeroAtEnd_cons (c : Int) (t : Token) (ts : List Token) :
    zeroAtEnd c (t :: ts) ↔
      (ts = [] ∧ c + depth [t] = 0) ∨
        (ts ≠ [] ∧ c + depth [t] ≠ 0 ∧ zeroAtEnd (c + depth [t]) ts) := by
  have hd : ∀ xs : List Token, depth (t :: xs) = depth [t] + depth xs := fun xs =>
    depth_append [t] xs
  cases ts with
  | nil =>
    constructor
    · intro h; exact Or.inl ⟨rfl, h.2⟩
    · rintro (⟨-, h⟩ | ⟨h, -⟩)
      · exact ⟨fun k h1 h2 => by simp at h2; omega, h⟩
      · exact absurd rfl h
  | cons u us =>
    constructor
    · intro h
      refine Or.inr ⟨by simp, ?_, ?_, ?_⟩
      · have := h.1 1 (le_refl _) (by simp)
        simpa using this
      · intro k h1 h2
        have := h.1 (k + 1) (by omega) (by simp only [List.length_cons] at h2 ⊢; omega)
        rw [List.take_succ_cons, hd] at this
        omega
      · have := h.2
        rw [hd] at this
        omega
    · rintro (⟨h, -⟩ | ⟨-, h0, h1, h2⟩)
      · exact absurd h (by simp)
      · refine ⟨?_, by rw [hd]; omega⟩
        intro k hk1 hk2
        obtain ⟨j, rfl⟩ : ∃ j, k = j + 1 := ⟨k - 1, by omega⟩
        rw [List.take_succ_cons, hd]
        by_cases hj : j = 0
        · subst hj
          simpa [depth] using h0
        · have := h1 j (by omega) (by simp only [List.length_cons] at hk2 ⊢; omega)
          omega

theorem cpl_iff (ts : List Token) : ∀ c : Int, 1 ≤ c → (cpl c ts = true ↔ zeroAtEnd c ts) := by
  induction ts with
  | nil =>
    intro c hc
    rw [zeroAtEnd_nil]
    simp [cpl]
  | cons t ts ih =>
    intro c hc
    rw [zeroAtEnd_cons]
    have hnil : ∀ d : Int, 1 ≤ d → ¬ zeroAtEnd d [] := by
      intro d hd h
      rw [zeroAtEnd_nil] at h
      omega
    have hstep : ∀ d : Int, depth [t] = d → 1 ≤ c + d →
        (cpl (c + d) ts = true ↔
          (ts = [] ∧ c + depth [t] = 0) ∨
            (ts ≠ [] ∧ c + depth [t] ≠ 0 ∧ zeroAtEnd (c + depth [t]) ts)) := by
      intro d hd h1
      rw [hd, ih (c + d) h1]
      constructor
      · intro h
        refine Or.inr ⟨?_, by omega, h⟩
        rintro rfl
        exact hnil _ h1 h
      · rintro (⟨-, h⟩ | ⟨-, -, h⟩)
        · omega
        · exact h
    by_cases hL : t.type = TK_LPAREN
    · rw [cpl_lparen c ts hL]
      exact hstep 1 (by rw [depth_lparen [] hL]; rfl) (by omega)
    · by_cases hR : t.type = TK_RPAREN
      · have hd : depth [t] = -1 := by rw [depth_rparen [] hR]; rfl
        rw [cpl_rparen c ts hR, if_neg (by omega)]
        by_cases hc1 : c = 1
        · subst hc1
          rw [hd]
          by_cases hts : ts = []
          · subst hts
            simp [cpl]
          · rw [if_pos ⟨by omega, hts⟩]
            simp [hts]
        · rw [if_neg (by omega)]
          have := hstep (-1) hd (by omega)
          rw [show c + -1 = c - 1 by omega] at this
          exact this
      · have hd : depth [t] = 0 := by rw [depth_of_type [] hL hR]; rfl
        rw [cpl_other c ts hL hR]
        have := hstep 0 hd (by omega)
        rw [add_zero] at this
        exact this

theorem cpL_iff (ts : List Token) (hlen : 2 ≤ ts.length) :
    cpL ts = true ↔
      (ts.head?.map Token.type = some TK_LPAREN ∧ ts.getLast?.map Token.type = some TK_RPAREN ∧
        zeroAtEnd 0 ts) := by
  cases ts with
  | nil => simp at hlen
  | cons t ts =>
    have hts : ts ≠ [] := by
      rintro rfl
      simp at hlen
    by_cases hL : t.type = TK_LPAREN
    · by_cases hR : ((t :: ts).getLast?.map Token.type) = some TK_RPAREN
      · rw [cpL, if_neg (by rw [not_or]; exact ⟨not_not.mpr hL, not_not.mpr hR⟩),
          cpl_lparen 0 ts hL, cpl_iff ts (0 + 1) (by omega), zeroAtEnd_cons]
        have hd : depth [t] = 1 := by rw [depth_lparen [] hL]; rfl
        rw [hd]
        constructor
        · intro h
          exact ⟨by simp [hL], hR, Or.inr ⟨hts, by omega, h⟩⟩
        · rintro ⟨-, -, (⟨h, -⟩ | ⟨-, -, h⟩)⟩
          · exact absurd h hts
          · exact h
      · rw [cpL, if_pos (Or.inr hR)]
        constructor
        · intro h; exact absurd h (by simp)
        · rintro ⟨-, h, -⟩; exact absurd h hR
    · rw [cpL, if_pos (Or.inl hL)]
      constructor
      · intro h; exact absurd h (by simp)
      · rintro ⟨h, -, -⟩
        simp only [List.head?_cons, Option.map_some', Option.some.injEq] at h
        exact absurd h hL

theorem zeroAtEnd_slice (tokens : Int → Token) (p q : Int) (h : p < q) :
    zeroAtEnd 0 (slice tokens p (q - p + 1).toNat) ↔
      (never_zero_before tokens p q = true ∧ bracket_counter tokens p q = 0) := by
  have hn : (q - p + 1).toNat = (q - p).toNat + 1 := by omega
  simp only [zeroAtEnd, never_zero_before, bracket_counter, List.all_eq_true, List.mem_range,
    bne_iff_ne, slice_length, zero_add]
  constructor
  · rintro ⟨h1, h2⟩
    refine ⟨fun k hk => ?_, h2⟩
    have := h1 (k + 1) (by omega) (by omega)
    rw [slice_take tokens (k + 1) _ p (by omega)] at this
    rw [show (p + (k : Int) - p + 1).toNat = k + 1 by omega]
    exact this
  · rintro ⟨h1, h2⟩
    refine ⟨fun k hk1 hk2 => ?_, h2⟩
    have := h1 (k - 1) (by omega)
    rw [show (p + ((k - 1 : Nat) : Int) - p + 1).toNat = k by omega] at this
    rw [slice_take tokens k _ p (by omega)]
    exact this

theorem check_parentheses_zeroAtEnd (tokens : Int → Token) (p q : Int) (h : p < q) :
    check_parentheses tokens p q = true ↔
      ((tokens p).type = TK_LPAREN ∧ (tokens q).type = TK_RPAREN ∧
        never_zero_before tokens p q = true ∧ bracket_counter tokens p q = 0) := by
  rw [check_parentheses_eq tokens p q (by omega), cpL_iff _ (by rw [slice_length]; omega),
    zeroAtEnd_slice tokens p q h]
  have hn : (q - p + 1).toNat = (q - p).toNat + 1 := by omega
  have hlast : (slice tokens p (q - p + 1).toNat).getLast? = some (tokens q) := by
    rw [hn, slice_getLast]
    congr 2
    omega
  have hhead : (slice tokens p (q - p + 1).toNat).head? = some (tokens p) := by
    rw [hn]
    rfl
  rw [hlast, hhead]
  simp

/-- C14, counterexample: the tokens of `((1)`.  The token at index 0 is
`TK_LPAREN`, the token at index 3 is `TK_RPAREN`, and the bracket-depth counter
of the scan of 0..3 takes the values 1, 2, 2, 1, so it never returns to zero
before index 3; yet `check_parentheses(0, 3)` returns false, because the
counter is not zero at the end of the scan. -/
theorem check_parentheses_unclosed :
    ¬ (check_parentheses (buffer [⟨TK_LPAREN, []⟩, ⟨TK_LPAREN, []⟩, ⟨TK_NUM, ['1']⟩,
          ⟨TK_RPAREN, []⟩]) 0 3 = true ↔
        ((buffer [⟨TK_LPAREN, []⟩, ⟨TK_LPAREN, []⟩, ⟨TK_NUM, ['1']⟩,
            ⟨TK_RPAREN, []⟩] 0).type = TK_LPAREN ∧
          (buffer [⟨TK_LPAREN, []⟩, ⟨TK_LPAREN, []⟩, ⟨TK_NUM, ['1']⟩,
            ⟨TK_RPAREN, []⟩] 3).type = TK_RPAREN ∧
          never_zero_before (buffer [⟨TK_LPAREN, []⟩, ⟨TK_LPAREN, []⟩, ⟨TK_NUM, ['1']⟩,
            ⟨TK_RPAREN, []⟩]) 0 3 = true)) := by
  decide

/-- C14, amended: for every token array and span `p < q`,
`check_parentheses(p, q)` returns true if and only if `tokens[p]` is
`TK_LPAREN`, `tokens[q]` is `TK_RPAREN`, the bracket-depth counter of the scan
of `p..q` never returns to zero before index `q`, and the counter is zero at
index `q`.  In particular it returns false on the tokens of `(1+2)+(3+4)`. -/
theorem check_parentheses_iff_counter :
    (∀ (tokens : Int → Token) (p q : Int), p < q →
      (check_parentheses tokens p q = true ↔
        ((tokens p).type = TK_LPAREN ∧ (tokens q).type = TK_RPAREN ∧
          never_zero_before tokens p q = true ∧ bracket_counter tokens p q = 0))) ∧
    (lex "(1+2)+(3+4)".toList =
        [⟨TK_LPAREN, []⟩, ⟨TK_NUM, ['1']⟩, ⟨TK_ADD, []⟩, ⟨TK_NUM, ['2']⟩, ⟨TK_RPAREN, []⟩,
          ⟨TK_ADD, []⟩,
          ⟨TK_LPAREN, []⟩, ⟨TK_NUM, ['3']⟩, ⟨TK_ADD, []⟩, ⟨TK_NUM, ['4']⟩, ⟨TK_RPAREN, []⟩] ∧
      check_parentheses (buffer (lex "(1+2)+(3+4)".toList)) 0 10 = false) := by
  have hlex : lex "(1+2)+(3+4)".toList =
      [⟨TK_LPAREN, []⟩, ⟨TK_NUM, ['1']⟩, ⟨TK_ADD, []⟩, ⟨TK_NUM, ['2']⟩, ⟨TK_RPAREN, []⟩,
        ⟨TK_ADD, []⟩,
        ⟨TK_LPAREN, []⟩, ⟨TK_NUM, ['3']⟩, ⟨TK_ADD, []⟩, ⟨TK_NUM, ['4']⟩, ⟨TK_RPAREN, []⟩] := by
    simp [lex, isop, isdigit, op_type]
  refine ⟨fun tokens p q h => check_parentheses_zeroAtEnd tokens p q h, hlex, ?_⟩
  rw [hlex]
  decide

theorem check_parentheses_iff_counter_witness :
    check_parentheses (buffer [⟨TK_LPAREN, []⟩, ⟨TK_NUM, ['1']⟩, ⟨TK_ADD, []⟩, ⟨TK_NUM, ['2']⟩,
        ⟨TK_RPAREN, []⟩]) 0 4 = true ∧
      never_zero_before (buffer [⟨TK_LPAREN, []⟩, ⟨TK_LPAREN, []⟩, ⟨TK_NUM, ['1']⟩,
        ⟨TK_RPAREN, []⟩]) 0 3 = true ∧
      bracket_counter (buffer [⟨TK_LPAREN, []⟩, ⟨TK_LPAREN, []⟩, ⟨TK_NUM, ['1']⟩,
        ⟨TK_RPAREN, []⟩]) 0 3 = 1 ∧
      check_parentheses (buffer [⟨TK_LPAREN, []⟩, ⟨TK_LPAREN, []⟩, ⟨TK_NUM, ['1']⟩,
        ⟨TK_RPAREN, []⟩]) 0 3 = false :=
  ⟨(check_parentheses_iff_counter.1 (buffer [⟨TK_LPAREN, []⟩, ⟨TK_NUM, ['1']⟩, ⟨TK_ADD, []⟩,
      ⟨TK_NUM, ['2']⟩, ⟨TK_RPAREN, []⟩]) 0 4 (by decide)).2
      ⟨by decide, by decide, by decide, by decide⟩,
    by decide, by decide,
    Bool.eq_false_iff.mpr (fun h =>
      absurd ((check_parentheses_iff_counter.1 (buffer [⟨TK_LPAREN, []⟩, ⟨TK_LPAREN, []⟩,
        ⟨TK_NUM, ['1']⟩, ⟨TK_RPAREN, []⟩]) 0 3 (by decide)).1 h).2.2.2 (by decide))⟩

/-! ## find_main_op: the rightmost operator of least priority -/

theorem balanced_rbal (ts : List Token) : ∀ d : Int, 0 ≤ d → balanced_from d ts = true →
    rbal ts = true ∧ d + depth ts = 0 := by
  induction ts with
  | nil =>
    intro d _ h
    simp only [balanced_from, decide_eq_true_eq] at h
    exact ⟨rfl, by simp [depth, h]⟩
  | cons t ts ih =>
    intro d hd h
    rw [rbal_cons]
    by_cases hL : t.type = TK_LPAREN
    · rw [balanced_from, if_pos hL] at h
      obtain ⟨h1, h2⟩ := ih (d + 1) (by omega) h
      rw [depth_lparen ts hL]
      exact ⟨⟨h1, by omega⟩, by omega⟩
    · by_cases hR : t.type = TK_RPAREN
      · rw [balanced_from, if_neg hL, if_pos hR, Bool.and_eq_true, decide_eq_true_eq] at h
        obtain ⟨h1, h2⟩ := ih (d - 1) (by omega) h.2
        rw [depth_rparen ts hR]
        exact ⟨⟨h1, by omega⟩, by omega⟩
      · rw [balanced_from, if_neg hL, if_neg hR] at h
        obtain ⟨h1, h2⟩ := ih d hd h
        rw [depth_of_type ts hL hR]
        exact ⟨⟨h1, by omega⟩, by omega⟩

theorem balanced_iff (ts : List Token) :
    balanced ts = true ↔ (rbal ts = true ∧ depth ts = 0) := by
  constructor
  · intro h
    have := balanced_rbal ts 0 (le_refl _) h
    exact ⟨this.1, by omega⟩
  · rintro ⟨h1, h2⟩
    exact rbal_balanced ts 0 h1 (by omega)

theorem topsGe_getD (m : Int) (ts : List Token) (h : topsGe m ts) :
    ∀ k, k < ts.length → depth (ts.drop k) = 0 →
      get_priority (ts.getD k default).type ≠ -1 → m ≤ get_priority (ts.getD k default).type := by
  induction ts with
  | nil => intro k hk; simp at hk
  | cons t ts ih =>
    intro k hk hd hpr
    rw [topsGe_cons] at h
    cases k with
    | zero => exact h.1 hd hpr
    | succ k =>
      simp only [List.length_cons] at hk
      exact ih h.2 k (by omega) hd hpr

/-- The result of `fmoL` in terms of the operators outside all parentheses. -/
theorem fmoL_spec (ts : List Token) :
    (fmoL ts = none ↔ (balanced ts = false ∨ ∀ j, j < ts.length →
      get_priority (ts.getD j default).type ≠ -1 → depth (ts.take j) ≠ 0)) ∧
    (∀ k, fmoL ts = some k → k < ts.length ∧ get_priority (ts.getD k default).type ≠ -1 ∧
      depth (ts.take k) = 0 ∧
      ∀ j, j < ts.length → get_priority (ts.getD j default).type ≠ -1 → depth (ts.take j) = 0 →
        get_priority (ts.getD k default).type ≤ get_priority (ts.getD j default).type ∧
        (get_priority (ts.getD j default).type = get_priority (ts.getD k default).type →
          j ≤ k)) := by
  have hsome : ∀ k, fmoL ts = some k → k < ts.length ∧
      get_priority (ts.getD k default).type ≠ -1 ∧ depth (ts.take k) = 0 ∧
      ∀ j, j < ts.length → get_priority (ts.getD j default).type ≠ -1 → depth (ts.take j) = 0 →
        get_priority (ts.getD k default).type ≤ get_priority (ts.getD j default).type ∧
        (get_priority (ts.getD j default).type = get_priority (ts.getD k default).type →
          j ≤ k) := by
    intro k hk
    have hbal := (balanced_iff ts).mp (fmoL_balanced ts k hk)
    obtain ⟨L, t, R, hts, hL, hpr, hd, hR, hall⟩ := fmoL_decomp ts k hk
    have hget : ts.getD k default = t := by
      rw [hts, ← hL]
      simp only [List.getD_eq_getElem?_getD, List.getElem?_append_right (le_refl _),
        Nat.sub_self, List.getElem?_cons_zero, Option.getD_some]
    have htake : ts.take k = L := by
      rw [hts, ← hL]
      simp
    have hdL : depth L = 0 := by
      have := hbal.2
      rw [hts, depth_append] at this
      omega
    refine ⟨fmoL_lt_length ts k hk, by rw [hget]; exact hpr, by rw [htake]; exact hdL, ?_⟩
    intro j hj hjp hjd
    have hdrop : depth (ts.drop j) = 0 := by
      have := hbal.2
      rw [← List.take_append_drop j ts, depth_append] at this
      omega
    rw [hget]
    refine ⟨topsGe_getD _ ts hall j hj hdrop hjp, fun heq => ?_⟩
    by_contra hlt
    have hjk : k + 1 ≤ j := by omega
    have hlen : ts.length = k + 1 + R.length := by
      rw [hts, List.length_append, List.length_cons, hL]
      omega
    have hdropR : ts.drop j = R.drop (j - (k + 1)) := by
      rw [hts, List.drop_append_eq_append_drop, List.drop_eq_nil_of_le (by omega),
        List.nil_append, hL]
      obtain ⟨i, rfl⟩ : ∃ i, j = k + 1 + i := ⟨j - (k + 1), by omega⟩
      simp [show k + 1 + i - k = i + 1 by omega]
    have hgetR : ts.getD j default = R.getD (j - (k + 1)) default := by
      rw [hts]
      obtain ⟨i, rfl⟩ : ∃ i, j = k + 1 + i := ⟨j - (k + 1), by omega⟩
      simp only [List.getD_eq_getElem?_getD]
      rw [List.getElem?_append_right (by omega), hL]
      simp [show k + 1 + i - k = i + 1 by omega]
    have := topsGe_getD _ R hR (j - (k + 1)) (by omega) (by rw [← hdropR]; exact hdrop)
      (by rw [← hgetR]; exact hjp)
    rw [← hgetR] at this
    omega
  refine ⟨⟨fun hnone => ?_, fun h => ?_⟩, hsome⟩
  · by_cases hbal : balanced ts = true
    · right
      intro j hj hjp hjd
      obtain ⟨hr, hd⟩ := (balanced_iff ts).mp hbal
      rw [fmoL, if_pos ⟨hr, hd⟩] at hnone
      have hb : best ts = none := by
        cases hbest : best ts with
        | none => rfl
        | some x => rw [hbest] at hnone; simp at hnone
      have hmin := best_min ts
      rw [hb] at hmin
      have hdrop : depth (ts.drop j) = 0 := by
        have := hd
        rw [← List.take_append_drop j ts, depth_append] at this
        omega
      have h1 := topsGe_getD _ ts hmin j hj hdrop hjp
      have h2 := get_priority_lt_INT_MAX (ts.getD j default).type
      simp only [minEnc] at h1
      omega
    · left
      simpa using hbal
  · cases hk : fmoL ts with
    | none => rfl
    | some k =>
      obtain ⟨hlt, hpr, hd, -⟩ := hsome k hk
      rcases h with h | h
      · rw [fmoL_balanced ts k hk] at h
        simp at h
      · exact absurd hd (h k hlt hpr)

theorem get_priority_ne_iff (t : Int) :
    get_priority t ≠ -1 ↔ (t = TK_ADD ∨ t = TK_SUB ∨ t = TK_MUL ∨ t = TK_DIV) := by
  constructor
  · exact get_priority_op t
  · rintro (h | h | h | h) <;> (subst h; decide)

theorem top_operator_iff (tokens : Int → Token) (p q i : Int) :
    top_operator tokens p q i = true ↔
      ∃ j : Nat, j < (q - p + 1).toNat ∧ i = p + j ∧
        get_priority ((slice tokens p (q - p + 1).toNat).getD j default).type ≠ -1 ∧
        depth ((slice tokens p (q - p + 1).toNat).take j) = 0 := by
  simp only [top_operator, bracket_counter, Bool.and_eq_true, Bool.or_eq_true,
    decide_eq_true_eq, beq_iff_eq]
  constructor
  · rintro ⟨⟨⟨h1, h2⟩, h3⟩, h4⟩
    refine ⟨(i - p).toNat, by omega, by omega, ?_, ?_⟩
    · rw [slice_getD tokens _ _ p (by omega) default, get_priority_ne_iff,
        show p + ((i - p).toNat : Int) = i by omega]
      rcases h3 with ((h | h) | h) | h
      · exact Or.inl h
      · exact Or.inr (Or.inl h)
      · exact Or.inr (Or.inr (Or.inl h))
      · exact Or.inr (Or.inr (Or.inr h))
    · rw [slice_take tokens _ _ p (by omega)]
      rw [show (i - 1 - p + 1).toNat = (i - p).toNat by omega] at h4
      exact h4
  · rintro ⟨j, hj, rfl, h3, h4⟩
    rw [slice_getD tokens _ _ p hj default, get_priority_ne_iff] at h3
    rw [slice_take tokens _ _ p (by omega)] at h4
    refine ⟨⟨⟨by omega, by omega⟩, ?_⟩, ?_⟩
    · rcases h3 with h | h | h | h
      · exact Or.inl (Or.inl (Or.inl h))
      · exact Or.inl (Or.inl (Or.inr h))
      · exact Or.inl (Or.inr h)
      · exact Or.inr h
    · rw [show (p + (j : Int) - 1 - p + 1).toNat = j by omega]
      exact h4

/-- C15: what `find_main_op` returns.  For every token array and span `p ≤ q`
with `0 ≤ p`, `find_main_op(p, q)` returns -1 exactly when the parentheses of
the span are unbalanced or no `ADD`, `SUB`, `MUL` or `DIV` token of the span
stands outside all parentheses; otherwise it returns the index, in `[p, q]`,
of such an operator whose priority is the least among the operators outside
all parentheses, and every operator outside all parentheses of that same
priority stands at or to the left of it. -/
theorem find_main_op_characterised (tokens : Int → Token) (p q : Int) (hp : 0 ≤ p)
    (hpq : p ≤ q) :
    (find_main_op tokens p q = -1 ↔
      (balanced (slice tokens p (q - p + 1).toNat) = false ∨
        ∀ i, top_operator tokens p q i = false)) ∧
    (find_main_op tokens p q ≠ -1 →
      top_operator tokens p q (find_main_op tokens p q) = true ∧
      ∀ j, top_operator tokens p q j = true →
        get_priority (tokens (find_main_op tokens p q)).type ≤ get_priority (tokens j).type ∧
        (get_priority (tokens j).type = get_priority (tokens (find_main_op tokens p q)).type →
          j ≤ find_main_op tokens p q)) := by
  have heq := find_main_op_eq tokens p q hp hpq
  obtain ⟨hnone, hsome⟩ := fmoL_spec (slice tokens p (q - p + 1).toNat)
  rw [slice_length] at hnone
  constructor
  · have h1 : find_main_op tokens p q = -1 ↔ fmoL (slice tokens p (q - p + 1).toNat) = none := by
      rw [heq]
      cases fmoL (slice tokens p (q - p + 1).toNat) with
      | none => simp [fmoRes]
      | some k =>
        simp only [fmoRes, reduceCtorEq, iff_false]
        omega
    rw [h1, hnone]
    refine or_congr Iff.rfl ⟨fun h i => ?_, fun h j hj hjp hjd => ?_⟩
    · rw [Bool.eq_false_iff]
      intro hi
      obtain ⟨j, hj, -, hjp, hjd⟩ := (top_operator_iff tokens p q i).mp hi
      exact h j hj hjp hjd
    · have := h (p + j)
      rw [Bool.eq_false_iff] at this
      exact this ((top_operator_iff tokens p q (p + j)).mpr ⟨j, hj, rfl, hjp, hjd⟩)
  · intro hne
    cases hk : fmoL (slice tokens p (q - p + 1).toNat) with
    | none => rw [hk] at heq; exact absurd heq hne
    | some k =>
      rw [hk] at heq
      simp only [fmoRes] at heq
      obtain ⟨hlt, hpr, hd, hmin⟩ := hsome k hk
      rw [slice_length] at hlt hmin
      rw [heq]
      refine ⟨(top_operator_iff tokens p q (p + k)).mpr ⟨k, hlt, rfl, hpr, hd⟩, ?_⟩
      intro i hi
      obtain ⟨j, hj, rfl, hjp, hjd⟩ := (top_operator_iff tokens p q i).mp hi
      have := hmin j hj hjp hjd
      rw [slice_getD tokens _ _ p hj default, slice_getD tokens _ _ p hlt default] at this
      exact ⟨this.1, fun he => by have := this.2 he; omega⟩

theorem find_main_op_characterised_witness :
    find_main_op (buffer [⟨TK_NUM, ['1']⟩, ⟨TK_SUB, []⟩, ⟨TK_NUM, ['2']⟩, ⟨TK_ADD, []⟩,
        ⟨TK_NUM, ['3']⟩]) 0 4 = 3 ∧
      top_operator (buffer [⟨TK_NUM, ['1']⟩, ⟨TK_SUB, []⟩, ⟨TK_NUM, ['2']⟩, ⟨TK_ADD, []⟩,
        ⟨TK_NUM, ['3']⟩]) 0 4 1 = true ∧
      top_operator (buffer [⟨TK_NUM, ['1']⟩, ⟨TK_SUB, []⟩, ⟨TK_NUM, ['2']⟩, ⟨TK_ADD, []⟩,
        ⟨TK_NUM, ['3']⟩]) 0 4
        (find_main_op (buffer [⟨TK_NUM, ['1']⟩, ⟨TK_SUB, []⟩, ⟨TK_NUM, ['2']⟩, ⟨TK_ADD, []⟩,
          ⟨TK_NUM, ['3']⟩]) 0 4) = true ∧
      (1 : Int) ≤ find_main_op (buffer [⟨TK_NUM, ['1']⟩, ⟨TK_SUB, []⟩, ⟨TK_NUM, ['2']⟩,
        ⟨TK_ADD, []⟩, ⟨TK_NUM, ['3']⟩]) 0 4 :=
  ⟨by decide, by decide,
    ((find_main_op_characterised (buffer [⟨TK_NUM, ['1']⟩, ⟨TK_SUB, []⟩, ⟨TK_NUM, ['2']⟩,
      ⟨TK_ADD, []⟩, ⟨TK_NUM, ['3']⟩]) 0 4 (by decide) (by decide)).2 (by decide)).1,
    (((find_main_op_characterised (buffer [⟨TK_NUM, ['1']⟩, ⟨TK_SUB, []⟩, ⟨TK_NUM, ['2']⟩,
      ⟨TK_ADD, []⟩, ⟨TK_NUM, ['3']⟩]) 0 4 (by decide) (by decide)).2 (by decide)).2 1
      (by decide)).2 (by decide)⟩

/-! ## The traced functions return what the functions return -/

theorem check_parentheses_loop_traced_fst (tokens : Int → Token) (q : Int) (n : Nat) :
    ∀ i count : Int, (check_parentheses_loop_traced tokens q n i count).1 =
      check_parentheses_loop tokens q n i count := by
  induction n with
  | zero => intro i count; rfl
  | succ n ih =>
    intro i count
    unfold check_parentheses_loop_traced check_parentheses_loop
    split_ifs <;> simp only [ih]

theorem check_parentheses_traced_fst (tokens : Int → Token) (p q : Int) :
    (check_parentheses_traced tokens p q).1 = check_parentheses tokens p q := by
  unfold check_parentheses_traced check_parentheses
  by_cases h1 : (tokens p).type = TK_LPAREN
  · by_cases h2 : (tokens q).type = TK_RPAREN
    · rw [if_neg (not_not.mpr h1), if_neg (not_not.mpr h2),
        if_neg (by rw [not_or]; exact ⟨not_not.mpr h1, not_not.mpr h2⟩)]
      exact check_parentheses_loop_traced_fst tokens q _ p 0
    · rw [if_neg (not_not.mpr h1), if_pos h2, if_pos (Or.inr h2)]
  · rw [if_pos h1, if_pos (Or.inl h1)]

theorem find_main_op_loop_traced_fst (tokens : Int → Token) (n : Nat) :
    ∀ i main_op min_priority bracket_level : Int,
      (find_main_op_loop_traced tokens n i main_op min_priority bracket_level).1 =
        find_main_op_loop tokens n i main_op min_priority bracket_level := by
  induction n with
  | zero => intro i m mp bl; rfl
  | succ n ih =>
    intro i m mp bl
    unfold find_main_op_loop_traced find_main_op_loop
    simp only []
    split_ifs <;> simp only [ih]

theorem find_main_op_traced_fst (tokens : Int → Token) (p q : Int) :
    (find_main_op_traced tokens p q).1 = find_main_op tokens p q :=
  find_main_op_loop_traced_fst tokens _ q (-1) INT_MAX 0

theorem eval_traced_fst (tokens : Int → Token) (fuel : Nat) :
    ∀ (p q : Int) (success : Bool),
      (eval_traced tokens fuel p q success).map Prod.fst = eval tokens fuel p q success := by
  induction fuel with
  | zero => intro p q s; rfl
  | succ f ih =>
    intro p q s
    unfold eval_traced eval
    by_cases h1 : p > q
    · rw [if_pos h1, if_pos h1]; rfl
    · rw [if_neg h1, if_neg h1]
      by_cases h2 : p = q
      · rw [if_pos h2, if_pos h2]
        split_ifs <;> rfl
      · rw [if_neg h2, if_neg h2]
        simp only [check_parentheses_traced_fst, find_main_op_traced_fst]
        cases hcp : check_parentheses tokens p q with
        | true =>
          simp only [if_true]
          rw [← ih (p + 1) (q - 1) s]
          cases eval_traced tokens f (p + 1) (q - 1) s with
          | none => rfl
          | some r => rfl
        | false =>
          simp only [Bool.false_eq_true, if_false]
          by_cases hop : find_main_op tokens p q = -1
          · rw [if_pos hop, if_pos hop]; rfl
          · rw [if_neg hop, if_neg hop, ← ih p (find_main_op tokens p q - 1) s]
            cases eval_traced tokens f p (find_main_op tokens p q - 1) s with
            | none => rfl
            | some r1 =>
              obtain ⟨⟨v1, s1⟩, t1⟩ := r1
              simp only [Option.map_some']
              rw [← ih (find_main_op tokens p q + 1) q s1]
              cases eval_traced tokens f (find_main_op tokens p q + 1) q s1 with
              | none => rfl
              | some r2 =>
                obtain ⟨⟨v2, s2⟩, t2⟩ := r2
                simp only [Option.map_some']
                split_ifs <;> rfl

/-! ## Every read lies in the span of the call that makes it -/

theorem check_parentheses_loop_traced_reads (tokens : Int → Token) (q : Int) (n : Nat) :
    ∀ i count : Int, ∀ j ∈ (check_parentheses_loop_traced tokens q n i count).2,
      i ≤ j ∧ j < i + n := by
  induction n with
  | zero => intro i count j hj; simp [check_parentheses_loop_traced] at hj
  | succ n ih =>
    intro i count j hj
    unfold check_parentheses_loop_traced at hj
    split_ifs at hj <;>
      simp only [List.mem_cons, List.mem_singleton, List.not_mem_nil, or_false] at hj
    all_goals
      first
        | (rcases hj with hj | hj
           · subst hj; push_cast; omega
           · have := ih _ _ j hj; push_cast; omega)
        | (rcases hj with hj | hj | hj
           · subst hj; push_cast; omega
           · subst hj; push_cast; omega
           · have := ih _ _ j hj; push_cast; omega)
        | (rcases hj with hj | hj <;> (subst hj; push_cast; omega))

theorem check_parentheses_traced_reads (tokens : Int → Token) (p q : Int) (h : p ≤ q) :
    ∀ j ∈ (check_parentheses_traced tokens p q).2, p ≤ j ∧ j ≤ q := by
  intro j hj
  unfold check_parentheses_traced at hj
  split_ifs at hj <;>
    simp only [List.mem_cons, List.mem_singleton, List.not_mem_nil, or_false] at hj
  · omega
  · rcases hj with hj | hj <;> omega
  · rcases hj with hj | hj | hj
    · omega
    · omega
    · have := check_parentheses_loop_traced_reads tokens q _ p 0 j hj
      omega

theorem find_main_op_loop_traced_reads (tokens : Int → Token) (n : Nat) :
    ∀ i main_op min_priority bracket_level : Int,
      ∀ j ∈ (find_main_op_loop_traced tokens n i main_op min_priority bracket_level).2,
        i - n < j ∧ j ≤ i := by
  induction n with
  | zero => intro i m mp bl j hj; simp [find_main_op_loop_traced] at hj
  | succ n ih =>
    intro i m mp bl j hj
    unfold find_main_op_loop_traced at hj
    simp only [] at hj
    split_ifs at hj <;>
      simp only [List.mem_cons, List.mem_singleton, List.not_mem_nil, or_false] at hj
    all_goals
      first
        | (subst hj; push_cast; omega)
        | (rcases hj with hj | hj
           · subst hj; push_cast; omega
           · have := ih _ _ _ _ j hj; push_cast; omega)

theorem find_main_op_traced_reads (tokens : Int → Token) (p q : Int) (h : p ≤ q) :
    ∀ j ∈ (find_main_op_traced tokens p q).2, p ≤ j ∧ j ≤ q := by
  intro j hj
  have := find_main_op_loop_traced_reads tokens _ q (-1) INT_MAX 0 j hj
  omega

theorem strtoul_scanned_le (s : List Char) : strtoul_scanned s ≤ s.length + 1 := by
  unfold strtoul_scanned
  simp only []
  have h1 : (s.dropWhile isspace).length ≤ s.length :=
    List.Sublist.length_le (List.dropWhile_sublist _)
  have h2 : ∀ l : List Char, l.tail.length ≤ l.length := fun l => by
    cases l <;> simp
  have h3 : ∀ l : List Char, (l.takeWhile isdigit).length ≤ l.length := fun l =>
    List.Sublist.length_le (List.takeWhile_sublist _)
  split_ifs
  · have := h2 (s.dropWhile isspace)
    have := h3 (s.dropWhile isspace).tail
    omega
  · have := h3 (s.dropWhile isspace)
    omega

theorem eval_traced_reads (tokens : Int → Token) (fuel : Nat) :
    ∀ (p q : Int) (success : Bool) (res : Nat × Bool) (reads : List Read), 0 ≤ p →
      (∀ i, p ≤ i → i ≤ q → (tokens i).type = TK_NUM → (tokens i).str.length ≤ 31) →
      eval_traced tokens fuel p q success = some (res, reads) →
      ∀ r ∈ reads, p ≤ r.p ∧ r.q ≤ q ∧ r.p ≤ r.index ∧ r.index ≤ r.q := by
  induction fuel with
  | zero => intro p q s res reads _ _ h; simp [eval_traced] at h
  | succ f ih =>
    intro p q s res reads hp hfield h r hr
    unfold eval_traced at h
    by_cases h1 : p > q
    · rw [if_pos h1] at h
      simp only [Option.some.injEq, Prod.mk.injEq] at h
      rw [← h.2] at hr
      simp at hr
    · rw [if_neg h1] at h
      by_cases h2 : p = q
      · rw [if_pos h2] at h
        by_cases hnum : (tokens p).type = TK_NUM
        · rw [if_neg (not_not.mpr hnum)] at h
          simp only [Option.some.injEq, Prod.mk.injEq] at h
          rw [← h.2] at hr
          rcases List.mem_cons.mp hr with hr | hr
          · subst hr
            simp only []
            omega
          · obtain ⟨k, hk, rfl⟩ := List.mem_map.mp hr
            rw [List.mem_range] at hk
            have hlen := hfield p (le_refl _) (by omega) hnum
            have hsc := strtoul_scanned_le (tokens p).str
            have hz : (STR_OFFSET + k) / TOKEN_BYTES = 0 :=
              Nat.div_eq_of_lt (by simp only [STR_OFFSET, TOKEN_BYTES]; omega)
            simp only [hz]
            push_cast
            omega
        · rw [if_pos hnum] at h
          simp only [Option.some.injEq, Prod.mk.injEq] at h
          rw [← h.2] at hr
          rw [List.mem_singleton] at hr
          subst hr
          simp only []
          omega
      · rw [if_neg h2] at h
        have hpq : p < q := by omega
        have hcpr : ∀ r ∈ (check_parentheses_traced tokens p q).2.map (fun i => Read.mk i p q),
            p ≤ r.p ∧ r.q ≤ q ∧ r.p ≤ r.index ∧ r.index ≤ r.q := by
          intro r hr
          obtain ⟨j, hj, rfl⟩ := List.mem_map.mp hr
          have := check_parentheses_traced_reads tokens p q (by omega) j hj
          simp only []
          omega
        have hfmr : ∀ r ∈ (find_main_op_traced tokens p q).2.map (fun i => Read.mk i p q),
            p ≤ r.p ∧ r.q ≤ q ∧ r.p ≤ r.index ∧ r.index ≤ r.q := by
          intro r hr
          obtain ⟨j, hj, rfl⟩ := List.mem_map.mp hr
          have := find_main_op_traced_reads tokens p q (by omega) j hj
          simp only []
          omega
        simp only [] at h
        by_cases hcp : (check_parentheses_traced tokens p q).1 = true
        · rw [if_pos hcp] at h
          cases hsub : eval_traced tokens f (p + 1) (q - 1) s with
          | none => rw [hsub] at h; simp at h
          | some x =>
            obtain ⟨r0, t0⟩ := x
            rw [hsub] at h
            simp only [Option.some.injEq, Prod.mk.injEq] at h
            rw [← h.2] at hr
            rcases List.mem_append.mp hr with hr | hr
            · exact hcpr r hr
            · have := ih (p + 1) (q - 1) s r0 t0 (by omega)
                (fun i h1 h2 => hfield i (by omega) (by omega)) hsub r hr
              omega
        · rw [if_neg hcp] at h
          by_cases hop : (find_main_op_traced tokens p q).1 = -1
          · rw [if_pos hop] at h
            simp only [Option.some.injEq, Prod.mk.injEq] at h
            rw [← h.2] at hr
            rcases List.mem_append.mp hr with hr | hr
            · exact hcpr r hr
            · exact hfmr r hr
          · rw [if_neg hop] at h
            have hrange := find_main_op_range tokens p q hp
              (by rw [← find_main_op_traced_fst]; exact hop)
            rw [← find_main_op_traced_fst] at hrange
            cases hs1 : eval_traced tokens f p ((find_main_op_traced tokens p q).1 - 1) s with
            | none => rw [hs1] at h; simp at h
            | some x1 =>
              obtain ⟨⟨v1, s1⟩, t1⟩ := x1
              rw [hs1] at h
              simp only [] at h
              cases hs2 : eval_traced tokens f ((find_main_op_traced tokens p q).1 + 1) q s1 with
              | none => rw [hs2] at h; simp at h
              | some x2 =>
                obtain ⟨⟨v2, s2⟩, t2⟩ := x2
                rw [hs2] at h
                simp only [Option.some.injEq, Prod.mk.injEq] at h
                rw [← h.2] at hr
                simp only [List.mem_append, List.mem_singleton] at hr
                rcases hr with ((((hr | hr) | hr) | hr) | hr)
                · exact hcpr r hr
                · exact hfmr r hr
                · have := ih p _ s (v1, s1) t1 hp
                    (fun i h1 h2 => hfield i h1 (by omega)) hs1 r hr
                  omega
                · have := ih _ q s1 (v2, s2) t2 (by omega)
                    (fun i h1 h2 => hfield i (by omega) h2) hs2 r hr
                  omega
                · subst hr
                  simp only []
                  omega

/-- Reads inside the span, for texts that fit the field.  For every token
array whose number texts at the indices `0, ..., n - 1` have at most 31
characters, the call `eval(0, n - 1)` returns, and every read of the array
`tokens` made by it, by the calls of `check_parentheses` and `find_main_op` it
makes and by the nested calls of `eval` has an index inside the span `[p, q]`
of the call that makes it, which lies inside `[0, n - 1]`.  For `n = 0` the
call `eval(0, -1)` fails and reads nothing. -/
theorem eval_reads_inside_span (tokens : Int → Token) (n : Nat) (success : Bool)
    (hfield : ∀ i : Int, 0 ≤ i → i ≤ n - 1 → (tokens i).type = TK_NUM →
      (tokens i).str.length ≤ 31) :
    (∃ res reads, eval_traced tokens (n + 1) 0 (n - 1) success = some (res, reads) ∧
      eval tokens (n + 1) 0 (n - 1) success = some res ∧
      ∀ r ∈ reads, r.p ≤ r.index ∧ r.index ≤ r.q ∧ 0 ≤ r.p ∧ r.q ≤ n - 1) ∧
    eval_traced tokens (0 + 1) 0 (-1) success = some ((0, false), []) := by
  refine ⟨?_, rfl⟩
  obtain ⟨res, hres⟩ := eval_total tokens (n + 1) 0 (n - 1) success (le_refl _) (by omega)
  have hfst := eval_traced_fst tokens (n + 1) 0 (n - 1) success
  cases htr : eval_traced tokens (n + 1) 0 (n - 1) success with
  | none => rw [htr, hres] at hfst; simp at hfst
  | some x =>
    obtain ⟨res', reads⟩ := x
    rw [htr, hres] at hfst
    simp only [Option.map_some', Option.some.injEq] at hfst
    subst hfst
    refine ⟨res', reads, rfl, hres, fun r hr => ?_⟩
    have := eval_traced_reads tokens (n + 1) 0 (n - 1) success res' reads (le_refl _) hfield
      htr r hr
    omega

/-! ## Claims on the register lookup -/

theorem isa_reg_str2val_loop_fail (gpr : Int → Nat) (name : List Char) :
    ∀ (rs : List (List Char)) (i : Int), name ∉ rs.map (List.drop 1) →
      isa_reg_str2val_loop gpr name rs i = (0, false) := by
  intro rs
  induction rs with
  | nil => intro i _; rfl
  | cons r rs ih =>
    intro i h
    rw [List.map_cons, List.mem_cons, not_or] at h
    rw [isa_reg_str2val_loop, if_neg h.1]
    exact ih (i + 1) h.2

/-- C11 (what the code does): the lookup of `ra` fails.  The loop compares the
name with `regs[i] + 1`, every table entry without its first character (`0`,
`a`, `p`, `p`, `p`, `0`, `1`, ...), so none of the 31 names after `$0` is
found, with or without a leading `$`: the flag is false and the value 0.  Only
the entry `$0`, whose first character is the sigil, is resolved. -/
theorem isa_reg_str2val_misses_ra (gpr : Int → Nat) :
    isa_reg_str2val gpr "ra".toList = (0, false) ∧
    isa_reg_str2val gpr "$ra".toList = (0, false) ∧
    (∀ r ∈ regs.tail, isa_reg_str2val gpr r = (0, false) ∧
      isa_reg_str2val gpr ('$' :: r) = (0, false)) ∧
    isa_reg_str2val gpr "$0".toList = (gpr 0, true) ∧
    isa_reg_str2val gpr "0".toList = (gpr 0, true) := by
  have hall : ∀ r ∈ regs.tail, (if r.head? = some '$' then r.tail else r) = r ∧
      r ∉ regs.map (List.drop 1) := by decide
  have key : ∀ r ∈ regs.tail, isa_reg_str2val gpr r = (0, false) ∧
      isa_reg_str2val gpr ('$' :: r) = (0, false) := by
    intro r hr
    obtain ⟨h1, h2⟩ := hall r hr
    constructor
    · rw [isa_reg_str2val]
      simp only [h1]
      exact isa_reg_str2val_loop_fail gpr r regs 0 h2
    · rw [isa_reg_str2val]
      simp only [List.head?_cons, if_true, List.tail_cons]
      exact isa_reg_str2val_loop_fail gpr r regs 0 h2
  exact ⟨(key "ra".toList (by decide)).1, (key "ra".toList (by decide)).2, key, rfl, rfl⟩

/-- C12 (what the code does): the lookup of `a` succeeds.  The string `a` is
none of the register names `0`, `ra`, `sp`, ..., `t6`, yet it equals
`regs[1] + 1`, the entry `ra` without its first character, so the flag is set
to true and `cpu.gpr[1]` is returned; likewise `p` gives `cpu.gpr[2]` and `10`
gives `cpu.gpr[26]`. -/
theorem isa_reg_str2val_accepts_a (gpr : Int → Nat) :
    "a".toList ∉ reg_names ∧ isa_reg_str2val gpr "a".toList = (gpr 1, true) ∧
    "p".toList ∉ reg_names ∧ isa_reg_str2val gpr "$p".toList = (gpr 2, true) ∧
    "10".toList ∉ reg_names ∧ isa_reg_str2val gpr "10".toList = (gpr 26, true) :=
  ⟨by decide, rfl, by decide, rfl, by decide, rfl⟩

/-! ## The names that the register lookup accepts -/

theorem isa_reg_str2val_loop_flag (gpr : Int → Nat) (name : List Char) :
    ∀ (rs : List (List Char)) (i : Int),
      (isa_reg_str2val_loop gpr name rs i).2 = true ↔ name ∈ rs.map (List.drop 1) := by
  intro rs
  induction rs with
  | nil => intro i; simp [isa_reg_str2val_loop]
  | cons r rs ih =>
    intro i
    rw [isa_reg_str2val_loop, List.map_cons, List.mem_cons]
    by_cases h : name = r.drop 1
    · rw [if_pos h]
      exact ⟨fun _ => Or.inl h, fun _ => rfl⟩
    · rw [if_neg h, ih (i + 1)]
      exact ⟨fun h' => Or.inr h', fun h' => h'.resolve_left h⟩

/-- The lookup succeeds exactly on the table entries without their first
character, with or without a leading `$`. -/
theorem isa_reg_str2val_flag (gpr : Int → Nat) (s : List Char) :
    (isa_reg_str2val gpr s).2 = true ↔
      (if s.head? = some '$' then s.tail else s) ∈ regs.map (List.drop 1) :=
  isa_reg_str2val_loop_flag gpr _ regs 0

/-! ## Writes and reads of the bytes -/

theorem store_ok (bytes : Nat → Nat) (a b : Nat) (h : a < TOKENS_BYTES) :
    store bytes a b = .ok (Function.update bytes a b) := by
  rw [store, if_pos h]

theorem load_int_congr (b b' : Nat → Nat) (a : Nat)
    (h : ∀ x, a ≤ x → x ≤ a + 3 → b' x = b x) : load_int b' a = load_int b a := by
  unfold load_int
  rw [h a (le_refl _) (by omega), h (a + 1) (by omega) (by omega),
    h (a + 2) (by omega) (by omega), h (a + 3) (by omega) (le_refl _)]

theorem store_int_spec (bytes : Nat → Nat) (a : Nat) (v : Int) (ha : a + 3 < TOKENS_BYTES) :
    ∃ b', store_int bytes a v = .ok b' ∧ (∀ x, x < a ∨ a + 3 < x → b' x = bytes x) ∧
      (-2 ^ 31 ≤ v → v < 2 ^ 31 → load_int b' a = v) := by
  have h0 : a < TOKENS_BYTES := by omega
  have h1 : a + 1 < TOKENS_BYTES := by omega
  have h2 : a + 2 < TOKENS_BYTES := by omega
  have h3 : a + 3 < TOKENS_BYTES := by omega
  simp only [store_int, store, if_pos h0, if_pos h1, if_pos h2, if_pos h3]
  refine ⟨_, rfl, ?_, ?_⟩
  · intro x hx
    have h0 : x ≠ a := by omega
    have h1 : x ≠ a + 1 := by omega
    have h2 : x ≠ a + 2 := by omega
    have h3 : x ≠ a + 3 := by omega
    simp [Function.update, h0, h1, h2, h3]
  · intro hlo hhi
    have e0 : a ≠ a + 1 := by omega
    have e1 : a ≠ a + 2 := by omega
    have e2 : a ≠ a + 3 := by omega
    have e3 : a + 1 ≠ a + 2 := by omega
    have e4 : a + 1 ≠ a + 3 := by omega
    have e5 : a + 2 ≠ a + 3 := by omega
    unfold load_int
    simp only [Function.update, e0, e1, e2, e3, e4, e5, dite_false, dite_true, eq_rec_constant,
      ne_eq, not_false_eq_true]
    norm_num at hlo hhi ⊢
    split_ifs <;> omega

theorem strncpy_spec (cs : List Char) : ∀ (bytes : Nat → Nat) (a : Nat),
    a + cs.length ≤ TOKENS_BYTES →
    ∃ b', strncpy bytes a cs = .ok b' ∧ (∀ x, x < a ∨ a + cs.length ≤ x → b' x = bytes x) ∧
      (∀ k c, cs[k]? = some c → b' (a + k) = c.toNat) := by
  induction cs with
  | nil =>
    intro bytes a _
    exact ⟨bytes, rfl, fun _ _ => rfl, fun k c h => by simp at h⟩
  | cons d ds ih =>
    intro bytes a ha
    simp only [List.length_cons] at ha
    obtain ⟨b', h1, h2, h3⟩ := ih (Function.update bytes a d.toNat) (a + 1) (by omega)
    refine ⟨b', ?_, ?_, ?_⟩
    · rw [strncpy, store_ok _ a _ (by omega)]
      exact h1
    · intro x hx
      simp only [List.length_cons] at hx
      rw [h2 x (by omega)]
      have : x ≠ a := by omega
      simp [Function.update, this]
    · intro k c hk
      cases k with
      | zero =>
        simp only [List.getElem?_cons_zero, Option.some.injEq] at hk
        rw [Nat.add_zero, h2 a (by omega), ← hk]
        simp [Function.update]
      | succ k =>
        simp only [List.getElem?_cons_succ] at hk
        have := h3 k c hk
        rw [show a + (k + 1) = a + 1 + k by omega]
        exact this

theorem load_str_written (cs : List Char) : ∀ (n a : Nat) (b : Nat → Nat),
    (∀ k c, cs[k]? = some c → b (a + k) = c.toNat) → b (a + cs.length) = 0 →
    (∀ c ∈ cs, c.toNat ≠ 0) → cs.length < n → load_str b n a = cs := by
  induction cs with
  | nil =>
    intro n a b _ h0 _ hn
    obtain ⟨n', rfl⟩ : ∃ n', n = n' + 1 := ⟨n - 1, by simp at hn; omega⟩
    rw [load_str, if_pos (by simpa using h0)]
  | cons d ds ih =>
    intro n a b hb h0 hnz hn
    simp only [List.length_cons] at hn h0
    obtain ⟨n', rfl⟩ : ∃ n', n = n' + 1 := ⟨n - 1, by omega⟩
    have hd : b a = d.toNat := by
      have := hb 0 d (by simp)
      simpa using this
    have hdz := hnz d (List.mem_cons_self _ _)
    rw [load_str, if_neg (by rw [hd]; exact hdz), hd, Char.ofNat_toNat]
    congr 1
    refine ih n' (a + 1) b (fun k c hk => ?_) (by rw [← h0]; congr 1; omega)
      (fun c hc => hnz c (List.mem_cons_of_mem _ hc)) (by omega)
    have := hb (k + 1) c (by simpa using hk)
    rw [show a + 1 + k = a + (k + 1) by omega]
    exact this

theorem load_str_frame (b b' : Nat → Nat) : ∀ (n a : Nat), (load_str b n a).length < n →
    (∀ x, a ≤ x → x ≤ a + (load_str b n a).length → b' x = b x) →
    load_str b' n a = load_str b n a := by
  intro n
  induction n with
  | zero => intro a h; simp [load_str] at h
  | succ n ih =>
    intro a hlen hag
    by_cases h0 : b a = 0
    · have : b' a = 0 := by rw [hag a (le_refl _) (by omega), h0]
      rw [load_str, load_str, if_pos h0, if_pos this]
    · have hba : b' a = b a := hag a (le_refl _) (by omega)
      rw [load_str, if_neg h0, List.length_cons] at hlen
      have hrec : load_str b' n (a + 1) = load_str b n (a + 1) := by
        refine ih (a + 1) (by omega) (fun x hx1 hx2 => hag x (by omega) ?_)
        rw [load_str, if_neg h0, List.length_cons]
        omega
      rw [load_str, load_str, if_neg h0, if_neg (by rw [hba]; exact h0), hba, hrec]

theorem tokens_natCast (m : Memory) (k : Nat) :
    m.tokens (k : Int) =
      { type := load_int m.bytes (TOKEN_BYTES * k),
        str := load_str m.bytes (TOKENS_BYTES - (TOKEN_BYTES * k + STR_OFFSET))
          (TOKEN_BYTES * k + STR_OFFSET) } := by
  simp [Memory.tokens]

theorem tokens_frame (m m' : Memory) (n k : Nat) (hk : k < n) (hn : n ≤ 32)
    (h : ∀ x, x < TOKEN_BYTES * n → m'.bytes x = m.bytes x) :
    (m'.tokens (k : Int)).type = (m.tokens (k : Int)).type ∧
      ((m.tokens (k : Int)).str.length ≤ 31 →
        (m'.tokens (k : Int)).str = (m.tokens (k : Int)).str) := by
  rw [tokens_natCast, tokens_natCast]
  simp only [TOKEN_BYTES, TOKENS_BYTES, STR_OFFSET] at h ⊢
  refine ⟨load_int_congr _ _ _ (fun x h1 h2 => h x (by omega)), fun hlen => ?_⟩
  exact load_str_frame _ _ _ _ (by omega) (fun x h1 h2 => h x (by omega))

theorem record_token_spec (m : Memory) (t : Int) (sub : List Char) (hn0 : 0 ≤ m.nr_token)
    (hn : m.nr_token < 32) (ht1 : -2 ^ 31 ≤ t) (ht2 : t < 2 ^ 31)
    (hsub : t = TK_NUM → sub.length ≤ 31 ∧ ∀ c ∈ sub, c.toNat ≠ 0) :
    ∃ m', record_token m t sub = .ok m' ∧ m'.nr_token = m.nr_token + 1 ∧
      (m'.tokens m.nr_token).type = t ∧ (t = TK_NUM → (m'.tokens m.nr_token).str = sub) ∧
      ∀ x, x < TOKEN_BYTES * m.nr_token.toNat → m'.bytes x = m.bytes x := by
  obtain ⟨n, hnn⟩ : ∃ n : Nat, m.nr_token = n := ⟨m.nr_token.toNat, by omega⟩
  have hn32 : n < 32 := by omega
  have htn : m.nr_token.toNat = n := by omega
  obtain ⟨b1, hb1, hf1, hl1⟩ := store_int_spec m.bytes (TOKEN_BYTES * n) t
    (by simp only [TOKEN_BYTES, TOKENS_BYTES]; omega)
  unfold record_token
  rw [htn, hb1]
  simp only []
  by_cases hnum : t = TK_NUM
  · obtain ⟨hlen, hnz⟩ := hsub hnum
    obtain ⟨b2, hb2, hf2, hw2⟩ := strncpy_spec sub b1 (TOKEN_BYTES * n + STR_OFFSET)
      (by simp only [TOKEN_BYTES, TOKENS_BYTES, STR_OFFSET]; omega)
    rw [if_pos hnum, hb2]
    simp only []
    rw [store_ok _ _ _ (by simp only [TOKEN_BYTES, TOKENS_BYTES, STR_OFFSET]; omega)]
    refine ⟨_, rfl, rfl, ?_, fun _ => ?_, ?_⟩
    · rw [hnn, tokens_natCast]
      simp only []
      rw [← hl1 ht1 ht2]
      refine load_int_congr _ _ _ (fun x h1 h2 => ?_)
      have hx : x ≠ TOKEN_BYTES * n + STR_OFFSET + sub.length := by
        simp only [TOKEN_BYTES, STR_OFFSET] at h1 h2 ⊢; omega
      simp only [Function.update, hx, dite_false]
      exact hf2 x (Or.inl (by simp only [TOKEN_BYTES, STR_OFFSET] at h1 h2 ⊢; omega))
    · rw [hnn, tokens_natCast]
      simp only []
      refine load_str_written sub _ _ _ (fun k c hk => ?_) (by simp [Function.update]) hnz
        (by simp only [TOKEN_BYTES, TOKENS_BYTES, STR_OFFSET]; omega)
      have hklt : k < sub.length := by
        rcases Nat.lt_or_ge k sub.length with h | h
        · exact h
        · rw [List.getElem?_eq_none h] at hk; simp at hk
      have hx : TOKEN_BYTES * n + STR_OFFSET + k ≠ TOKEN_BYTES * n + STR_OFFSET + sub.length := by
        omega
      simp only [Function.update, hx, dite_false]
      exact hw2 k c hk
    · intro x hx
      have hx' : x ≠ TOKEN_BYTES * n + STR_OFFSET + sub.length := by omega
      simp only [Function.update, hx', dite_false]
      rw [hf2 x (Or.inl (by omega)), hf1 x (Or.inl hx)]
  · rw [if_neg hnum]
    refine ⟨_, rfl, rfl, ?_, fun h => absurd h hnum, fun x hx => hf1 x (Or.inl hx)⟩
    rw [hnn, tokens_natCast]
    exact hl1 ht1 ht2

/-! ## The loop on the bytes follows the loop on the tokens -/

theorem make_token_loop_bytes_step (e : List Char) (fuel pos : Nat) (m : Memory) (c : Char)
    (cs : List Char) (h : e.drop pos = c :: cs) :
    make_token_loop_bytes e (fuel + 1) pos m =
      match first_match c cs with
      | none => .ok (false, pos, m)
      | some (ty, len) =>
        if ty = TK_NOTYPE then make_token_loop_bytes e fuel (pos + len) m
        else if m.nr_token ≥ 32 then .ok (false, pos + len, m)
        else
          match record_token m ty ((c :: cs).take len) with
          | .error f => .error f
          | .ok m' => make_token_loop_bytes e fuel (pos + len) m' := by
  have hlen : ¬ e.length ≤ pos := by
    intro hle
    rw [List.drop_eq_nil_of_le hle] at h
    exact absurd h (by simp)
  rw [make_token_loop_bytes, if_neg hlen, h]
  have ht := try_rules_table c cs
  cases hr : try_rules (c :: cs) rules with
  | none =>
    rw [hr] at ht
    simp only [Option.map_none'] at ht
    rw [← ht]
  | some x =>
    obtain ⟨r, len⟩ := x
    rw [hr] at ht
    simp only [Option.map_some'] at ht
    rw [← ht]
    simp only []
    have hty := first_match_type c cs r.token_type len ht.symm
    by_cases h0 : r.token_type = TK_NOTYPE
    · simp [h0]
    · have hk := hty.resolve_left h0
      simp only [h0, if_false, hk, if_true]

theorem agrees_record (m : Memory) (st : State) (t : Int) (sub : List Char)
    (hag : m.agrees st) (hn : ¬ st.nr_token ≥ 32) (ht1 : -2 ^ 31 ≤ t) (ht2 : t < 2 ^ 31)
    (hsub : t = TK_NUM → sub.length ≤ 31 ∧ ∀ c ∈ sub, c.toNat ≠ 0) :
    ∃ m', record_token m t sub = .ok m' ∧
      m'.agrees
        { tokens := Function.update st.tokens st.nr_token
            ⟨t, if t = TK_NUM then sub else (st.tokens st.nr_token).str⟩,
          nr_token := st.nr_token + 1 } := by
  obtain ⟨hnr, h0, hall⟩ := hag
  obtain ⟨m', hrec, hnr', hty, hstr, hfr⟩ := record_token_spec m t sub (by omega) (by omega)
    ht1 ht2 hsub
  refine ⟨m', hrec, ?_, ?_, ?_⟩
  · simp only []; omega
  · simp only []; omega
  · intro k hk
    simp only [] at hk ⊢
    by_cases hkn : (k : Int) = st.nr_token
    · rw [hkn, Function.update_same]
      simp only []
      rw [← hnr, hty]
      refine ⟨rfl, fun hnum => ?_⟩
      rw [if_pos hnum, hstr hnum]
      exact ⟨rfl, (hsub hnum).1⟩
    · rw [Function.update_noteq hkn]
      have hlt : (k : Int) < st.nr_token := by omega
      obtain ⟨h1, h2⟩ := hall k hlt
      have hfrm := tokens_frame m m' m.nr_token.toNat k (by omega) (by omega) hfr
      refine ⟨by rw [hfrm.1, h1], fun hnum => ?_⟩
      obtain ⟨h3, h4⟩ := h2 hnum
      rw [hfrm.2 (by rw [h3]; exact h4), h3]
      exact ⟨rfl, h4⟩

theorem op_type_range (c : Char) : -2 ^ 31 ≤ op_type c ∧ op_type c < 2 ^ 31 := by
  unfold op_type
  split_ifs <;> decide

theorem isdigit_toNat_ne_zero (c : Char) (h : isdigit c = true) : c.toNat ≠ 0 := by
  simp only [isdigit, Bool.and_eq_true, decide_eq_true_eq] at h
  have : '0'.toNat = 48 := by decide
  omega

theorem runs_fit_cons (t : Token) (ts : List Token) (e e' : List Char) (h : lex e = t :: ts)
    (h' : lex e' = ts) (hf : runs_fit e = true) :
    t.str.length ≤ 31 ∧ runs_fit e' = true := by
  unfold runs_fit at hf ⊢
  rw [h, List.all_cons, Bool.and_eq_true, decide_eq_true_eq] at hf
  rw [h']
  exact hf

theorem make_token_loop_bytes_sim (fuel : Nat) :
    ∀ (e : List Char) (pos : Nat) (m : Memory) (st : State) (rest : List Char),
      e.drop pos = rest → rest.length < fuel → m.agrees st → runs_fit rest = true →
      ∃ b pos' st' m', make_token_loop e fuel pos st = some (b, pos', st') ∧
        make_token_loop_bytes e fuel pos m = .ok (b, pos', m') ∧ m'.agrees st' := by
  induction fuel with
  | zero => intro e pos m st rest _ h; omega
  | succ fuel ih =>
    intro e pos m st rest hrest hfuel hag hfit
    cases rest with
    | nil =>
      have hle : e.length ≤ pos := by
        by_contra hc
        have : (e.drop pos).length = 0 := by rw [hrest]; rfl
        rw [List.length_drop] at this
        omega
      refine ⟨true, pos, st, m, ?_, ?_, hag⟩
      · rw [make_token_loop, if_pos hle]
      · rw [make_token_loop_bytes, if_pos hle]
    | cons c cs =>
      have hdrop : ∀ k, e.drop (pos + k) = (c :: cs).drop k := by
        intro k; rw [← hrest, List.drop_drop]
      rw [make_token_loop_step e fuel pos st c cs hrest,
        make_token_loop_bytes_step e fuel pos m c cs hrest]
      simp only [List.length_cons] at hfuel
      by_cases h0 : c = ' '
      · subst h0
        have hfm : first_match ' ' cs =
            some (TK_NOTYPE, 1 + (cs.takeWhile (fun x => x == ' ')).length) := by
          simp [first_match]
        rw [hfm]
        simp only [if_true]
        have hd := hdrop (1 + (cs.takeWhile (fun x => x == ' ')).length)
        rw [Nat.add_comm 1, List.drop_succ_cons, drop_takeWhile_length] at hd
        rw [Nat.add_comm 1]
        have hl := dropWhile_length_le (fun x => x == ' ') cs
        have hfit' : runs_fit (cs.dropWhile (fun x => x == ' ')) = true := by
          unfold runs_fit at hfit ⊢
          rw [lex_space, ← lex_dropWhile_space cs] at hfit
          exact hfit
        exact ih e _ m st _ hd (by omega) hag hfit'
      · by_cases h1 : isop c = true
        · have hfm : first_match c cs = some (op_type c, 1) := by
            simp [first_match, h0, h1]
          have hne := op_type_ne c h1
          rw [hfm]
          simp only [hne.1, if_false]
          have hnr := hag.1
          by_cases hlt : st.nr_token ≥ 32
          · have hlt' : m.nr_token ≥ 32 := by rw [hnr]; exact hlt
            rw [if_pos hlt, if_pos hlt']
            exact ⟨false, pos + 1, st, m, rfl, rfl, hag⟩
          · have hlt' : ¬ m.nr_token ≥ 32 := by rw [hnr]; exact hlt
            rw [if_neg hlt, if_neg hlt']
            obtain ⟨m1, hrec, hag1⟩ := agrees_record m st (op_type c) ((c :: cs).take 1) hag hlt
              (op_type_range c).1 (op_type_range c).2 (fun h => absurd h hne.2)
            rw [hrec]
            simp only [if_neg hne.2] at hag1 ⊢
            have hd := hdrop 1
            rw [List.drop_succ_cons, List.drop_zero] at hd
            have hfit' := (runs_fit_cons _ _ (c :: cs) cs (lex_op c cs h0 h1) rfl hfit).2
            exact ih e (pos + 1) m1 _ cs hd (by omega) hag1 hfit'
        · by_cases h2 : isdigit c = true
          · have hfm : first_match c cs =
                some (TK_NUM, 1 + (cs.takeWhile isdigit).length) := by
              simp [first_match, h0, h1, h2]
            rw [hfm]
            have hNN : ¬ (TK_NUM = TK_NOTYPE) := by decide
            simp only [hNN, if_false, if_true]
            have hnr := hag.1
            by_cases hlt : st.nr_token ≥ 32
            · have hlt' : m.nr_token ≥ 32 := by rw [hnr]; exact hlt
              rw [if_pos hlt, if_pos hlt']
              exact ⟨false, _, st, m, rfl, rfl, hag⟩
            · have hlt' : ¬ m.nr_token ≥ 32 := by rw [hnr]; exact hlt
              rw [if_neg hlt, if_neg hlt']
              have hd := hdrop (1 + (cs.takeWhile isdigit).length)
              rw [Nat.add_comm 1, List.drop_succ_cons, drop_takeWhile_length] at hd
              rw [Nat.add_comm 1, List.take_succ_cons, take_takeWhile_length]
              have hl := dropWhile_length_le isdigit cs
              obtain ⟨hlen, hfit'⟩ := runs_fit_cons _ _ (c :: cs) (cs.dropWhile isdigit)
                (lex_digit c cs h0 h1 h2) rfl hfit
              obtain ⟨m1, hrec, hag1⟩ := agrees_record m st TK_NUM (c :: cs.takeWhile isdigit)
                hag hlt (by decide) (by decide)
                (fun _ => ⟨hlen, fun x hx => by
                  rcases List.mem_cons.mp hx with hx | hx
                  · rw [hx]; exact isdigit_toNat_ne_zero c h2
                  · exact isdigit_toNat_ne_zero x (List.mem_takeWhile_imp hx)⟩)
              rw [hrec]
              simp only [if_true] at hag1 ⊢
              exact ih e _ m1 _ _ hd (by omega) hag1 hfit'
          · have hfm : first_match c cs = none := by
              simp [first_match, h0, h1, h2]
            rw [hfm]
            exact ⟨false, pos, st, m, rfl, rfl, hag⟩

/-! ## Both levels agree on inputs whose digit runs fit the field -/

/-- On every input whose digit runs have at most 31 characters, `make_token`
on the bytes returns, never writes outside the array, and returns what
`make_token` on the tokens returns: the same `bool`, the same scan position,
and a memory that holds the recorded tokens.  The prior contents of either
level do not matter. -/
theorem make_token_bytes_refines (m : Memory) (st : State) (e : List Char)
    (hfit : runs_fit e = true) :
    ∃ b pos st' m', make_token st e = some (b, pos, st') ∧
      make_token_bytes m e = .ok (b, pos, m') ∧ m'.agrees st' :=
  make_token_loop_bytes_sim (e.length + 1) e 0 { m with nr_token := 0 }
    { st with nr_token := 0 } e rfl (Nat.lt_succ_self _)
    ⟨rfl, le_refl _, fun k hk => absurd hk (by simp only []; omega)⟩ hfit

theorem agrees_norm (m : Memory) (st : State) (h : m.agrees st) (k : Nat)
    (hk : (k : Int) < st.nr_token) : (m.tokens k).norm = (st.tokens k).norm := by
  obtain ⟨hty, hstr⟩ := h.2.2 k hk
  unfold Token.norm
  by_cases hnum : (st.tokens k).type = TK_NUM
  · rw [if_pos (by rw [hty]; exact hnum), if_pos hnum]
    have h1 := (hstr hnum).1
    cases hm : m.tokens k with
    | mk t1 s1 =>
      cases hs : st.tokens k with
      | mk t2 s2 =>
        rw [hm, hs] at hty h1
        simp only [] at hty h1
        rw [hty, h1]
  · rw [if_neg (by rw [hty]; exact hnum), if_neg hnum, hty]

theorem slice_map_congr (f g : Int → Token) (h : Token → Token) (n : Nat)
    (hfg : ∀ k : Nat, k < n → h (f k) = h (g k)) :
    (slice f 0 n).map h = (slice g 0 n).map h := by
  induction n with
  | zero => rfl
  | succ n ih =>
    rw [slice_succ_right, slice_succ_right, List.map_append, List.map_append,
      ih (fun k hk => hfg k (by omega))]
    simp only [List.map_cons, List.map_nil, zero_add]
    rw [hfg n (by omega)]

theorem agrees_slice (m : Memory) (st : State) (h : m.agrees st) (n : Nat)
    (hn : (n : Int) ≤ st.nr_token) :
    (slice m.tokens 0 n).map Token.norm = (slice st.tokens 0 n).map Token.norm :=
  slice_map_congr _ _ _ n (fun k hk => agrees_norm m st h k (by omega))

theorem agrees_eval (m : Memory) (st : State) (h : m.agrees st) (fuel : Nat) (success : Bool) :
    eval m.tokens fuel 0 (m.nr_token - 1) success =
      eval st.tokens fuel 0 (st.nr_token - 1) success := by
  rw [eval_eq_evalL _ _ _ _ _ (le_refl _), eval_eq_evalL _ _ _ _ _ (le_refl _), h.1,
    ← evalL_norm fuel (slice m.tokens 0 _), ← evalL_norm fuel (slice st.tokens 0 _),
    agrees_slice m st h _ (by have := h.2.1; omega)]

/-- On every input whose digit runs have at most 31 characters, `expr` on the
bytes returns the value and the flag that `expr` on the tokens returns. -/
theorem expr_bytes_refines (m : Memory) (st : State) (e : List Char) (success : Bool)
    (hfit : runs_fit e = true) :
    ∃ r, outcome (expr st e success) = some r ∧
      outcome_bytes (expr_bytes m e success) = .ok r := by
  obtain ⟨b, pos, st', m', h1, h2, hag⟩ := make_token_bytes_refines m st e hfit
  obtain ⟨r, hr⟩ := expr_total st e success
  refine ⟨(r.1, r.2.1), by rw [hr]; rfl, ?_⟩
  unfold expr at hr
  unfold expr_bytes
  rw [h1] at hr
  rw [h2]
  cases b with
  | false =>
    simp only [Option.some.injEq] at hr
    rw [← hr]
    rfl
  | true =>
    simp only [] at hr ⊢
    rw [agrees_eval m' st' hag, hag.1]
    cases hev : eval st'.tokens (st'.nr_token.toNat + 1) 0 (st'.nr_token - 1) success with
    | none => rw [hev] at hr; simp at hr
    | some x =>
      rw [hev] at hr
      simp only [Option.some.injEq] at hr
      rw [← hr]
      rfl

/-- What `make_token` on the bytes records when the digit runs fit the field
and the tokens fit the array: it returns true exactly when every character is
matched by a rule, with `nr_token` the number of tokens of the input and with
the token sequence of the input in the array. -/
theorem make_token_bytes_ok (m : Memory) (e : List Char) (hfit : runs_fit e = true)
    (hcap : (lex e).length ≤ 32) :
    ∃ m', make_token_bytes m e = .ok (e.all legal, (e.takeWhile legal).length, m') ∧
      m'.nr_token = (lex e).length ∧
      (slice m'.tokens 0 (lex e).length).map Token.norm = lex e := by
  obtain ⟨b, pos, st', m', h1, h2, hag⟩ := make_token_bytes_refines m m.state e hfit
  obtain ⟨st'', h3, h4, h5⟩ := make_token_ok m.state e hcap
  rw [h1] at h3
  simp only [Option.some.injEq, Prod.mk.injEq] at h3
  obtain ⟨hb, hp, hst⟩ := h3
  subst hst hb hp
  refine ⟨m', h2, by rw [hag.1, h4], ?_⟩
  rw [agrees_slice m' st' hag _ (by rw [h4]), h5]

/-- With more than 32 tokens `make_token` on the bytes fails, when the digit
runs fit the field. -/
theorem make_token_bytes_overflow (m : Memory) (e : List Char) (hfit : runs_fit e = true)
    (hcap : (lex e).length > 32) :
    ∃ pos m', make_token_bytes m e = .ok (false, pos, m') := by
  obtain ⟨b, pos, st', m', h1, h2, -⟩ := make_token_bytes_refines m m.state e hfit
  obtain ⟨pos', st'', h3⟩ := make_token_overflow m.state e hcap
  rw [h1] at h3
  simp only [Option.some.injEq, Prod.mk.injEq] at h3
  rw [h3.1] at h2
  exact ⟨pos, m', h2⟩

/-! ## Digit runs longer than the field -/

/-- After `make_token` on the bytes has returned true on an input whose digit
runs have at most 31 characters, every read of the array made by
`eval(0, nr_token - 1)` has its index inside the span of the call that makes
it, which lies inside `[0, nr_token - 1]`. -/
theorem expr_bytes_reads_inside_span (m : Memory) (e : List Char) (success : Bool)
    (hfit : runs_fit e = true) (pos : Nat) (m' : Memory)
    (h : make_token_bytes m e = .ok (true, pos, m')) :
    ∃ res reads,
      eval_traced m'.tokens (m'.nr_token.toNat + 1) 0 (m'.nr_token - 1) success =
        some (res, reads) ∧
      ∀ r ∈ reads, r.p ≤ r.index ∧ r.index ≤ r.q ∧ 0 ≤ r.p ∧ r.q ≤ m'.nr_token - 1 := by
  obtain ⟨b, pos', st', m'', h1, h2, hag⟩ := make_token_bytes_refines m m.state e hfit
  rw [h] at h2
  simp only [Except.ok.injEq, Prod.mk.injEq] at h2
  obtain ⟨-, -, hm⟩ := h2
  subst hm
  have hn0 : 0 ≤ m'.nr_token := by rw [hag.1]; exact hag.2.1
  have hfield : ∀ i : Int, 0 ≤ i → i ≤ ((m'.nr_token.toNat : Nat) : Int) - 1 →
      (m'.tokens i).type = TK_NUM → (m'.tokens i).str.length ≤ 31 := by
    intro i hi0 hi1 hnum
    obtain ⟨k, rfl⟩ : ∃ k : Nat, i = k := ⟨i.toNat, by omega⟩
    obtain ⟨hty, hstr⟩ := hag.2.2 k (by rw [← hag.1]; omega)
    rw [hty] at hnum
    rw [(hstr hnum).1]
    exact (hstr hnum).2
  obtain ⟨⟨res, reads, h3, -, h4⟩, -⟩ :=
    eval_reads_inside_span m'.tokens m'.nr_token.toNat success hfield
  have hcast : ((m'.nr_token.toNat : Nat) : Int) = m'.nr_token := by omega
  rw [hcast] at h3 h4
  exact ⟨res, reads, h3, h4⟩

theorem eval_traced_leaf (tokens : Int → Token) (f : Nat) (p : Int) (success : Bool)
    (h : (tokens p).type = TK_NUM) :
    eval_traced tokens (f + 1) p p success =
      some ((strtoul (tokens p).str % 2 ^ 32, success),
        ⟨p, p, p⟩ :: (List.range (strtoul_scanned (tokens p).str)).map
          (fun k => Read.mk (p + ((STR_OFFSET + k) / TOKEN_BYTES : Nat)) p p)) := by
  rw [eval_traced, if_neg (by omega), if_pos rfl, if_neg (not_not.mpr h)]

set_option maxRecDepth 100000 in
set_option maxHeartbeats 4000000 in
theorem make_token_bytes_long_alone (m : Memory) :
    ∃ m', make_token_bytes m "000000000000000000000000000000007".toList =
        .ok (true, 33, m') ∧
      m'.nr_token = 1 ∧
      m'.tokens 0 = ⟨TK_NUM, "000000000000000000000000000000007".toList⟩ :=
  ⟨_, rfl, rfl, rfl⟩

set_option maxRecDepth 100000 in
set_option maxHeartbeats 4000000 in
theorem make_token_bytes_long_plus (m : Memory) :
    ∃ m', make_token_bytes m "000000000000000000000000000000007+1".toList =
        .ok (true, 35, m') ∧
      m'.nr_token = 3 ∧
      m'.tokens 0 =
        ⟨TK_NUM, "00000000000000000000000000000000".toList ++ [Char.ofNat 2, Char.ofNat 1]⟩ ∧
      (m'.tokens 1).type = TK_ADD ∧
      m'.tokens 2 = ⟨TK_NUM, ['1']⟩ :=
  ⟨_, rfl, rfl, rfl, rfl, rfl⟩

set_option maxRecDepth 100000 in
set_option maxHeartbeats 4000000 in
/-- C9 (what the code does): a 32-digit number as the 32nd token is written
past the array.  The input of 31 characters `(` and 32 digits is made only of
characters that rules match and has 32 tokens; `make_token` on the bytes
records the 31 parentheses, copies the 32 digits into `tokens[31].str`, the
last 32 bytes of the array, and writes the terminator at offset 1152, the
first byte after the array `tokens`: it does not return true with
`nr_token = 32`. -/
theorem make_token_overruns_array (m : Memory) :
    "(((((((((((((((((((((((((((((((00000000000000000000000000000001".toList.all legal = true ∧
    (lex "(((((((((((((((((((((((((((((((00000000000000000000000000000001".toList).length = 32 ∧
    make_token_bytes m "(((((((((((((((((((((((((((((((00000000000000000000000000000001".toList =
      .error (.out_of_bounds 1152) :=
  ⟨by decide, by simp [lex, isop, isdigit, op_type], rfl⟩

/-- C16 (what the code does): a run of 33 digits is not what the array holds.
On the input of 33 digits followed by `+1`, `make_token` on the bytes returns
true with three tokens, as the token sequence of the input has; `tokens[0]` is
a `TK_NUM` token, but the string at `tokens[0].str` is the first 32 digits
followed by the bytes 2 and 1 of the type `TK_ADD = 258` of `tokens[1]`, which
has overwritten the 33rd digit and the terminator.  `expr` returns 1, where the
digit run has the value 7. -/
theorem make_token_clobbers_long_number (m : Memory) :
    ∃ m', make_token_bytes m "000000000000000000000000000000007+1".toList =
        .ok (true, 35, m') ∧
      m'.nr_token = 3 ∧
      lex "000000000000000000000000000000007+1".toList =
        [⟨TK_NUM, "000000000000000000000000000000007".toList⟩, ⟨TK_ADD, []⟩,
          ⟨TK_NUM, ['1']⟩] ∧
      (m'.tokens 0).type = TK_NUM ∧
      (m'.tokens 0).str =
        "00000000000000000000000000000000".toList ++ [Char.ofNat 2, Char.ofNat 1] ∧
      (m'.tokens 0).str ≠ "000000000000000000000000000000007".toList ∧
      outcome_bytes (expr_bytes m "000000000000000000000000000000007+1".toList true) =
        .ok (1, true) := by
  obtain ⟨m', h1, h2, h3, h4, h5⟩ := make_token_bytes_long_plus m
  refine ⟨m', h1, h2, by simp [lex, isop, isdigit, op_type], by rw [h3], by rw [h3], ?_, ?_⟩
  · rw [h3]
    decide
  · have hs : slice m'.tokens 0 3 = [m'.tokens 0, m'.tokens 1, m'.tokens 2] := rfl
    have hn : (slice m'.tokens 0 3).map Token.norm =
        [⟨TK_NUM, "00000000000000000000000000000000".toList ++ [Char.ofNat 2, Char.ofNat 1]⟩,
          ⟨TK_ADD, []⟩, ⟨TK_NUM, ['1']⟩] := by
      rw [hs, List.map_cons, List.map_cons, List.map_cons, List.map_nil, h3, h5]
      have : (m'.tokens 1).norm = ⟨TK_ADD, []⟩ := by
        rw [Token.norm, h4, if_neg (by decide)]
      rw [this]
      rfl
    have hev : eval m'.tokens (m'.nr_token.toNat + 1) 0 (m'.nr_token - 1) true =
        some (1, true) := by
      rw [h2, eval_eq_evalL _ _ _ _ _ (le_refl _)]
      have h3' : ((3 : Int) - 1 - 0 + 1).toNat = 3 := by decide
      rw [h3', ← evalL_norm, hn]
      decide
    unfold expr_bytes
    rw [h1]
    simp only [hev]
    rfl

/-- C18 (what the code does): `strtoul` reads the next token.  On the input of
33 digits `make_token` on the bytes returns true with one token; the field
`tokens[0].str` holds the first 32 digits and no terminator, the 33rd digit and
the terminator lie in the bytes of `tokens[1]`.  The call `eval(0, 0)` returns
7, the value of the 33 digits: of the 34 characters that `strtoul` examines,
the last two are read at index 1, outside the span `[0, 0]`. -/
theorem eval_reads_next_token (m : Memory) :
    ∃ m', make_token_bytes m "000000000000000000000000000000007".toList =
        .ok (true, 33, m') ∧
      m'.nr_token = 1 ∧
      eval_traced m'.tokens 2 0 (m'.nr_token - 1) true =
        some ((7, true),
          List.replicate 33 (Read.mk 0 0 0) ++ [Read.mk 1 0 0, Read.mk 1 0 0]) ∧
      eval m'.tokens 2 0 (m'.nr_token - 1) true = some (7, true) := by
  obtain ⟨m', h1, h2, h3⟩ := make_token_bytes_long_alone m
  have htr : eval_traced m'.tokens 2 0 (m'.nr_token - 1) true =
      some ((7, true),
        List.replicate 33 (Read.mk 0 0 0) ++ [Read.mk 1 0 0, Read.mk 1 0 0]) := by
    rw [h2]
    have h0 : (1 : Int) - 1 = 0 := by decide
    rw [h0, eval_traced_leaf m'.tokens 1 0 true (by rw [h3]), h3]
    decide
  refine ⟨m', h1, h2, htr, ?_⟩
  rw [← eval_traced_fst, htr]
  rfl

/-! ## The run on the bytes ends: it returns, or it writes outside the array -/

theorem store_fault (bytes : Nat → Nat) (a b : Nat) (f : Fault)
    (h : store bytes a b = .error f) : f = .out_of_bounds a := by
  unfold store at h
  split_ifs at h
  simp only [Except.error.injEq] at h
  exact h.symm

theorem store_int_fault (bytes : Nat → Nat) (a : Nat) (v : Int) (f : Fault)
    (h : store_int bytes a v = .error f) : ∃ x, f = .out_of_bounds x := by
  unfold store_int at h
  simp only [] at h
  cases h1 : store bytes a ((v % 2 ^ 32).toNat % 256) with
  | error g =>
    rw [h1] at h
    simp only [Except.error.injEq] at h
    exact ⟨a, by rw [← h]; exact store_fault _ _ _ _ h1⟩
  | ok b1 =>
    rw [h1] at h
    simp only [] at h
    cases h2 : store b1 (a + 1) ((v % 2 ^ 32).toNat / 256 % 256) with
    | error g =>
      rw [h2] at h
      simp only [Except.error.injEq] at h
      exact ⟨a + 1, by rw [← h]; exact store_fault _ _ _ _ h2⟩
    | ok b2 =>
      rw [h2] at h
      simp only [] at h
      cases h3 : store b2 (a + 2) ((v % 2 ^ 32).toNat / 65536 % 256) with
      | error g =>
        rw [h3] at h
        simp only [Except.error.injEq] at h
        exact ⟨a + 2, by rw [← h]; exact store_fault _ _ _ _ h3⟩
      | ok b3 =>
        rw [h3] at h
        simp only [] at h
        exact ⟨a + 3, store_fault _ _ _ _ h⟩

theorem strncpy_fault (cs : List Char) : ∀ (bytes : Nat → Nat) (a : Nat) (f : Fault),
    strncpy bytes a cs = .error f → ∃ x, f = .out_of_bounds x := by
  induction cs with
  | nil => intro bytes a f h; simp [strncpy] at h
  | cons c cs ih =>
    intro bytes a f h
    rw [strncpy] at h
    cases h1 : store bytes a c.toNat with
    | error g =>
      rw [h1] at h
      simp only [Except.error.injEq] at h
      exact ⟨a, by rw [← h]; exact store_fault _ _ _ _ h1⟩
    | ok b1 =>
      rw [h1] at h
      exact ih b1 (a + 1) f h

theorem record_token_fault (m : Memory) (t : Int) (sub : List Char) (f : Fault)
    (h : record_token m t sub = .error f) : ∃ x, f = .out_of_bounds x := by
  unfold record_token at h
  cases h1 : store_int m.bytes (TOKEN_BYTES * m.nr_token.toNat) t with
  | error g =>
    rw [h1] at h
    simp only [Except.error.injEq] at h
    rw [← h]
    exact store_int_fault _ _ _ _ h1
  | ok b1 =>
    rw [h1] at h
    simp only [] at h
    split_ifs at h
    · cases h2 : strncpy b1 (TOKEN_BYTES * m.nr_token.toNat + STR_OFFSET) sub with
      | error g =>
        rw [h2] at h
        simp only [Except.error.injEq] at h
        rw [← h]
        exact strncpy_fault _ _ _ _ h2
      | ok b2 =>
        rw [h2] at h
        simp only [] at h
        cases h3 : store b2 (TOKEN_BYTES * m.nr_token.toNat + STR_OFFSET + sub.length) 0 with
        | error g =>
          rw [h3] at h
          simp only [Except.error.injEq] at h
          exact ⟨_, by rw [← h]; exact store_fault _ _ _ _ h3⟩
        | ok b3 => rw [h3] at h; simp at h

theorem first_match_len_pos (c : Char) (cs : List Char) (ty : Int) (len : Nat)
    (h : first_match c cs = some (ty, len)) : 1 ≤ len := by
  unfold first_match at h
  split_ifs at h <;> simp only [Option.some.injEq, Prod.mk.injEq] at h <;> omega

theorem make_token_loop_bytes_total (fuel : Nat) :
    ∀ (e : List Char) (pos : Nat) (m : Memory), (e.drop pos).length < fuel →
      (∃ r, make_token_loop_bytes e fuel pos m = .ok r) ∨
        ∃ x, make_token_loop_bytes e fuel pos m = .error (.out_of_bounds x) := by
  induction fuel with
  | zero => intro e pos m h; omega
  | succ fuel ih =>
    intro e pos m hfuel
    cases hrest : e.drop pos with
    | nil =>
      have hle : e.length ≤ pos := by
        by_contra hc
        have : (e.drop pos).length = 0 := by rw [hrest]; rfl
        rw [List.length_drop] at this
        omega
      exact Or.inl ⟨_, by rw [make_token_loop_bytes, if_pos hle]⟩
    | cons c cs =>
      rw [make_token_loop_bytes_step e fuel pos m c cs hrest]
      rw [hrest, List.length_cons] at hfuel
      cases hfm : first_match c cs with
      | none => exact Or.inl ⟨_, rfl⟩
      | some x =>
        obtain ⟨ty, len⟩ := x
        have hlen := first_match_len_pos c cs ty len hfm
        have hnext : (e.drop (pos + len)).length < fuel := by
          rw [← List.drop_drop, hrest, List.length_drop, List.length_cons]
          omega
        simp only []
        split_ifs
        · exact ih e _ m hnext
        · exact Or.inl ⟨_, rfl⟩
        · cases hrec : record_token m ty ((c :: cs).take len) with
          | error f =>
            obtain ⟨x, hx⟩ := record_token_fault _ _ _ _ hrec
            exact Or.inr ⟨x, by rw [hx]⟩
          | ok m' => exact ih e _ m' hnext

/-- The functions `make_token` and `expr` on the bytes never run out of fuel:
they return, or they write outside the array. -/
theorem expr_bytes_total (m : Memory) (e : List Char) (success : Bool) :
    ((∃ r, make_token_bytes m e = .ok r) ∨
      ∃ x, make_token_bytes m e = .error (.out_of_bounds x)) ∧
    ((∃ r, expr_bytes m e success = .ok r) ∨
      ∃ x, expr_bytes m e success = .error (.out_of_bounds x)) := by
  have hmt := make_token_loop_bytes_total (e.length + 1) e 0 { m with nr_token := 0 }
    (by simp)
  refine ⟨hmt, ?_⟩
  unfold expr_bytes
  rcases hmt with ⟨r, hr⟩ | ⟨x, hx⟩
  · obtain ⟨b, pos, m'⟩ := r
    rw [make_token_bytes, hr]
    cases b with
    | false => exact Or.inl ⟨_, rfl⟩
    | true =>
      simp only []
      obtain ⟨v, hv⟩ := eval_total m'.tokens (m'.nr_token.toNat + 1) 0 (m'.nr_token - 1)
        success (le_refl _) (by omega)
      rw [hv]
      exact Or.inl ⟨_, rfl⟩
  · rw [make_token_bytes, hx]
    exact Or.inr ⟨x, rfl⟩

end Sdb
